import Mathlib

/-!
Verification of the LIRS (Low Inter-reference Recency Set) cache.

This file gives a shallow embedding of the C++ class `LIRSCache<K, V>`
(file `lirs_cache.hpp` of the repository) and proves, or refutes, a list of
claims about its behaviour.

Modelling conventions, matching the source line by line:

* `std::list` instances (`cache_`, `lirs_stack_`, `hir_stack_`) are Lean
  lists whose head is the list front; `push_front` is `cons`, `back()` is
  `List.getLast?`, `pop_back` is `List.dropLast`.
* erasing through a stored iterator (`erase(entry.lirs_iter)` etc.) removes
  the unique occurrence of the key; it is modelled by removing the first
  occurrence of the key (`removeK` / `eraseKey`).  The iterator always
  points at that occurrence whenever the corresponding `in_...` flag is
  true, which is the only situation in which the source erases it.
* `std::unordered_map<K, Entry>` is modelled extensionally as a function
  `K -> Option Entry`; `operator[]` on an absent key inserts a
  value-initialised `Entry` (all flags false), which the model reproduces.
* `double hir_ratio` is modelled by an exact rational.  Every IEEE double
  is a rational number and the constructor's validity guards
  (`hir_ratio <= 0.0 || hir_ratio >= 1.0`) are exact comparisons, so the
  success/failure behaviour of construction is translated faithfully;
  `static_cast<std::size_t>` of the non-negative product is `floor`.
* `throw std::invalid_argument` at construction is modelled by `Option`:
  `none` means the constructor threw and no engine instance exists.
* iterator dereference that the C++ code performs only under invariants
  (e.g. `cache.erase(entry.data_iter)` for a key that is resident) is
  modelled by the corresponding key-based operation, which is a no-op when
  the key is absent; the source would have undefined behaviour there, and
  none of those situations is reachable.
-/

set_option maxHeartbeats 1000000
set_option linter.unnecessarySimpa false
set_option linter.unusedSectionVars false

namespace LIRS

/-- Per-key metadata record, mirroring `struct Entry` of the source
(the three iterator fields are positional handles and carry no extra
information beyond the flags plus the containers themselves). -/
structure Entry where
  is_LIR : Bool
  is_resident : Bool
  in_lirs_stack : Bool
  in_hir_stack : Bool
deriving DecidableEq, Repr

instance : Inhabited Entry := ⟨⟨false, false, false, false⟩⟩

/-- The entry table `std::unordered_map<K, Entry>`, modelled extensionally. -/
def EMap (K : Type) : Type := K → Option Entry

variable {K V : Type} [DecidableEq K]

/-- `map[key] = e` (insert or overwrite). -/
def mapSet (m : EMap K) (k : K) (e : Entry) : EMap K :=
  fun j => if j = k then some e else m j

/-- `map.erase(key)`. -/
def mapErase (m : EMap K) (k : K) : EMap K :=
  fun j => if j = k then none else m j

/-- `map[key]` as an lvalue: value-initialises an absent entry. -/
def mapTouch (m : EMap K) (k : K) : EMap K :=
  if (m k).isSome = true then m else mapSet m k default

@[simp] theorem mapSet_same (m : EMap K) (k : K) (e : Entry) : mapSet m k e k = some e := by
  simp [mapSet]

theorem mapSet_other (m : EMap K) (k : K) (e : Entry) {j : K} (h : j ≠ k) :
    mapSet m k e j = m j := by
  simp [mapSet, h]

@[simp] theorem mapErase_same (m : EMap K) (k : K) : mapErase m k k = none := by
  simp [mapErase]

theorem mapErase_other (m : EMap K) (k : K) {j : K} (h : j ≠ k) : mapErase m k j = m j := by
  simp [mapErase, h]

/-- Remove the first occurrence of a key from a key list
(`std::list::erase` through the stored iterator). -/
def removeK : List K → K → List K
  | [], _ => []
  | a :: rest, k => if a = k then rest else a :: removeK rest k

/-- Keys of a pair list. -/
def keysOf (c : List (K × V)) : List K := c.map Prod.fst

/-- Remove the pair holding a key from the value store
(`cache.erase(entry.data_iter)`). -/
def eraseKey : List (K × V) → K → List (K × V)
  | [], _ => []
  | p :: rest, k => if p.1 = k then rest else p :: eraseKey rest k

/-- Overwrite the stored value of a key in place
(`entry.data_iter->second = value`). -/
def updateCache : List (K × V) → K → V → List (K × V)
  | [], _, _ => []
  | p :: rest, k, v => if p.1 = k then (p.1, v) :: rest else p :: updateCache rest k v

/-- Read the stored value of a key (`entry.data_iter->second`). -/
def lookupCache : List (K × V) → K → Option V
  | [], _ => none
  | p :: rest, k => if p.1 = k then some p.2 else lookupCache rest k

/-- The whole engine state: configuration plus the four containers of
`LIRSCache`. -/
structure CState (K V : Type) where
  capacity_ : Nat
  hir_capacity_ : Nat
  lir_capacity_ : Nat
  lir_count_ : Nat
  cache_ : List (K × V)
  lirs_stack_ : List K
  hir_stack_ : List K
  map_ : EMap K

/-- `LIRSCache::stack_pruning`, acting on the reversed stack S (head of the
argument list is the bottom of S).  Returns the remaining reversed stack
and the updated entry table. -/
def pruneRec : List K → EMap K → List K × EMap K
  | [], m => ([], m)
  | bk :: rest, m =>
    let m0 := mapTouch m bk
    let e := (m0 bk).getD default
    if e.is_LIR = true then (bk :: rest, m0)
    else
      let m1 := mapSet m0 bk { e with in_lirs_stack := false }
      let m2 := if e.is_resident = true then m1 else mapErase m1 bk
      pruneRec rest m2

/-- `LIRSCache::stack_pruning`. -/
def stack_pruning (st : CState K V) : CState K V :=
  let pr := pruneRec st.lirs_stack_.reverse st.map_
  { st with lirs_stack_ := pr.1.reverse, map_ := pr.2 }

/-- `LIRSCache::demote_bottom_lir`. -/
def demote_bottom_lir (st : CState K V) : CState K V :=
  match st.lirs_stack_.getLast? with
  | none => st
  | some bk =>
    let m0 := mapTouch st.map_ bk
    let e := (m0 bk).getD default
    if e.is_LIR = true then
      { st with
        map_ := mapSet m0 bk { e with is_LIR := false, in_lirs_stack := false, in_hir_stack := true },
        lir_count_ := st.lir_count_ - 1,
        lirs_stack_ := st.lirs_stack_.dropLast,
        hir_stack_ := bk :: st.hir_stack_ }
    else { st with map_ := m0 }

/-- `LIRSCache::evict_hir_resident`. -/
def evict_hir_resident (st : CState K V) : CState K V :=
  match st.hir_stack_.getLast? with
  | none => st
  | some victim =>
    let m0 := mapTouch st.map_ victim
    let e := (m0 victim).getD default
    let c1 := eraseKey st.cache_ victim
    let m1 := mapSet m0 victim { e with is_resident := false, in_hir_stack := false }
    let m2 := if e.in_lirs_stack = true then m1 else mapErase m1 victim
    { st with cache_ := c1, hir_stack_ := st.hir_stack_.dropLast, map_ := m2 }

/-- First half of `LIRSCache::promote_to_lir` (everything before the calls
to `demote_bottom_lir` and `stack_pruning`): set `is_LIR`, bump the count,
move the key to the top of S, and remove it from Q when it is there.  `e`
is the caller's reference into the entry table for `key`; its field writes
are committed to the table here, exactly as the C++ reference semantics
make them visible to the two subroutine calls. -/
def promote_st1 (key : K) (e : Entry) (st : CState K V) : CState K V :=
  let e1 : Entry := { e with is_LIR := true }
  let S1 := key :: removeK st.lirs_stack_ key
  let Q1 := if e1.in_hir_stack = true then removeK st.hir_stack_ key else st.hir_stack_
  let e2 : Entry := if e1.in_hir_stack = true then { e1 with in_hir_stack := false } else e1
  { st with map_ := mapSet st.map_ key e2, lir_count_ := st.lir_count_ + 1,
            lirs_stack_ := S1, hir_stack_ := Q1 }

/-- `LIRSCache::promote_to_lir`. -/
def promote_to_lir (key : K) (e : Entry) (st : CState K V) : CState K V :=
  stack_pruning (demote_bottom_lir (promote_st1 key e st))

/-- `LIRSCache::access_lir` (the entry is not modified, only its stack
iterator, so it is not a parameter). -/
def access_lir (key : K) (st : CState K V) : CState K V :=
  let st1 : CState K V := { st with lirs_stack_ := key :: removeK st.lirs_stack_ key }
  if st.lirs_stack_.getLast? = some key then stack_pruning st1 else st1

/-- `LIRSCache::access_hir_resident`. -/
def access_hir_resident (key : K) (e : Entry) (st : CState K V) : CState K V :=
  if e.in_lirs_stack = true then promote_to_lir key e st
  else
    { st with
      lirs_stack_ := key :: st.lirs_stack_,
      hir_stack_ := key :: removeK st.hir_stack_ key,
      map_ := mapSet st.map_ key { e with in_lirs_stack := true } }

/-- `LIRSCache::access_hir_non_resident`. -/
def access_hir_non_resident (key : K) (value : V) (e : Entry) (st : CState K V) : CState K V :=
  let st1 := evict_hir_resident st
  let e1 : Entry := { e with is_resident := true }
  let st2 : CState K V :=
    { st1 with cache_ := (key, value) :: st1.cache_, map_ := mapSet st1.map_ key e1 }
  if e1.in_lirs_stack = true then promote_to_lir key e1 st2
  else
    { st2 with
      lirs_stack_ := key :: st2.lirs_stack_,
      hir_stack_ := key :: st2.hir_stack_,
      map_ := mapSet st2.map_ key { e1 with in_lirs_stack := true, in_hir_stack := true } }

/-- `LIRSCache::insert_new`. -/
def insert_new (key : K) (value : V) (st : CState K V) : CState K V :=
  if st.lir_count_ < st.lir_capacity_ then
    { st with cache_ := (key, value) :: st.cache_,
              lirs_stack_ := key :: st.lirs_stack_,
              map_ := mapSet st.map_ key
                { is_LIR := true, is_resident := true, in_lirs_stack := true, in_hir_stack := false },
              lir_count_ := st.lir_count_ + 1 }
  else
    let st1 := evict_hir_resident st
    { st1 with cache_ := (key, value) :: st1.cache_,
               lirs_stack_ := key :: st1.lirs_stack_,
               hir_stack_ := key :: st1.hir_stack_,
               map_ := mapSet st1.map_ key
                 { is_LIR := false, is_resident := true, in_lirs_stack := true, in_hir_stack := true } }

/-- `LIRSCache::get`: result value together with the state after the call. -/
def getOp (key : K) (st : CState K V) : Option V × CState K V :=
  match st.map_ key with
  | none => (none, st)
  | some e =>
    if e.is_resident = false then (none, st)
    else
      let st1 := if e.is_LIR = true then access_lir key st else access_hir_resident key e st
      (lookupCache st1.cache_ key, st1)

/-- `LIRSCache::put`. -/
def putOp (key : K) (value : V) (st : CState K V) : CState K V :=
  match st.map_ key with
  | none => insert_new key value st
  | some e =>
    if e.is_LIR = true then
      access_lir key { st with cache_ := updateCache st.cache_ key value }
    else if e.is_resident = true then
      access_hir_resident key e { st with cache_ := updateCache st.cache_ key value }
    else
      access_hir_non_resident key value e st

/-- `LIRSCache::size`. -/
def sizeFn (st : CState K V) : Nat := st.cache_.length

/-- `LIRSCache::capacity`. -/
def capacityFn (st : CState K V) : Nat := st.capacity_

/-- `LIRSCache::empty`. -/
def emptyFn (st : CState K V) : Bool := st.cache_.isEmpty

/-- The freshly constructed engine for a given capacity and the computed
`hir_capacity_` (the member-initialiser list of the constructor). -/
def initState (K V : Type) (cap hc : Nat) : CState K V :=
  { capacity_ := cap, hir_capacity_ := hc, lir_capacity_ := cap - hc, lir_count_ := 0,
    cache_ := [], lirs_stack_ := [], hir_stack_ := [], map_ := fun _ => none }

/-- `LIRSCache::LIRSCache(capacity, hir_ratio)`: `none` models the
`std::invalid_argument` throw (no engine instance is produced). -/
def mkLIRS (K V : Type) (cap : Nat) (hir_ratio : ℚ) : Option (CState K V) :=
  if cap = 0 then none
  else if hir_ratio ≤ 0 ∨ 1 ≤ hir_ratio then none
  else some (initState K V cap (max 1 ((cap * hir_ratio).floor.toNat)))

/-- A public operation of the engine. -/
inductive Op (K V : Type) where
  | get : K → Op K V
  | put : K → V → Op K V

/-- Apply one public operation. -/
def step (st : CState K V) : Op K V → CState K V
  | Op.get k => (getOp k st).2
  | Op.put k v => putOp k v st

/-- Apply a sequence of public operations. -/
def runOps (st : CState K V) (ops : List (Op K V)) : CState K V := ops.foldl step st

/-! ### Helper lemmas about the container operations -/

theorem removeK_not_mem {l : List K} {k : K} (h : k ∉ l) : removeK l k = l := by
  induction l with
  | nil => rfl
  | cons a rest ih =>
    have ha : a ≠ k := fun hak => h (hak ▸ List.mem_cons_self a rest)
    have hk : k ∉ rest := fun hk => h (List.mem_cons_of_mem a hk)
    simp [removeK, ha, ih hk]

theorem mem_of_mem_removeK {l : List K} {k j : K} (h : j ∈ removeK l k) : j ∈ l := by
  induction l with
  | nil => simpa [removeK] using h
  | cons a rest ih =>
    by_cases hak : a = k
    · simp only [removeK, if_pos hak] at h
      exact List.mem_cons_of_mem a h
    · simp only [removeK, if_neg hak, List.mem_cons] at h
      rcases h with h | h
      · exact h ▸ List.mem_cons_self a rest
      · exact List.mem_cons_of_mem a (ih h)

theorem mem_removeK_of_ne {l : List K} {k j : K} (hj : j ∈ l) (hne : j ≠ k) :
    j ∈ removeK l k := by
  induction l with
  | nil => simpa using hj
  | cons a rest ih =>
    by_cases hak : a = k
    · simp only [removeK, if_pos hak]
      rcases List.mem_cons.mp hj with h | h
      · exact absurd (h.trans hak) hne
      · exact h
    · simp only [removeK, if_neg hak, List.mem_cons]
      rcases List.mem_cons.mp hj with h | h
      · exact Or.inl h
      · exact Or.inr (ih h)

theorem removeK_sublist (l : List K) (k : K) : (removeK l k).Sublist l := by
  induction l with
  | nil => simp [removeK]
  | cons a rest ih =>
    by_cases hak : a = k
    · simpa [removeK, hak] using List.sublist_cons_self a rest
    · simpa [removeK, hak] using List.Sublist.cons₂ a ih

theorem nodup_removeK {l : List K} (h : l.Nodup) (k : K) : (removeK l k).Nodup :=
  (removeK_sublist l k).nodup h

theorem not_mem_removeK_self {l : List K} (h : l.Nodup) (k : K) : k ∉ removeK l k := by
  induction l with
  | nil => simp [removeK]
  | cons a rest ih =>
    have hnd := (List.nodup_cons.mp h).2
    have hna := (List.nodup_cons.mp h).1
    by_cases hak : a = k
    · simpa [removeK, hak] using fun hk => hna (hak ▸ hk)
    · simp only [removeK, if_neg hak, List.mem_cons]
      rintro (h1 | h1)
      · exact hak h1.symm
      · exact ih hnd h1

theorem mem_removeK_iff {l : List K} (h : l.Nodup) (k j : K) :
    j ∈ removeK l k ↔ j ∈ l ∧ j ≠ k := by
  constructor
  · intro hj
    refine ⟨mem_of_mem_removeK hj, ?_⟩
    intro hjk
    exact not_mem_removeK_self h _ (hjk ▸ hj)
  · rintro ⟨h1, h2⟩
    exact mem_removeK_of_ne h1 h2

theorem length_removeK_of_mem {l : List K} {k : K} (h : k ∈ l) :
    (removeK l k).length + 1 = l.length := by
  induction l with
  | nil => simp at h
  | cons a rest ih =>
    by_cases hak : a = k
    · simp [removeK, hak]
    · have : k ∈ rest := by
        rcases List.mem_cons.mp h with h1 | h1
        · exact absurd h1.symm hak
        · exact h1
      simp [removeK, hak, ← ih this]

theorem removeK_append_of_mem_left {xs : List K} (ys : List K) {k : K} (h : k ∈ xs) :
    removeK (xs ++ ys) k = removeK xs k ++ ys := by
  induction xs with
  | nil => simp at h
  | cons a rest ih =>
    by_cases hak : a = k
    · simp [removeK, hak]
    · have : k ∈ rest := by
        rcases List.mem_cons.mp h with h1 | h1
        · exact absurd h1.symm hak
        · exact h1
      simp [removeK, hak, ih this]

theorem exists_append_of_getLast? {l : List K} {b : K} (h : l.getLast? = some b) :
    ∃ xs, l = xs ++ [b] :=
  List.getLast?_eq_some_iff.mp h

/-! keys of the value store -/

@[simp] theorem keysOf_nil : keysOf ([] : List (K × V)) = [] := rfl

@[simp] theorem keysOf_cons (p : K × V) (c : List (K × V)) :
    keysOf (p :: c) = p.1 :: keysOf c := rfl

theorem keysOf_updateCache (c : List (K × V)) (k : K) (v : V) :
    keysOf (updateCache c k v) = keysOf c := by
  induction c with
  | nil => rfl
  | cons p rest ih =>
    by_cases hp : p.1 = k
    · simp [updateCache, hp]
    · simp [updateCache, hp, ih]

theorem length_updateCache (c : List (K × V)) (k : K) (v : V) :
    (updateCache c k v).length = c.length := by
  induction c with
  | nil => rfl
  | cons p rest ih =>
    by_cases hp : p.1 = k
    · simp [updateCache, hp]
    · simp [updateCache, hp, ih]

theorem lookupCache_updateCache_same {c : List (K × V)} {k : K} (v : V)
    (h : k ∈ keysOf c) : lookupCache (updateCache c k v) k = some v := by
  induction c with
  | nil => simp at h
  | cons p rest ih =>
    by_cases hp : p.1 = k
    · simp [updateCache, lookupCache, hp]
    · have : k ∈ keysOf rest := by
        rcases List.mem_cons.mp h with h1 | h1
        · exact absurd h1.symm hp
        · exact h1
      simp [updateCache, lookupCache, hp, ih this]

theorem lookupCache_updateCache_other (c : List (K × V)) (k : K) (v : V) {j : K}
    (h : j ≠ k) : lookupCache (updateCache c k v) j = lookupCache c j := by
  induction c with
  | nil => rfl
  | cons p rest ih =>
    by_cases hp : p.1 = k
    · have hpj : p.1 ≠ j := by
        rw [hp]
        exact fun hh => h hh.symm
      have hkj : k ≠ j := fun hh => h hh.symm
      simp [updateCache, lookupCache, hp, hpj, hkj]
    · by_cases hpj : p.1 = j
      · simp [updateCache, lookupCache, hp, hpj, fun hh : j = k => h hh]
      · simp [updateCache, lookupCache, hp, hpj, ih]

theorem lookupCache_isSome_iff (c : List (K × V)) (k : K) :
    (lookupCache c k).isSome = true ↔ k ∈ keysOf c := by
  induction c with
  | nil => simp [lookupCache]
  | cons p rest ih =>
    by_cases hp : p.1 = k
    · simp [lookupCache, hp]
    · have hkp : k ≠ p.1 := fun hh => hp hh.symm
      simp [lookupCache, hp, ih, hkp]

theorem lookupCache_eq_none_iff (c : List (K × V)) (k : K) :
    lookupCache c k = none ↔ k ∉ keysOf c := by
  rw [← lookupCache_isSome_iff]
  cases lookupCache c k <;> simp

theorem keysOf_eraseKey_subset (c : List (K × V)) (k : K) {j : K}
    (h : j ∈ keysOf (eraseKey c k)) : j ∈ keysOf c := by
  induction c with
  | nil => simpa [eraseKey] using h
  | cons p rest ih =>
    by_cases hp : p.1 = k
    · simp only [eraseKey, if_pos hp] at h
      exact List.mem_cons_of_mem _ h
    · simp only [eraseKey, if_neg hp, keysOf_cons, List.mem_cons] at h ⊢
      rcases h with h | h
      · exact Or.inl h
      · exact Or.inr (ih h)

theorem mem_keysOf_eraseKey_of_ne {c : List (K × V)} {k j : K} (hj : j ∈ keysOf c)
    (hne : j ≠ k) : j ∈ keysOf (eraseKey c k) := by
  induction c with
  | nil => simpa using hj
  | cons p rest ih =>
    by_cases hp : p.1 = k
    · simp only [eraseKey, if_pos hp]
      rcases List.mem_cons.mp hj with h | h
      · exact absurd (h.trans hp) hne
      · exact h
    · simp only [eraseKey, if_neg hp, keysOf_cons, List.mem_cons]
      rcases List.mem_cons.mp hj with h | h
      · exact Or.inl h
      · exact Or.inr (ih h)

theorem keysOf_eraseKey_sublist (c : List (K × V)) (k : K) :
    (keysOf (eraseKey c k)).Sublist (keysOf c) := by
  induction c with
  | nil => simp [eraseKey]
  | cons p rest ih =>
    by_cases hp : p.1 = k
    · simpa [eraseKey, hp] using List.sublist_cons_self p.1 (keysOf rest)
    · simpa [eraseKey, hp] using List.Sublist.cons₂ p.1 ih

theorem nodup_keysOf_eraseKey {c : List (K × V)} (h : (keysOf c).Nodup) (k : K) :
    (keysOf (eraseKey c k)).Nodup :=
  (keysOf_eraseKey_sublist c k).nodup h

theorem not_mem_keysOf_eraseKey {c : List (K × V)} (h : (keysOf c).Nodup) (k : K) :
    k ∉ keysOf (eraseKey c k) := by
  induction c with
  | nil => simp [eraseKey]
  | cons p rest ih =>
    have hnd := (List.nodup_cons.mp h).2
    have hna := (List.nodup_cons.mp h).1
    by_cases hp : p.1 = k
    · simp only [eraseKey, if_pos hp]
      intro hk
      apply hna
      rw [hp]
      exact hk
    · simp only [eraseKey, if_neg hp, keysOf_cons, List.mem_cons]
      rintro (h1 | h1)
      · exact hp h1.symm
      · exact ih hnd h1

theorem mem_keysOf_eraseKey_iff {c : List (K × V)} (h : (keysOf c).Nodup) (k j : K) :
    j ∈ keysOf (eraseKey c k) ↔ j ∈ keysOf c ∧ j ≠ k := by
  constructor
  · intro hj
    refine ⟨keysOf_eraseKey_subset c k hj, ?_⟩
    intro hjk
    exact not_mem_keysOf_eraseKey h _ (hjk ▸ hj)
  · rintro ⟨h1, h2⟩
    exact mem_keysOf_eraseKey_of_ne h1 h2

theorem length_eraseKey_of_mem {c : List (K × V)} {k : K} (h : k ∈ keysOf c) :
    (eraseKey c k).length + 1 = c.length := by
  induction c with
  | nil => simp at h
  | cons p rest ih =>
    by_cases hp : p.1 = k
    · simp [eraseKey, hp]
    · have : k ∈ keysOf rest := by
        rcases List.mem_cons.mp h with h1 | h1
        · exact absurd h1.symm hp
        · exact h1
      simp [eraseKey, hp, ← ih this]

theorem lookupCache_eraseKey_other (c : List (K × V)) (k : K) {j : K} (h : j ≠ k) :
    lookupCache (eraseKey c k) j = lookupCache c j := by
  induction c with
  | nil => rfl
  | cons p rest ih =>
    by_cases hp : p.1 = k
    · have hkj : k ≠ j := fun hh => h hh.symm
      simp [eraseKey, lookupCache, hp, hkj]
    · by_cases hpj : p.1 = j
      · simp [eraseKey, lookupCache, hp, hpj, h]
      · simp [eraseKey, lookupCache, hp, hpj, ih]

theorem mapTouch_of_isSome {m : EMap K} {k : K} (h : (m k).isSome = true) :
    mapTouch m k = m := by
  simp [mapTouch, h]

/-! ### Characterisation of `stack_pruning`

`pruneRec` splits the reversed stack into a dropped prefix (scanned from the
bottom of S, all non-LIR) and a kept suffix whose first element — the new
bottom of S — is LIR.  Dropped resident entries merely lose their
`in_lirs_stack` flag; dropped non-resident entries are deleted. -/

theorem pruneRec_spec (revS : List K) (m : EMap K) (nd : revS.Nodup)
    (hmem : ∀ k, k ∈ revS → (m k).isSome = true) :
    ∃ dr : List K,
      revS = dr ++ (pruneRec revS m).1 ∧
      (∀ k, k ∈ dr → ∃ e, m k = some e ∧ e.is_LIR = false ∧
        (pruneRec revS m).2 k =
          (if e.is_resident = true then some { e with in_lirs_stack := false } else none)) ∧
      (∀ k, k ∉ dr → (pruneRec revS m).2 k = m k) ∧
      (∀ b, (pruneRec revS m).1.head? = some b → ∃ e, m b = some e ∧ e.is_LIR = true) := by
  induction revS generalizing m with
  | nil =>
    refine ⟨[], by simp [pruneRec], by simp, fun k _ => by simp [pruneRec], ?_⟩
    intro b hb
    simp [pruneRec] at hb
  | cons bk rest ih =>
    have hbk : (m bk).isSome = true := hmem bk (List.mem_cons_self bk rest)
    obtain ⟨e, he⟩ := Option.isSome_iff_exists.mp hbk
    have hT : mapTouch m bk = m := mapTouch_of_isSome hbk
    have hgetD : (m bk).getD default = e := by rw [he]; rfl
    have hbkrest : bk ∉ rest := (List.nodup_cons.mp nd).1
    by_cases hLIR : e.is_LIR = true
    · have hres : pruneRec (bk :: rest) m = (bk :: rest, m) := by
        simp [pruneRec, hT, hgetD, hLIR]
      refine ⟨[], by simp [hres], by simp, fun k _ => by simp [hres], ?_⟩
      intro b hb
      rw [hres] at hb
      simp only [List.head?_cons, Option.some.injEq] at hb
      subst hb
      exact ⟨e, he, hLIR⟩
    · -- the bottom is popped
      set m1 : EMap K := mapSet m bk { e with in_lirs_stack := false } with hm1
      set m2 : EMap K := if e.is_resident = true then m1 else mapErase m1 bk with hm2
      have hres : pruneRec (bk :: rest) m = pruneRec rest m2 := by
        simp only [pruneRec, hT, hgetD, hLIR, hm2, hm1]
        simp
      have hm2other : ∀ j, j ≠ bk → m2 j = m j := by
        intro j hj
        rw [hm2]
        by_cases hr : e.is_resident = true
        · rw [if_pos hr, hm1, mapSet_other _ _ _ hj]
        · rw [if_neg hr, mapErase_other _ _ hj, hm1, mapSet_other _ _ _ hj]
      have hm2bk : m2 bk =
          (if e.is_resident = true then some { e with in_lirs_stack := false } else none) := by
        rw [hm2]
        by_cases hr : e.is_resident = true
        · rw [if_pos hr, if_pos hr, hm1, mapSet_same]
        · rw [if_neg hr, if_neg hr, mapErase_same]
      have hmem2 : ∀ k, k ∈ rest → (m2 k).isSome = true := by
        intro k hk
        have : k ≠ bk := fun hh => hbkrest (hh ▸ hk)
        rw [hm2other k this]
        exact hmem k (List.mem_cons_of_mem bk hk)
      obtain ⟨dr', hsplit, hdropped, hkept, hhead⟩ :=
        ih m2 (List.nodup_cons.mp nd).2 hmem2
      have hdr'rest : ∀ k, k ∈ dr' → k ∈ rest := by
        intro k hk
        rw [hsplit]
        exact List.mem_append_left _ hk
      refine ⟨bk :: dr', ?_, ?_, ?_, ?_⟩
      · rw [hres, List.cons_append, ← hsplit]
      · intro k hk
        rcases List.mem_cons.mp hk with hk | hk
        · subst hk
          refine ⟨e, he, by simpa using hLIR, ?_⟩
        -- the recursion never touches bk again
          have hbkdr' : k ∉ dr' := fun hh => hbkrest (hdr'rest k hh)
          rw [hres, hkept k hbkdr', hm2bk]
        · obtain ⟨e', he', hL', hfin⟩ := hdropped k hk
          have hne : k ≠ bk := fun hh => hbkrest (hh ▸ hdr'rest k hk)
          rw [hm2other k hne] at he'
          exact ⟨e', he', hL', by rw [hres]; exact hfin⟩
      · intro k hk
        have hk1 : k ≠ bk := fun hh => hk (hh ▸ List.mem_cons_self bk dr')
        have hk2 : k ∉ dr' := fun hh => hk (List.mem_cons_of_mem bk hh)
        rw [hres, hkept k hk2, hm2other k hk1]
      · intro b hb
        rw [hres] at hb
        obtain ⟨e', he', hL'⟩ := hhead b hb
        have hbmem : b ∈ rest := by
          have : b ∈ (pruneRec rest m2).1 := by
            rcases hx : (pruneRec rest m2).1 with _ | ⟨c, cs⟩
            · rw [hx] at hb; simp at hb
            · rw [hx] at hb
              simp only [List.head?_cons, Option.some.injEq] at hb
              subst hb
              simp [hx]
          rw [hsplit]
          exact List.mem_append_right _ this
        have hne : b ≠ bk := fun hh => hbkrest (hh ▸ hbmem)
        rw [hm2other b hne] at he'
        exact ⟨e', he', hL'⟩

theorem stack_pruning_spec (st : CState K V) (nd : st.lirs_stack_.Nodup)
    (hmem : ∀ k, k ∈ st.lirs_stack_ → (st.map_ k).isSome = true) :
    (stack_pruning st).cache_ = st.cache_ ∧
    (stack_pruning st).hir_stack_ = st.hir_stack_ ∧
    (stack_pruning st).lir_count_ = st.lir_count_ ∧
    (stack_pruning st).capacity_ = st.capacity_ ∧
    (stack_pruning st).hir_capacity_ = st.hir_capacity_ ∧
    (stack_pruning st).lir_capacity_ = st.lir_capacity_ ∧
    ∃ dr : List K,
      (∀ k, k ∈ dr → k ∈ st.lirs_stack_) ∧
      (∀ k, k ∈ st.lirs_stack_ → k ∈ dr ∨ k ∈ (stack_pruning st).lirs_stack_) ∧
      (∀ k, k ∈ (stack_pruning st).lirs_stack_ → k ∈ st.lirs_stack_ ∧ k ∉ dr) ∧
      (stack_pruning st).lirs_stack_.Nodup ∧
      (∀ k, k ∈ dr → ∃ e, st.map_ k = some e ∧ e.is_LIR = false ∧
        (stack_pruning st).map_ k =
          (if e.is_resident = true then some { e with in_lirs_stack := false } else none)) ∧
      (∀ k, k ∉ dr → (stack_pruning st).map_ k = st.map_ k) ∧
      (∀ b, (stack_pruning st).lirs_stack_.getLast? = some b →
        ∃ e, st.map_ b = some e ∧ e.is_LIR = true) := by
  obtain ⟨dr, hsplit, hdropped, hkept, hhead⟩ :=
    pruneRec_spec st.lirs_stack_.reverse st.map_ (List.nodup_reverse.mpr nd)
      (fun k hk => hmem k (List.mem_reverse.mp hk))
  have hS' : (stack_pruning st).lirs_stack_ =
      (pruneRec st.lirs_stack_.reverse st.map_).1.reverse := rfl
  have hM' : (stack_pruning st).map_ = (pruneRec st.lirs_stack_.reverse st.map_).2 := rfl
  have hndrev : (dr ++ (pruneRec st.lirs_stack_.reverse st.map_).1).Nodup := by
    rw [← hsplit]
    exact List.nodup_reverse.mpr nd
  have hdisj : ∀ k, k ∈ dr → k ∉ (pruneRec st.lirs_stack_.reverse st.map_).1 :=
    fun k hk => (List.nodup_append.mp hndrev).2.2 hk
  have hmemsplit : ∀ k, k ∈ st.lirs_stack_ ↔
      (k ∈ dr ∨ k ∈ (pruneRec st.lirs_stack_.reverse st.map_).1) := by
    intro k
    constructor
    · intro hk
      have h2 : k ∈ dr ++ (pruneRec st.lirs_stack_.reverse st.map_).1 := by
        rw [← hsplit]
        exact List.mem_reverse.mpr hk
      exact List.mem_append.mp h2
    · intro hk
      have h2 : k ∈ dr ++ (pruneRec st.lirs_stack_.reverse st.map_).1 :=
        List.mem_append.mpr hk
      rw [← hsplit] at h2
      exact List.mem_reverse.mp h2
  refine ⟨rfl, rfl, rfl, rfl, rfl, rfl, dr, ?_, ?_, ?_, ?_, ?_, ?_, ?_⟩
  · intro k hk
    exact (hmemsplit k).mpr (Or.inl hk)
  · intro k hk
    rcases (hmemsplit k).mp hk with h | h
    · exact Or.inl h
    · right
      rw [hS', List.mem_reverse]
      exact h
  · intro k hk
    rw [hS', List.mem_reverse] at hk
    exact ⟨(hmemsplit k).mpr (Or.inr hk), fun hd => hdisj k hd hk⟩
  · rw [hS']
    exact List.nodup_reverse.mpr (List.nodup_append.mp hndrev).2.1
  · intro k hk
    obtain ⟨e, he, hL, hfin⟩ := hdropped k hk
    exact ⟨e, he, hL, by rw [hM']; exact hfin⟩
  · intro k hk
    rw [hM']
    exact hkept k hk
  · intro b hb
    rw [hS'] at hb
    have t := List.head?_reverse (pruneRec st.lirs_stack_.reverse st.map_).1.reverse
    rw [List.reverse_reverse] at t
    rw [← t] at hb
    exact hhead b hb

/-! ### The structural invariant

`WInv` holds at every public-operation boundary for every validly
constructed engine (including the degenerate configuration
`lir_capacity_ = 0` that arises from `capacity == 1`).  It ties the four
flags of each entry to actual membership in S, Q and the value store and
records the flag-level state constraints of the reachable per-key states. -/

structure WInv (st : CState K V) : Prop where
  ndS : st.lirs_stack_.Nodup
  ndQ : st.hir_stack_.Nodup
  ndC : (keysOf st.cache_).Nodup
  inS_iff : ∀ k e, st.map_ k = some e → (e.in_lirs_stack = true ↔ k ∈ st.lirs_stack_)
  inQ_iff : ∀ k e, st.map_ k = some e → (e.in_hir_stack = true ↔ k ∈ st.hir_stack_)
  res_iff : ∀ k e, st.map_ k = some e → (e.is_resident = true ↔ k ∈ keysOf st.cache_)
  memS : ∀ k, k ∈ st.lirs_stack_ → (st.map_ k).isSome = true
  memQ : ∀ k, k ∈ st.hir_stack_ → (st.map_ k).isSome = true
  memC : ∀ k, k ∈ keysOf st.cache_ → (st.map_ k).isSome = true
  lirF : ∀ k e, st.map_ k = some e → e.is_LIR = true →
    e.in_lirs_stack = true ∧ e.in_hir_stack = false ∧ e.is_resident = true
  ghostF : ∀ k e, st.map_ k = some e → e.is_resident = false →
    e.in_lirs_stack = true ∧ e.in_hir_stack = false
  resQ : ∀ k e, st.map_ k = some e → e.is_resident = true → e.is_LIR = false →
    e.in_hir_stack = true

theorem bool_eq_false {b : Bool} (h : ¬ b = true) : b = false := by
  cases b
  · rfl
  · exact absurd rfl h

theorem mem_of_getLast? {l : List K} {b : K} (h : l.getLast? = some b) : b ∈ l := by
  obtain ⟨xs, rfl⟩ := exists_append_of_getLast? h
  exact List.mem_append_right xs (List.mem_singleton.mpr rfl)

@[simp] theorem stack_pruning_cache (st : CState K V) :
    (stack_pruning st).cache_ = st.cache_ := rfl

@[simp] theorem stack_pruning_q (st : CState K V) :
    (stack_pruning st).hir_stack_ = st.hir_stack_ := rfl

@[simp] theorem stack_pruning_lc (st : CState K V) :
    (stack_pruning st).lir_count_ = st.lir_count_ := rfl

@[simp] theorem stack_pruning_cap (st : CState K V) :
    (stack_pruning st).capacity_ = st.capacity_ := rfl

@[simp] theorem stack_pruning_hcap (st : CState K V) :
    (stack_pruning st).hir_capacity_ = st.hir_capacity_ := rfl

@[simp] theorem stack_pruning_lcap (st : CState K V) :
    (stack_pruning st).lir_capacity_ = st.lir_capacity_ := rfl

theorem stack_pruning_winv {st : CState K V} (h : WInv st) : WInv (stack_pruning st) := by
  obtain ⟨hc, hq, hlc, _, _, _, dr, hdrS, hSsplit, hS'sub, hndS', hdropped, hkept, hbot⟩ :=
    stack_pruning_spec st h.ndS h.memS
  have hentry : ∀ k e', (stack_pruning st).map_ k = some e' →
      (k ∉ dr ∧ st.map_ k = some e') ∨
      (k ∈ dr ∧ ∃ e, st.map_ k = some e ∧ e.is_LIR = false ∧ e.is_resident = true ∧
        e' = { e with in_lirs_stack := false }) := by
    intro k e' he'
    by_cases hk : k ∈ dr
    · right
      obtain ⟨e, he, hL, hfin⟩ := hdropped k hk
      by_cases hr : e.is_resident = true
      · rw [if_pos hr] at hfin
        rw [hfin] at he'
        exact ⟨hk, e, he, hL, hr, (Option.some.injEq _ _ ▸ he').symm⟩
      · rw [if_neg hr] at hfin
        rw [hfin] at he'
        exact absurd he' (by simp)
    · left
      rw [hkept k hk] at he'
      exact ⟨hk, he'⟩
  have hSmem : ∀ k, k ∉ dr → (k ∈ (stack_pruning st).lirs_stack_ ↔ k ∈ st.lirs_stack_) := by
    intro k hk
    constructor
    · intro hm
      exact (hS'sub k hm).1
    · intro hm
      rcases hSsplit k hm with hm2 | hm2
      · exact absurd hm2 hk
      · exact hm2
  refine ⟨hndS', hq ▸ h.ndQ, hc ▸ h.ndC, ?_, ?_, ?_, ?_, ?_, ?_, ?_, ?_, ?_⟩
  · -- inS_iff
    intro k e' he'
    rcases hentry k e' he' with ⟨hk, hsome⟩ | ⟨hk, e, he, hL, hr, he2⟩
    · rw [hSmem k hk]
      exact h.inS_iff k e' hsome
    · refine iff_of_false ?_ (fun hh => (hS'sub k hh).2 hk)
      rw [he2]
      simp
  · -- inQ_iff
    intro k e' he'
    rw [hq]
    rcases hentry k e' he' with ⟨hk, hsome⟩ | ⟨hk, e, he, hL, hr, he2⟩
    · exact h.inQ_iff k e' hsome
    · rw [he2]
      exact h.inQ_iff k e he
  · -- res_iff
    intro k e' he'
    rw [hc]
    rcases hentry k e' he' with ⟨hk, hsome⟩ | ⟨hk, e, he, hL, hr, he2⟩
    · exact h.res_iff k e' hsome
    · rw [he2]
      exact h.res_iff k e he
  · -- memS
    intro k hk
    obtain ⟨hkS, hkdr⟩ := hS'sub k hk
    rw [hkept k hkdr]
    exact h.memS k hkS
  · -- memQ
    intro k hk
    rw [hq] at hk
    by_cases hd : k ∈ dr
    · obtain ⟨e, he, hL, hfin⟩ := hdropped k hd
      by_cases hr : e.is_resident = true
      · rw [if_pos hr] at hfin
        rw [hfin]
        rfl
      · exfalso
        have hg := h.ghostF k e he (bool_eq_false hr)
        exact absurd ((h.inQ_iff k e he).mpr hk) (by simp [hg.2])
    · rw [hkept k hd]
      exact h.memQ k hk
  · -- memC
    intro k hk
    rw [hc] at hk
    by_cases hd : k ∈ dr
    · obtain ⟨e, he, hL, hfin⟩ := hdropped k hd
      by_cases hr : e.is_resident = true
      · rw [if_pos hr] at hfin
        rw [hfin]
        rfl
      · exfalso
        have : e.is_resident = true := (h.res_iff k e he).mpr hk
        exact hr this
    · rw [hkept k hd]
      exact h.memC k hk
  · -- lirF
    intro k e' he' hL'
    rcases hentry k e' he' with ⟨hk, hsome⟩ | ⟨hk, e, he, hL, hr, he2⟩
    · exact h.lirF k e' hsome hL'
    · exfalso
      have hL2 : e.is_LIR = true := by
        rw [he2] at hL'
        exact hL'
      exact absurd (hL.symm.trans hL2) Bool.false_ne_true
  · -- ghostF
    intro k e' he' hres'
    rcases hentry k e' he' with ⟨hk, hsome⟩ | ⟨hk, e, he, hL, hr, he2⟩
    · exact h.ghostF k e' hsome hres'
    · exfalso
      have : e.is_resident = false := by
        rw [he2] at hres'
        exact hres'
      rw [hr] at this
      exact absurd this (by simp)
  · -- resQ
    intro k e' he' hres' hL'
    rcases hentry k e' he' with ⟨hk, hsome⟩ | ⟨hk, e, he, hL, hr, he2⟩
    · exact h.resQ k e' hsome hres' hL'
    · have hinq : e.in_hir_stack = true := h.resQ k e he hr hL
      rw [he2]
      exact hinq

theorem stack_pruning_keeps_lir {st : CState K V} (h : WInv st) :
    ∀ k e, st.map_ k = some e → e.is_LIR = true → (stack_pruning st).map_ k = some e := by
  obtain ⟨_, _, _, _, _, _, dr, _, _, _, _, hdropped, hkept, _⟩ :=
    stack_pruning_spec st h.ndS h.memS
  intro k e he hL
  by_cases hd : k ∈ dr
  · obtain ⟨e2, he2, hL2, _⟩ := hdropped k hd
    rw [he] at he2
    have : e = e2 := Option.some.injEq _ _ ▸ he2
    rw [← this] at hL2
    exact absurd (hL2.symm.trans hL) Bool.false_ne_true
  · rw [hkept k hd]
    exact he

theorem stack_pruning_no_new {st : CState K V} (h : WInv st) :
    ∀ k, ((stack_pruning st).map_ k).isSome = true → (st.map_ k).isSome = true := by
  obtain ⟨_, _, _, _, _, _, dr, _, _, _, _, hdropped, hkept, _⟩ :=
    stack_pruning_spec st h.ndS h.memS
  intro k hk
  by_cases hd : k ∈ dr
  · obtain ⟨e2, he2, _, _⟩ := hdropped k hd
    rw [he2]
    rfl
  · rw [hkept k hd] at hk
    exact hk

theorem stack_pruning_fields {st : CState K V} (h : WInv st) :
    ∀ k e', (stack_pruning st).map_ k = some e' → ∃ e, st.map_ k = some e ∧
      e'.is_LIR = e.is_LIR ∧ e'.is_resident = e.is_resident ∧
      e'.in_hir_stack = e.in_hir_stack := by
  obtain ⟨_, _, _, _, _, _, dr, _, _, _, _, hdropped, hkept, _⟩ :=
    stack_pruning_spec st h.ndS h.memS
  intro k e' he'
  by_cases hd : k ∈ dr
  · obtain ⟨e, he, hL, hfin⟩ := hdropped k hd
    by_cases hr : e.is_resident = true
    · rw [if_pos hr] at hfin
      rw [hfin] at he'
      have : { e with in_lirs_stack := false } = e' := Option.some.injEq _ _ ▸ he'
      rw [← this]
      exact ⟨e, he, rfl, rfl, rfl⟩
    · rw [if_neg hr] at hfin
      rw [hfin] at he'
      exact absurd he' (by simp)
  · rw [hkept k hd] at he'
    exact ⟨e', he', rfl, rfl, rfl⟩

theorem stack_pruning_bottom {st : CState K V} (h : WInv st) :
    ∀ b, (stack_pruning st).lirs_stack_.getLast? = some b →
      ∃ e, (stack_pruning st).map_ b = some e ∧ e.is_LIR = true := by
  obtain ⟨_, _, _, _, _, _, dr, _, _, hS'sub, _, _, hkept, hbot⟩ :=
    stack_pruning_spec st h.ndS h.memS
  intro b hb
  obtain ⟨e, he, hL⟩ := hbot b hb
  have hbmem : b ∈ (stack_pruning st).lirs_stack_ := mem_of_getLast? hb
  have hbdr : b ∉ dr := (hS'sub b hbmem).2
  rw [hkept b hbdr]
  exact ⟨e, he, hL⟩

/-! ### Characterisation of `demote_bottom_lir` and `evict_hir_resident` -/

theorem mapErase_mapSet (m : EMap K) (k : K) (e : Entry) :
    mapErase (mapSet m k e) k = mapErase m k := by
  funext j
  by_cases hj : j = k
  · subst hj
    simp [mapErase]
  · rw [mapErase_other _ _ hj, mapErase_other _ _ hj, mapSet_other _ _ _ hj]

theorem demote_empty {st : CState K V} (hq : st.lirs_stack_ = []) :
    demote_bottom_lir st = st := by
  simp [demote_bottom_lir, hq]

theorem demote_spec {st : CState K V} {bk : K} {e : Entry}
    (hlast : st.lirs_stack_.getLast? = some bk)
    (he : st.map_ bk = some e) :
    demote_bottom_lir st =
      (if e.is_LIR = true then
        { st with
          map_ := mapSet st.map_ bk
            { e with is_LIR := false, in_lirs_stack := false, in_hir_stack := true },
          lir_count_ := st.lir_count_ - 1,
          lirs_stack_ := st.lirs_stack_.dropLast,
          hir_stack_ := bk :: st.hir_stack_ }
      else st) := by
  have hsome : (st.map_ bk).isSome = true := by rw [he]; rfl
  simp only [demote_bottom_lir, hlast, mapTouch_of_isSome hsome, he, Option.getD_some]

theorem evict_empty {st : CState K V} (hq : st.hir_stack_ = []) :
    evict_hir_resident st = st := by
  simp [evict_hir_resident, hq]

theorem evict_spec {st : CState K V} {victim : K} {e : Entry}
    (hlast : st.hir_stack_.getLast? = some victim)
    (he : st.map_ victim = some e) :
    evict_hir_resident st =
      { st with cache_ := eraseKey st.cache_ victim,
                hir_stack_ := st.hir_stack_.dropLast,
                map_ := if e.in_lirs_stack = true
                  then mapSet st.map_ victim
                    { e with is_resident := false, in_hir_stack := false }
                  else mapErase st.map_ victim } := by
  have hsome : (st.map_ victim).isSome = true := by rw [he]; rfl
  simp only [evict_hir_resident, hlast, mapTouch_of_isSome hsome, he, Option.getD_some]
  split
  · rfl
  · rw [mapErase_mapSet]

@[simp] theorem evict_S (st : CState K V) :
    (evict_hir_resident st).lirs_stack_ = st.lirs_stack_ := by
  rcases hq : st.hir_stack_.getLast? with _ | v <;> simp [evict_hir_resident, hq]

@[simp] theorem evict_lc (st : CState K V) :
    (evict_hir_resident st).lir_count_ = st.lir_count_ := by
  rcases hq : st.hir_stack_.getLast? with _ | v <;> simp [evict_hir_resident, hq]

@[simp] theorem evict_cap (st : CState K V) :
    (evict_hir_resident st).capacity_ = st.capacity_ := by
  rcases hq : st.hir_stack_.getLast? with _ | v <;> simp [evict_hir_resident, hq]

@[simp] theorem evict_hcap (st : CState K V) :
    (evict_hir_resident st).hir_capacity_ = st.hir_capacity_ := by
  rcases hq : st.hir_stack_.getLast? with _ | v <;> simp [evict_hir_resident, hq]

@[simp] theorem evict_lcap (st : CState K V) :
    (evict_hir_resident st).lir_capacity_ = st.lir_capacity_ := by
  rcases hq : st.hir_stack_.getLast? with _ | v <;> simp [evict_hir_resident, hq]

/-- The classification of the victim popped from the bottom of Q: it is a
resident HIR key. -/
theorem evict_victim_entry {st : CState K V} (h : WInv st) {victim : K}
    (hlast : st.hir_stack_.getLast? = some victim) :
    ∃ e, st.map_ victim = some e ∧ e.is_LIR = false ∧ e.is_resident = true ∧
      e.in_hir_stack = true ∧ victim ∈ keysOf st.cache_ ∧ victim ∈ st.hir_stack_ := by
  have hvQ : victim ∈ st.hir_stack_ := mem_of_getLast? hlast
  obtain ⟨e, he⟩ := Option.isSome_iff_exists.mp (h.memQ victim hvQ)
  have hinq : e.in_hir_stack = true := (h.inQ_iff victim e he).mpr hvQ
  have hL : e.is_LIR = false := by
    by_cases hT : e.is_LIR = true
    · have := (h.lirF victim e he hT).2.1
      rw [this] at hinq
      exact absurd hinq (by simp)
    · exact bool_eq_false hT
  have hres : e.is_resident = true := by
    by_cases hR : e.is_resident = true
    · exact hR
    · have := (h.ghostF victim e he (bool_eq_false hR)).2
      rw [this] at hinq
      exact absurd hinq (by simp)
  exact ⟨e, he, hL, hres, hinq, (h.res_iff victim e he).mp hres, hvQ⟩

theorem evict_pop_winv {st : CState K V} (h : WInv st) {victim : K}
    (hlast : st.hir_stack_.getLast? = some victim) :
    WInv (evict_hir_resident st) := by
  obtain ⟨e, he, hL, hres, hinq, hkeys, hvQ⟩ := evict_victim_entry h hlast
  obtain ⟨xs, hxs⟩ := exists_append_of_getLast? hlast
  have hdrop : st.hir_stack_.dropLast = xs := by rw [hxs, List.dropLast_concat]
  have hndxs : xs.Nodup ∧ victim ∉ xs := by
    have hnd := h.ndQ
    rw [hxs] at hnd
    obtain ⟨h1, _, h3⟩ := List.nodup_append.mp hnd
    exact ⟨h1, fun hm => h3 hm (List.mem_singleton.mpr rfl)⟩
  have hmemxs : ∀ j, j ∈ xs ↔ (j ∈ st.hir_stack_ ∧ j ≠ victim) := by
    intro j
    constructor
    · intro hj
      refine ⟨by rw [hxs]; exact List.mem_append_left _ hj, ?_⟩
      rintro rfl
      exact hndxs.2 hj
    · rintro ⟨hj, hne⟩
      rw [hxs] at hj
      rcases List.mem_append.mp hj with hj | hj
      · exact hj
      · exact absurd (List.mem_singleton.mp hj) hne
  have heq := evict_spec hlast he
  have hS' : (evict_hir_resident st).lirs_stack_ = st.lirs_stack_ := evict_S st
  have hC' : (evict_hir_resident st).cache_ = eraseKey st.cache_ victim := by rw [heq]
  have hQ' : (evict_hir_resident st).hir_stack_ = xs := by rw [heq]; exact hdrop
  by_cases hin : e.in_lirs_stack = true
  · -- victim stays as a ghost entry in S
    have hM' : (evict_hir_resident st).map_ =
        mapSet st.map_ victim { e with is_resident := false, in_hir_stack := false } := by
      rw [heq, if_pos hin]
    refine ⟨hS' ▸ h.ndS, hQ' ▸ hndxs.1, hC' ▸ nodup_keysOf_eraseKey h.ndC victim,
      ?_, ?_, ?_, ?_, ?_, ?_, ?_, ?_, ?_⟩
    · -- inS_iff
      intro k e' he'
      rw [hM'] at he'
      rw [hS']
      by_cases hk : k = victim
      · subst hk
        rw [mapSet_same] at he'
        have heq2 : { e with is_resident := false, in_hir_stack := false } = e' :=
          Option.some.injEq _ _ ▸ he'
        rw [← heq2]
        simpa [hin] using (h.inS_iff _ e he).mp hin
      · rw [mapSet_other _ _ _ hk] at he'
        exact h.inS_iff k e' he'
    · -- inQ_iff
      intro k e' he'
      rw [hM'] at he'
      rw [hQ']
      by_cases hk : k = victim
      · subst hk
        rw [mapSet_same] at he'
        have heq2 : { e with is_resident := false, in_hir_stack := false } = e' :=
          Option.some.injEq _ _ ▸ he'
        rw [← heq2]
        exact iff_of_false (by simp) (fun hm => hndxs.2 hm)
      · rw [mapSet_other _ _ _ hk] at he'
        rw [hmemxs k]
        have hiff := h.inQ_iff k e' he'
        constructor
        · intro hf
          exact ⟨hiff.mp hf, hk⟩
        · intro hf
          exact hiff.mpr hf.1
    · -- res_iff
      intro k e' he'
      rw [hM'] at he'
      rw [hC']
      by_cases hk : k = victim
      · subst hk
        rw [mapSet_same] at he'
        have heq2 : { e with is_resident := false, in_hir_stack := false } = e' :=
          Option.some.injEq _ _ ▸ he'
        rw [← heq2]
        exact iff_of_false (by simp) (not_mem_keysOf_eraseKey h.ndC _)
      · rw [mapSet_other _ _ _ hk] at he'
        rw [mem_keysOf_eraseKey_iff h.ndC]
        have hiff := h.res_iff k e' he'
        constructor
        · intro hf
          exact ⟨hiff.mp hf, hk⟩
        · intro hf
          exact hiff.mpr hf.1
    · -- memS
      intro k hk
      rw [hS'] at hk
      rw [hM']
      by_cases hkv : k = victim
      · subst hkv
        rw [mapSet_same]
        rfl
      · rw [mapSet_other _ _ _ hkv]
        exact h.memS k hk
    · -- memQ
      intro k hk
      rw [hQ'] at hk
      rw [hM']
      have hkv : k ≠ victim := ((hmemxs k).mp hk).2
      rw [mapSet_other _ _ _ hkv]
      exact h.memQ k ((hmemxs k).mp hk).1
    · -- memC
      intro k hk
      rw [hC'] at hk
      rw [hM']
      rw [mem_keysOf_eraseKey_iff h.ndC] at hk
      rw [mapSet_other _ _ _ hk.2]
      exact h.memC k hk.1
    · -- lirF
      intro k e' he' hL'
      rw [hM'] at he'
      by_cases hk : k = victim
      · subst hk
        rw [mapSet_same] at he'
        have heq2 : { e with is_resident := false, in_hir_stack := false } = e' :=
          Option.some.injEq _ _ ▸ he'
        rw [← heq2] at hL'
        have hL2 : e.is_LIR = true := hL'
        rw [hL] at hL2
        exact absurd hL2 (by simp)
      · rw [mapSet_other _ _ _ hk] at he'
        exact h.lirF k e' he' hL'
    · -- ghostF
      intro k e' he' hres'
      rw [hM'] at he'
      by_cases hk : k = victim
      · subst hk
        rw [mapSet_same] at he'
        have heq2 : { e with is_resident := false, in_hir_stack := false } = e' :=
          Option.some.injEq _ _ ▸ he'
        rw [← heq2]
        exact ⟨hin, rfl⟩
      · rw [mapSet_other _ _ _ hk] at he'
        exact h.ghostF k e' he' hres'
    · -- resQ
      intro k e' he' hres' hL'
      rw [hM'] at he'
      by_cases hk : k = victim
      · subst hk
        rw [mapSet_same] at he'
        have heq2 : { e with is_resident := false, in_hir_stack := false } = e' :=
          Option.some.injEq _ _ ▸ he'
        rw [← heq2] at hres'
        have hb : (false : Bool) = true := hres'
        exact absurd hb (by simp)
      · rw [mapSet_other _ _ _ hk] at he'
        exact h.resQ k e' he' hres' hL'
  · -- the victim is not in S: its entry record is deleted
    have hM' : (evict_hir_resident st).map_ = mapErase st.map_ victim := by
      rw [heq, if_neg hin]
    have hvS : victim ∉ st.lirs_stack_ := fun hm =>
      hin ((h.inS_iff victim e he).mpr hm)
    refine ⟨hS' ▸ h.ndS, hQ' ▸ hndxs.1, hC' ▸ nodup_keysOf_eraseKey h.ndC victim,
      ?_, ?_, ?_, ?_, ?_, ?_, ?_, ?_, ?_⟩
    · -- inS_iff
      intro k e' he'
      rw [hM'] at he'
      rw [hS']
      by_cases hk : k = victim
      · subst hk
        rw [mapErase_same] at he'
        exact absurd he' (by simp)
      · rw [mapErase_other _ _ hk] at he'
        exact h.inS_iff k e' he'
    · -- inQ_iff
      intro k e' he'
      rw [hM'] at he'
      rw [hQ']
      by_cases hk : k = victim
      · subst hk
        rw [mapErase_same] at he'
        exact absurd he' (by simp)
      · rw [mapErase_other _ _ hk] at he'
        rw [hmemxs k]
        have hiff := h.inQ_iff k e' he'
        constructor
        · intro hf
          exact ⟨hiff.mp hf, hk⟩
        · intro hf
          exact hiff.mpr hf.1
    · -- res_iff
      intro k e' he'
      rw [hM'] at he'
      rw [hC']
      by_cases hk : k = victim
      · subst hk
        rw [mapErase_same] at he'
        exact absurd he' (by simp)
      · rw [mapErase_other _ _ hk] at he'
        rw [mem_keysOf_eraseKey_iff h.ndC]
        have hiff := h.res_iff k e' he'
        constructor
        · intro hf
          exact ⟨hiff.mp hf, hk⟩
        · intro hf
          exact hiff.mpr hf.1
    · -- memS
      intro k hk
      rw [hS'] at hk
      rw [hM']
      have hkv : k ≠ victim := fun hh => hvS (hh ▸ hk)
      rw [mapErase_other _ _ hkv]
      exact h.memS k hk
    · -- memQ
      intro k hk
      rw [hQ'] at hk
      rw [hM']
      have hkv : k ≠ victim := ((hmemxs k).mp hk).2
      rw [mapErase_other _ _ hkv]
      exact h.memQ k ((hmemxs k).mp hk).1
    · -- memC
      intro k hk
      rw [hC'] at hk
      rw [hM']
      rw [mem_keysOf_eraseKey_iff h.ndC] at hk
      rw [mapErase_other _ _ hk.2]
      exact h.memC k hk.1
    · -- lirF
      intro k e' he' hL'
      rw [hM'] at he'
      by_cases hk : k = victim
      · subst hk
        rw [mapErase_same] at he'
        exact absurd he' (by simp)
      · rw [mapErase_other _ _ hk] at he'
        exact h.lirF k e' he' hL'
    · -- ghostF
      intro k e' he' hres'
      rw [hM'] at he'
      by_cases hk : k = victim
      · subst hk
        rw [mapErase_same] at he'
        exact absurd he' (by simp)
      · rw [mapErase_other _ _ hk] at he'
        exact h.ghostF k e' he' hres'
    · -- resQ
      intro k e' he' hres' hL'
      rw [hM'] at he'
      by_cases hk : k = victim
      · subst hk
        rw [mapErase_same] at he'
        exact absurd he' (by simp)
      · rw [mapErase_other _ _ hk] at he'
        exact h.resQ k e' he' hres' hL'
theorem eq_nil_of_getLast? {l : List K} (h : l.getLast? = none) : l = [] := by
  cases hx : l with
  | nil => rfl
  | cons a t =>
    rw [hx] at h
    simp at h

/-- Bundled effect of a non-trivial eviction, for use at the call sites. -/
theorem evict_pop_facts {st : CState K V} (h : WInv st) {victim : K}
    (hlast : st.hir_stack_.getLast? = some victim) :
    (evict_hir_resident st).cache_ = eraseKey st.cache_ victim ∧
    (evict_hir_resident st).hir_stack_ = st.hir_stack_.dropLast ∧
    (evict_hir_resident st).cache_.length + 1 = st.cache_.length ∧
    (evict_hir_resident st).hir_stack_.length + 1 = st.hir_stack_.length ∧
    (∀ j, j ≠ victim → (evict_hir_resident st).map_ j = st.map_ j) ∧
    (∀ j, ((evict_hir_resident st).map_ j).isSome = true → (st.map_ j).isSome = true) ∧
    victim ∈ keysOf st.cache_ := by
  obtain ⟨e, he, hL, hres, hinq, hkeys, hvQ⟩ := evict_victim_entry h hlast
  obtain ⟨xs, hxs⟩ := exists_append_of_getLast? hlast
  have heq := evict_spec hlast he
  have hC' : (evict_hir_resident st).cache_ = eraseKey st.cache_ victim := by rw [heq]
  have hQ' : (evict_hir_resident st).hir_stack_ = st.hir_stack_.dropLast := by rw [heq]
  have hmo : ∀ j, j ≠ victim → (evict_hir_resident st).map_ j = st.map_ j := by
    intro j hj
    by_cases hin : e.in_lirs_stack = true
    · have hM : (evict_hir_resident st).map_ =
          mapSet st.map_ victim { e with is_resident := false, in_hir_stack := false } := by
        rw [heq, if_pos hin]
      rw [hM]
      exact mapSet_other _ _ _ hj
    · have hM : (evict_hir_resident st).map_ = mapErase st.map_ victim := by
        rw [heq, if_neg hin]
      rw [hM]
      exact mapErase_other _ _ hj
  refine ⟨hC', hQ', ?_, ?_, hmo, ?_, hkeys⟩
  · rw [hC']
    exact length_eraseKey_of_mem hkeys
  · rw [hQ', hxs, List.dropLast_concat]
    simp
  · intro j hj
    by_cases hjv : j = victim
    · subst hjv
      rw [he]
      rfl
    · rw [hmo j hjv] at hj
      exact hj

theorem evict_winv {st : CState K V} (h : WInv st) : WInv (evict_hir_resident st) := by
  rcases hq : st.hir_stack_.getLast? with _ | v
  · have hqe : st.hir_stack_ = [] := by
      cases hx : st.hir_stack_
      · rfl
      · rw [hx] at hq
        simp [List.getLast?_concat] at hq
    rw [evict_empty hqe]
    exact h
  · exact evict_pop_winv h hq

theorem demote_fire {st : CState K V} {bk : K} {e : Entry}
    (hlast : st.lirs_stack_.getLast? = some bk)
    (he : st.map_ bk = some e) (hL : e.is_LIR = true) :
    demote_bottom_lir st =
      { st with
        map_ := mapSet st.map_ bk
          { e with is_LIR := false, in_lirs_stack := false, in_hir_stack := true },
        lir_count_ := st.lir_count_ - 1,
        lirs_stack_ := st.lirs_stack_.dropLast,
        hir_stack_ := bk :: st.hir_stack_ } := by
  rw [demote_spec hlast he, if_pos hL]

theorem demote_skip {st : CState K V} {bk : K} {e : Entry}
    (hlast : st.lirs_stack_.getLast? = some bk)
    (he : st.map_ bk = some e) (hL : ¬ e.is_LIR = true) :
    demote_bottom_lir st = st := by
  rw [demote_spec hlast he, if_neg hL]

theorem demote_winv {st : CState K V} (h : WInv st) : WInv (demote_bottom_lir st) := by
  rcases hlast : st.lirs_stack_.getLast? with _ | bk
  · rw [demote_empty (eq_nil_of_getLast? hlast)]
    exact h
  have hbS : bk ∈ st.lirs_stack_ := mem_of_getLast? hlast
  obtain ⟨e, he⟩ := Option.isSome_iff_exists.mp (h.memS bk hbS)
  by_cases hL : e.is_LIR = true
  · -- the bottom LIR key is demoted
    have heq := demote_fire hlast he hL
    obtain ⟨xs, hxs⟩ := exists_append_of_getLast? hlast
    have hdrop : st.lirs_stack_.dropLast = xs := by rw [hxs, List.dropLast_concat]
    have hndxs : xs.Nodup ∧ bk ∉ xs := by
      have hnd := h.ndS
      rw [hxs] at hnd
      obtain ⟨h1, _, h3⟩ := List.nodup_append.mp hnd
      exact ⟨h1, fun hm => h3 hm (List.mem_singleton.mpr rfl)⟩
    have hmemxs : ∀ j, j ∈ xs ↔ (j ∈ st.lirs_stack_ ∧ j ≠ bk) := by
      intro j
      constructor
      · intro hj
        refine ⟨by rw [hxs]; exact List.mem_append_left _ hj, ?_⟩
        rintro rfl
        exact hndxs.2 hj
      · rintro ⟨hj, hne⟩
        rw [hxs] at hj
        rcases List.mem_append.mp hj with hj | hj
        · exact hj
        · exact absurd (List.mem_singleton.mp hj) hne
    obtain ⟨hinSb, hinQb, hresb⟩ := h.lirF bk e he hL
    have hbQ : bk ∉ st.hir_stack_ := fun hm => by
      have := (h.inQ_iff bk e he).mpr hm
      rw [hinQb] at this
      exact absurd this (by simp)
    have hS' : (demote_bottom_lir st).lirs_stack_ = xs := by rw [heq]; exact hdrop
    have hQ' : (demote_bottom_lir st).hir_stack_ = bk :: st.hir_stack_ := by rw [heq]
    have hC' : (demote_bottom_lir st).cache_ = st.cache_ := by rw [heq]
    have hM' : (demote_bottom_lir st).map_ =
        mapSet st.map_ bk { e with is_LIR := false, in_lirs_stack := false, in_hir_stack := true } := by
      rw [heq]
    refine ⟨hS' ▸ hndxs.1, ?_, hC' ▸ h.ndC, ?_, ?_, ?_, ?_, ?_, ?_, ?_, ?_, ?_⟩
    · rw [hQ']
      exact List.nodup_cons.mpr ⟨hbQ, h.ndQ⟩
    · -- inS_iff
      intro k e' he'
      rw [hM'] at he'
      rw [hS']
      by_cases hk : k = bk
      · subst hk
        rw [mapSet_same] at he'
        have heq2 : { e with is_LIR := false, in_lirs_stack := false, in_hir_stack := true } = e' :=
          Option.some.injEq _ _ ▸ he'
        rw [← heq2]
        exact iff_of_false (by simp) (fun hm => hndxs.2 hm)
      · rw [mapSet_other _ _ _ hk] at he'
        rw [hmemxs k]
        have hiff := h.inS_iff k e' he'
        constructor
        · intro hf
          exact ⟨hiff.mp hf, hk⟩
        · intro hf
          exact hiff.mpr hf.1
    · -- inQ_iff
      intro k e' he'
      rw [hM'] at he'
      rw [hQ']
      by_cases hk : k = bk
      · subst hk
        rw [mapSet_same] at he'
        have heq2 : { e with is_LIR := false, in_lirs_stack := false, in_hir_stack := true } = e' :=
          Option.some.injEq _ _ ▸ he'
        rw [← heq2]
        exact iff_of_true rfl (List.mem_cons_self _ _)
      · rw [mapSet_other _ _ _ hk] at he'
        have hiff := h.inQ_iff k e' he'
        constructor
        · intro hf
          exact List.mem_cons_of_mem bk (hiff.mp hf)
        · intro hf
          rcases List.mem_cons.mp hf with hf | hf
          · exact absurd hf hk
          · exact hiff.mpr hf
    · -- res_iff
      intro k e' he'
      rw [hM'] at he'
      rw [hC']
      by_cases hk : k = bk
      · subst hk
        rw [mapSet_same] at he'
        have heq2 : { e with is_LIR := false, in_lirs_stack := false, in_hir_stack := true } = e' :=
          Option.some.injEq _ _ ▸ he'
        rw [← heq2]
        simpa [hresb] using (h.res_iff _ e he).mp hresb
      · rw [mapSet_other _ _ _ hk] at he'
        exact h.res_iff k e' he'
    · -- memS
      intro k hk
      rw [hS'] at hk
      rw [hM']
      have hkv : k ≠ bk := ((hmemxs k).mp hk).2
      rw [mapSet_other _ _ _ hkv]
      exact h.memS k ((hmemxs k).mp hk).1
    · -- memQ
      intro k hk
      rw [hQ'] at hk
      rw [hM']
      by_cases hkv : k = bk
      · subst hkv
        rw [mapSet_same]
        rfl
      · rw [mapSet_other _ _ _ hkv]
        rcases List.mem_cons.mp hk with hk | hk
        · exact absurd hk hkv
        · exact h.memQ k hk
    · -- memC
      intro k hk
      rw [hC'] at hk
      rw [hM']
      by_cases hkv : k = bk
      · subst hkv
        rw [mapSet_same]
        rfl
      · rw [mapSet_other _ _ _ hkv]
        exact h.memC k hk
    · -- lirF
      intro k e' he' hL'
      rw [hM'] at he'
      by_cases hk : k = bk
      · subst hk
        rw [mapSet_same] at he'
        have heq2 : { e with is_LIR := false, in_lirs_stack := false, in_hir_stack := true } = e' :=
          Option.some.injEq _ _ ▸ he'
        rw [← heq2] at hL'
        have hb : (false : Bool) = true := hL'
        exact absurd hb (by simp)
      · rw [mapSet_other _ _ _ hk] at he'
        exact h.lirF k e' he' hL'
    · -- ghostF
      intro k e' he' hres'
      rw [hM'] at he'
      by_cases hk : k = bk
      · subst hk
        rw [mapSet_same] at he'
        have heq2 : { e with is_LIR := false, in_lirs_stack := false, in_hir_stack := true } = e' :=
          Option.some.injEq _ _ ▸ he'
        rw [← heq2] at hres'
        have hb : e.is_resident = false := hres'
        rw [hresb] at hb
        exact absurd hb (by simp)
      · rw [mapSet_other _ _ _ hk] at he'
        exact h.ghostF k e' he' hres'
    · -- resQ
      intro k e' he' hres' hL'
      rw [hM'] at he'
      by_cases hk : k = bk
      · subst hk
        rw [mapSet_same] at he'
        have heq2 : { e with is_LIR := false, in_lirs_stack := false, in_hir_stack := true } = e' :=
          Option.some.injEq _ _ ▸ he'
        rw [← heq2]
      · rw [mapSet_other _ _ _ hk] at he'
        exact h.resQ k e' he' hres' hL'
  · rw [demote_skip hlast he hL]
    exact h

@[simp] theorem demote_cache (st : CState K V) :
    (demote_bottom_lir st).cache_ = st.cache_ := by
  unfold demote_bottom_lir
  split
  · rfl
  · dsimp only
    split <;> rfl

@[simp] theorem demote_cap (st : CState K V) :
    (demote_bottom_lir st).capacity_ = st.capacity_ := by
  unfold demote_bottom_lir
  split
  · rfl
  · dsimp only
    split <;> rfl

@[simp] theorem demote_hcap (st : CState K V) :
    (demote_bottom_lir st).hir_capacity_ = st.hir_capacity_ := by
  unfold demote_bottom_lir
  split
  · rfl
  · dsimp only
    split <;> rfl

@[simp] theorem demote_lcap (st : CState K V) :
    (demote_bottom_lir st).lir_capacity_ = st.lir_capacity_ := by
  unfold demote_bottom_lir
  split
  · rfl
  · dsimp only
    split <;> rfl

/-! ### Characterisation of `promote_to_lir` -/

@[simp] theorem promote_st1_cache (key : K) (e : Entry) (st : CState K V) :
    (promote_st1 key e st).cache_ = st.cache_ := rfl

@[simp] theorem promote_st1_S (key : K) (e : Entry) (st : CState K V) :
    (promote_st1 key e st).lirs_stack_ = key :: removeK st.lirs_stack_ key := rfl

@[simp] theorem promote_st1_lc (key : K) (e : Entry) (st : CState K V) :
    (promote_st1 key e st).lir_count_ = st.lir_count_ + 1 := rfl

@[simp] theorem promote_st1_cap (key : K) (e : Entry) (st : CState K V) :
    (promote_st1 key e st).capacity_ = st.capacity_ := rfl

@[simp] theorem promote_st1_hcap (key : K) (e : Entry) (st : CState K V) :
    (promote_st1 key e st).hir_capacity_ = st.hir_capacity_ := rfl

@[simp] theorem promote_st1_lcap (key : K) (e : Entry) (st : CState K V) :
    (promote_st1 key e st).lir_capacity_ = st.lir_capacity_ := rfl

theorem promote_st1_Q (key : K) (e : Entry) (st : CState K V) :
    (promote_st1 key e st).hir_stack_ =
      (if e.in_hir_stack = true then removeK st.hir_stack_ key else st.hir_stack_) := rfl

theorem promote_st1_map (key : K) (e : Entry) (st : CState K V) :
    (promote_st1 key e st).map_ = mapSet st.map_ key
      (if e.in_hir_stack = true then { e with is_LIR := true, in_hir_stack := false }
       else { e with is_LIR := true }) := by
  unfold promote_st1
  by_cases hq : e.in_hir_stack = true <;> simp [hq]

@[simp] theorem promote_cache (key : K) (e : Entry) (st : CState K V) :
    (promote_to_lir key e st).cache_ = st.cache_ := by
  simp [promote_to_lir]

@[simp] theorem promote_cap (key : K) (e : Entry) (st : CState K V) :
    (promote_to_lir key e st).capacity_ = st.capacity_ := by
  simp [promote_to_lir]

@[simp] theorem promote_hcap (key : K) (e : Entry) (st : CState K V) :
    (promote_to_lir key e st).hir_capacity_ = st.hir_capacity_ := by
  simp [promote_to_lir]

@[simp] theorem promote_lcap (key : K) (e : Entry) (st : CState K V) :
    (promote_to_lir key e st).lir_capacity_ = st.lir_capacity_ := by
  simp [promote_to_lir]

/-- Precondition of `promote_to_lir key e st`: the structural invariant,
except that `resQ` may fail at `key` itself.  (On the ghost-promotion path
the caller has just made the key resident while it is not yet in Q.) -/
structure PPre (st : CState K V) (key : K) (e : Entry) : Prop where
  find : st.map_ key = some e
  keyS : e.in_lirs_stack = true
  keyL : e.is_LIR = false
  keyR : e.is_resident = true
  ndS : st.lirs_stack_.Nodup
  ndQ : st.hir_stack_.Nodup
  ndC : (keysOf st.cache_).Nodup
  inS_iff : ∀ k e2, st.map_ k = some e2 → (e2.in_lirs_stack = true ↔ k ∈ st.lirs_stack_)
  inQ_iff : ∀ k e2, st.map_ k = some e2 → (e2.in_hir_stack = true ↔ k ∈ st.hir_stack_)
  res_iff : ∀ k e2, st.map_ k = some e2 → (e2.is_resident = true ↔ k ∈ keysOf st.cache_)
  memS : ∀ k, k ∈ st.lirs_stack_ → (st.map_ k).isSome = true
  memQ : ∀ k, k ∈ st.hir_stack_ → (st.map_ k).isSome = true
  memC : ∀ k, k ∈ keysOf st.cache_ → (st.map_ k).isSome = true
  lirF : ∀ k e2, st.map_ k = some e2 → e2.is_LIR = true →
    e2.in_lirs_stack = true ∧ e2.in_hir_stack = false ∧ e2.is_resident = true
  ghostF : ∀ k e2, st.map_ k = some e2 → e2.is_resident = false →
    e2.in_lirs_stack = true ∧ e2.in_hir_stack = false
  resQx : ∀ k e2, st.map_ k = some e2 → k ≠ key → e2.is_resident = true →
    e2.is_LIR = false → e2.in_hir_stack = true

theorem WInv.toPPre {st : CState K V} (h : WInv st) {key : K} {e : Entry}
    (hf : st.map_ key = some e) (h1 : e.in_lirs_stack = true) (h2 : e.is_LIR = false)
    (h3 : e.is_resident = true) : PPre st key e :=
  ⟨hf, h1, h2, h3, h.ndS, h.ndQ, h.ndC, h.inS_iff, h.inQ_iff, h.res_iff, h.memS, h.memQ,
    h.memC, h.lirF, h.ghostF, fun k e2 hk _ hr hl => h.resQ k e2 hk hr hl⟩

/-- The entry value a key holds right after the first half of a promotion. -/
def lirEntryVal : Entry :=
  { is_LIR := true, is_resident := true, in_lirs_stack := true, in_hir_stack := false }

theorem promote_st1_winv {st : CState K V} {key : K} {e : Entry} (hp : PPre st key e) :
    WInv (promote_st1 key e st) := by
  have hkeyS : key ∈ st.lirs_stack_ := (hp.inS_iff key e hp.find).mp hp.keyS
  have hM' := promote_st1_map key e st
  have hQ' := promote_st1_Q key e st
  have hS' := promote_st1_S key e st
  have hentry : (if e.in_hir_stack = true then
      { e with is_LIR := true, in_hir_stack := false } else { e with is_LIR := true }) =
      lirEntryVal := by
    obtain ⟨eL, eR, eS, eQ⟩ := e
    have h1 : eS = true := hp.keyS
    have h3 : eR = true := hp.keyR
    subst h1
    subst h3
    by_cases hq : eQ = true
    · subst hq
      simp [lirEntryVal]
    · rw [bool_eq_false hq]
      simp [lirEntryVal]
  rw [hentry] at hM'
  -- membership in the new Q
  have hQmem : ∀ j, j ∈ (promote_st1 key e st).hir_stack_ ↔
      (j ∈ st.hir_stack_ ∧ j ≠ key) := by
    intro j
    rw [hQ']
    by_cases hq : e.in_hir_stack = true
    · rw [if_pos hq]
      exact mem_removeK_iff hp.ndQ key j
    · rw [if_neg hq]
      have hkQ : key ∉ st.hir_stack_ := fun hm => by
        have := (hp.inQ_iff key e hp.find).mpr hm
        rw [bool_eq_false hq] at this
        exact absurd this (by simp)
      constructor
      · intro hj
        exact ⟨hj, fun hh => hkQ (hh ▸ hj)⟩
      · intro hj
        exact hj.1
  have hSmem : ∀ j, j ∈ (promote_st1 key e st).lirs_stack_ ↔
      (j = key ∨ (j ∈ st.lirs_stack_ ∧ j ≠ key)) := by
    intro j
    rw [hS']
    constructor
    · intro hj
      rcases List.mem_cons.mp hj with hj | hj
      · exact Or.inl hj
      · exact Or.inr ((mem_removeK_iff hp.ndS key j).mp hj)
    · intro hj
      rcases hj with hj | hj
      · exact hj ▸ List.mem_cons_self _ _
      · exact List.mem_cons_of_mem _ ((mem_removeK_iff hp.ndS key j).mpr hj)
  have hQnd : (promote_st1 key e st).hir_stack_.Nodup := by
    rw [hQ']
    by_cases hq : e.in_hir_stack = true
    · rw [if_pos hq]
      exact nodup_removeK hp.ndQ key
    · rw [if_neg hq]
      exact hp.ndQ
  have hCeq : (promote_st1 key e st).cache_ = st.cache_ := rfl
  refine ⟨?_, hQnd, hCeq ▸ hp.ndC, ?_, ?_, ?_, ?_, ?_, ?_, ?_, ?_, ?_⟩
  · rw [hS']
    exact List.nodup_cons.mpr ⟨not_mem_removeK_self hp.ndS key, nodup_removeK hp.ndS key⟩
  · -- inS_iff
    intro k e' he'
    rw [hM'] at he'
    by_cases hk : k = key
    · subst hk
      rw [mapSet_same] at he'
      have heq2 : lirEntryVal = e' := Option.some.injEq _ _ ▸ he'
      rw [← heq2]
      exact iff_of_true rfl ((hSmem k).mpr (Or.inl rfl))
    · rw [mapSet_other _ _ _ hk] at he'
      rw [hSmem k]
      have hiff := hp.inS_iff k e' he'
      constructor
      · intro hf
        exact Or.inr ⟨hiff.mp hf, hk⟩
      · intro hf
        rcases hf with hf | hf
        · exact absurd hf hk
        · exact hiff.mpr hf.1
  · -- inQ_iff
    intro k e' he'
    rw [hM'] at he'
    by_cases hk : k = key
    · subst hk
      rw [mapSet_same] at he'
      have heq2 : lirEntryVal = e' := Option.some.injEq _ _ ▸ he'
      rw [← heq2]
      refine iff_of_false (by simp [lirEntryVal]) ?_
      intro hm
      exact ((hQmem k).mp hm).2 rfl
    · rw [mapSet_other _ _ _ hk] at he'
      rw [hQmem k]
      have hiff := hp.inQ_iff k e' he'
      constructor
      · intro hf
        exact ⟨hiff.mp hf, hk⟩
      · intro hf
        exact hiff.mpr hf.1
  · -- res_iff
    intro k e' he'
    rw [hM'] at he'
    rw [hCeq]
    by_cases hk : k = key
    · subst hk
      rw [mapSet_same] at he'
      have heq2 : lirEntryVal = e' := Option.some.injEq _ _ ▸ he'
      rw [← heq2]
      exact iff_of_true rfl ((hp.res_iff k e hp.find).mp hp.keyR)
    · rw [mapSet_other _ _ _ hk] at he'
      exact hp.res_iff k e' he'
  · -- memS
    intro k hk
    rw [hSmem k] at hk
    rw [hM']
    rcases hk with hk | hk
    · subst hk
      rw [mapSet_same]
      rfl
    · rw [mapSet_other _ _ _ hk.2]
      exact hp.memS k hk.1
  · -- memQ
    intro k hk
    have hk2 := (hQmem k).mp hk
    rw [hM', mapSet_other _ _ _ hk2.2]
    exact hp.memQ k hk2.1
  · -- memC
    intro k hk
    rw [hCeq] at hk
    rw [hM']
    by_cases hkv : k = key
    · subst hkv
      rw [mapSet_same]
      rfl
    · rw [mapSet_other _ _ _ hkv]
      exact hp.memC k hk
  · -- lirF
    intro k e' he' hL'
    rw [hM'] at he'
    by_cases hk : k = key
    · subst hk
      rw [mapSet_same] at he'
      have heq2 : lirEntryVal = e' := Option.some.injEq _ _ ▸ he'
      rw [← heq2]
      exact ⟨rfl, rfl, rfl⟩
    · rw [mapSet_other _ _ _ hk] at he'
      exact hp.lirF k e' he' hL'
  · -- ghostF
    intro k e' he' hres'
    rw [hM'] at he'
    by_cases hk : k = key
    · subst hk
      rw [mapSet_same] at he'
      have heq2 : lirEntryVal = e' := Option.some.injEq _ _ ▸ he'
      rw [← heq2] at hres'
      have hb : (true : Bool) = false := hres'
      exact absurd hb (by simp)
    · rw [mapSet_other _ _ _ hk] at he'
      exact hp.ghostF k e' he' hres'
  · -- resQ
    intro k e' he' hres' hL'
    rw [hM'] at he'
    by_cases hk : k = key
    · subst hk
      rw [mapSet_same] at he'
      have heq2 : lirEntryVal = e' := Option.some.injEq _ _ ▸ he'
      rw [← heq2] at hL'
      have hb : (true : Bool) = false := hL'
      exact absurd hb (by simp)
    · rw [mapSet_other _ _ _ hk] at he'
      exact hp.resQx k e' he' hk hres' hL'

theorem promote_winv {st : CState K V} {key : K} {e : Entry} (hp : PPre st key e) :
    WInv (promote_to_lir key e st) :=
  stack_pruning_winv (demote_winv (promote_st1_winv hp))

/-! ### The access routines and the public operations preserve `WInv` -/

theorem retop_mem {l : List K} (nd : l.Nodup) {key : K} (hk : key ∈ l) :
    ∀ j, j ∈ key :: removeK l key ↔ j ∈ l := by
  intro j
  constructor
  · intro hj
    rcases List.mem_cons.mp hj with hj | hj
    · exact hj ▸ hk
    · exact mem_of_mem_removeK hj
  · intro hj
    by_cases hjk : j = key
    · exact hjk ▸ List.mem_cons_self _ _
    · exact List.mem_cons_of_mem _ (mem_removeK_of_ne hj hjk)

theorem retop_S_winv {st : CState K V} {key : K} {e : Entry} (h : WInv st)
    (he : st.map_ key = some e) (hS : e.in_lirs_stack = true) :
    WInv { st with lirs_stack_ := key :: removeK st.lirs_stack_ key } := by
  have hkS : key ∈ st.lirs_stack_ := (h.inS_iff key e he).mp hS
  have hmem := retop_mem h.ndS hkS
  refine ⟨?_, h.ndQ, h.ndC, ?_, h.inQ_iff, h.res_iff, ?_, h.memQ, h.memC, h.lirF,
    h.ghostF, h.resQ⟩
  · exact List.nodup_cons.mpr ⟨not_mem_removeK_self h.ndS key, nodup_removeK h.ndS key⟩
  · intro k e2 he2
    rw [show ({ st with lirs_stack_ := key :: removeK st.lirs_stack_ key } :
      CState K V).lirs_stack_ = key :: removeK st.lirs_stack_ key from rfl, hmem k]
    exact h.inS_iff k e2 he2
  · intro k hk
    rw [hmem k] at hk
    exact h.memS k hk

theorem access_lir_eq (key : K) (st : CState K V) :
    access_lir key st =
      (if st.lirs_stack_.getLast? = some key
       then stack_pruning { st with lirs_stack_ := key :: removeK st.lirs_stack_ key }
       else { st with lirs_stack_ := key :: removeK st.lirs_stack_ key }) := rfl

theorem access_lir_winv {st : CState K V} {key : K} {e : Entry} (h : WInv st)
    (he : st.map_ key = some e) (hS : e.in_lirs_stack = true) :
    WInv (access_lir key st) := by
  rw [access_lir_eq]
  by_cases hb : st.lirs_stack_.getLast? = some key
  · rw [if_pos hb]
    exact stack_pruning_winv (retop_S_winv h he hS)
  · rw [if_neg hb]
    exact retop_S_winv h he hS

theorem access_hir_eq_promote (key : K) (e : Entry) (st : CState K V)
    (hin : e.in_lirs_stack = true) :
    access_hir_resident key e st = promote_to_lir key e st := by
  unfold access_hir_resident
  rw [if_pos hin]

theorem access_hir_eq_refresh (key : K) (e : Entry) (st : CState K V)
    (hin : ¬ e.in_lirs_stack = true) :
    access_hir_resident key e st =
      { st with
        lirs_stack_ := key :: st.lirs_stack_,
        hir_stack_ := key :: removeK st.hir_stack_ key,
        map_ := mapSet st.map_ key { e with in_lirs_stack := true } } := by
  unfold access_hir_resident
  rw [if_neg hin]

theorem access_hir_winv {st : CState K V} {key : K} {e : Entry} (h : WInv st)
    (he : st.map_ key = some e) (hres : e.is_resident = true) (hL : e.is_LIR = false) :
    WInv (access_hir_resident key e st) := by
  by_cases hin : e.in_lirs_stack = true
  · rw [access_hir_eq_promote key e st hin]
    exact promote_winv (h.toPPre he hin hL hres)
  · rw [access_hir_eq_refresh key e st hin]
    have hkQ : key ∈ st.hir_stack_ :=
      (h.inQ_iff key e he).mp (h.resQ key e he hres hL)
    have hkS : key ∉ st.lirs_stack_ := fun hm => hin ((h.inS_iff key e he).mpr hm)
    have hQmem := retop_mem h.ndQ hkQ
    have hM' : ({ st with
        lirs_stack_ := key :: st.lirs_stack_,
        hir_stack_ := key :: removeK st.hir_stack_ key,
        map_ := mapSet st.map_ key { e with in_lirs_stack := true } } : CState K V).map_ =
        mapSet st.map_ key { e with in_lirs_stack := true } := rfl
    refine ⟨List.nodup_cons.mpr ⟨hkS, h.ndS⟩,
      List.nodup_cons.mpr ⟨not_mem_removeK_self h.ndQ key, nodup_removeK h.ndQ key⟩,
      h.ndC, ?_, ?_, ?_, ?_, ?_, ?_, ?_, ?_, ?_⟩
    · -- inS_iff
      intro k e2 he2
      rw [hM'] at he2
      by_cases hk : k = key
      · subst hk
        rw [mapSet_same] at he2
        have heq2 : { e with in_lirs_stack := true } = e2 := Option.some.injEq _ _ ▸ he2
        rw [← heq2]
        exact iff_of_true rfl (List.mem_cons_self _ _)
      · rw [mapSet_other _ _ _ hk] at he2
        have hiff := h.inS_iff k e2 he2
        constructor
        · intro hf
          exact List.mem_cons_of_mem _ (hiff.mp hf)
        · intro hf
          rcases List.mem_cons.mp hf with hf | hf
          · exact absurd hf hk
          · exact hiff.mpr hf
    · -- inQ_iff
      intro k e2 he2
      rw [hM'] at he2
      by_cases hk : k = key
      · subst hk
        rw [mapSet_same] at he2
        have heq2 : { e with in_lirs_stack := true } = e2 := Option.some.injEq _ _ ▸ he2
        rw [← heq2]
        have hq2 : e.in_hir_stack = true := h.resQ k e he hres hL
        exact iff_of_true hq2 (List.mem_cons_self _ _)
      · rw [mapSet_other _ _ _ hk] at he2
        rw [retop_mem h.ndQ hkQ k]
        exact h.inQ_iff k e2 he2
    · -- res_iff
      intro k e2 he2
      rw [hM'] at he2
      by_cases hk : k = key
      · subst hk
        rw [mapSet_same] at he2
        have heq2 : { e with in_lirs_stack := true } = e2 := Option.some.injEq _ _ ▸ he2
        rw [← heq2]
        exact h.res_iff k e he
      · rw [mapSet_other _ _ _ hk] at he2
        exact h.res_iff k e2 he2
    · -- memS
      intro k hk
      rw [hM']
      rcases List.mem_cons.mp hk with hk | hk
      · subst hk
        rw [mapSet_same]
        rfl
      · by_cases hkv : k = key
        · subst hkv
          rw [mapSet_same]
          rfl
        · rw [mapSet_other _ _ _ hkv]
          exact h.memS k hk
    · -- memQ
      intro k hk
      rw [hM']
      rw [retop_mem h.ndQ hkQ k] at hk
      by_cases hkv : k = key
      · subst hkv
        rw [mapSet_same]
        rfl
      · rw [mapSet_other _ _ _ hkv]
        exact h.memQ k hk
    · -- memC
      intro k hk
      rw [hM']
      by_cases hkv : k = key
      · subst hkv
        rw [mapSet_same]
        rfl
      · rw [mapSet_other _ _ _ hkv]
        exact h.memC k hk
    · -- lirF
      intro k e2 he2 hL2
      rw [hM'] at he2
      by_cases hk : k = key
      · subst hk
        rw [mapSet_same] at he2
        have heq2 : { e with in_lirs_stack := true } = e2 := Option.some.injEq _ _ ▸ he2
        rw [← heq2] at hL2
        have hb : e.is_LIR = true := hL2
        rw [hL] at hb
        exact absurd hb (by simp)
      · rw [mapSet_other _ _ _ hk] at he2
        exact h.lirF k e2 he2 hL2
    · -- ghostF
      intro k e2 he2 hres2
      rw [hM'] at he2
      by_cases hk : k = key
      · subst hk
        rw [mapSet_same] at he2
        have heq2 : { e with in_lirs_stack := true } = e2 := Option.some.injEq _ _ ▸ he2
        rw [← heq2] at hres2
        have hb : e.is_resident = false := hres2
        rw [hres] at hb
        exact absurd hb (by simp)
      · rw [mapSet_other _ _ _ hk] at he2
        exact h.ghostF k e2 he2 hres2
    · -- resQ
      intro k e2 he2 hres2 hL2
      rw [hM'] at he2
      by_cases hk : k = key
      · subst hk
        rw [mapSet_same] at he2
        have heq2 : { e with in_lirs_stack := true } = e2 := Option.some.injEq _ _ ▸ he2
        rw [← heq2]
        exact h.resQ k e he hres hL
      · rw [mapSet_other _ _ _ hk] at he2
        exact h.resQ k e2 he2 hres2 hL2

theorem ghost_eq_promote (key : K) (value : V) (e : Entry) (st : CState K V)
    (hin : e.in_lirs_stack = true) :
    access_hir_non_resident key value e st =
      promote_to_lir key { e with is_resident := true }
        { evict_hir_resident st with
          cache_ := (key, value) :: (evict_hir_resident st).cache_,
          map_ := mapSet (evict_hir_resident st).map_ key { e with is_resident := true } } := by
  unfold access_hir_non_resident
  rw [if_pos (show ({ e with is_resident := true } : Entry).in_lirs_stack = true from hin)]

/-- After an eviction the promoted ghost key's entry is untouched: the ghost
is never the victim since it is not in Q. -/
theorem ghost_after_evict {st : CState K V} {key : K} {e : Entry} (h : WInv st)
    (he : st.map_ key = some e) (hres : e.is_resident = false) :
    (evict_hir_resident st).map_ key = some e ∧
    key ∉ (evict_hir_resident st).hir_stack_ ∧
    key ∉ keysOf (evict_hir_resident st).cache_ := by
  have hkQ : key ∉ st.hir_stack_ := fun hm => by
    have := (h.inQ_iff key e he).mpr hm
    rw [(h.ghostF key e he hres).2] at this
    exact absurd this (by simp)
  have hkC : key ∉ keysOf st.cache_ := fun hm => by
    have := (h.res_iff key e he).mpr hm
    rw [hres] at this
    exact absurd this (by simp)
  rcases hq : st.hir_stack_.getLast? with _ | victim
  · rw [evict_empty (eq_nil_of_getLast? hq)]
    exact ⟨he, hkQ, hkC⟩
  · obtain ⟨hC, hQ, _, _, hmo, _, _⟩ := evict_pop_facts h hq
    have hkv : key ≠ victim := fun hh => hkQ (hh ▸ mem_of_getLast? hq)
    refine ⟨(hmo key hkv).trans he, ?_, ?_⟩
    · rw [hQ]
      intro hm
      exact hkQ (List.dropLast_sublist _ |>.mem hm)
    · rw [hC]
      intro hm
      exact hkC (keysOf_eraseKey_subset _ _ hm)

/-- The ghost-promotion path establishes the promotion precondition at the
intermediate state (victim evicted, value loaded, residency set). -/
theorem ghost_ppre {st : CState K V} {key : K} (value : V) {e : Entry} (h : WInv st)
    (he : st.map_ key = some e) (hres : e.is_resident = false) :
    PPre { evict_hir_resident st with
           cache_ := (key, value) :: (evict_hir_resident st).cache_,
           map_ := mapSet (evict_hir_resident st).map_ key { e with is_resident := true } }
      key { e with is_resident := true } := by
  obtain ⟨hinS, hinQ⟩ := h.ghostF key e he hres
  have hL : e.is_LIR = false := by
    by_cases hT : e.is_LIR = true
    · have := (h.lirF key e he hT).2.2
      rw [hres] at this
      exact absurd this (by simp)
    · exact bool_eq_false hT
  obtain ⟨he1, hkQ1, hkC1⟩ := ghost_after_evict h he hres
  have h1 : WInv (evict_hir_resident st) := evict_winv h
  set st1 := evict_hir_resident st with hst1
  set st2 : CState K V :=
    { st1 with cache_ := (key, value) :: st1.cache_,
               map_ := mapSet st1.map_ key { e with is_resident := true } } with hst2
  have hM2 : st2.map_ = mapSet st1.map_ key { e with is_resident := true } := rfl
  have hS2 : st2.lirs_stack_ = st1.lirs_stack_ := rfl
  have hQ2 : st2.hir_stack_ = st1.hir_stack_ := rfl
  have hC2 : st2.cache_ = (key, value) :: st1.cache_ := rfl
  have hkeyS1 : key ∈ st1.lirs_stack_ := by
    have : key ∈ st.lirs_stack_ := (h.inS_iff key e he).mp hinS
    rw [hst1, evict_S]
    exact this
  refine ⟨by rw [hM2]; exact mapSet_same _ _ _, hinS, hL, rfl, ?_, ?_, ?_, ?_, ?_, ?_,
    ?_, ?_, ?_, ?_, ?_, ?_⟩
  · rw [hS2]
    exact h1.ndS
  · rw [hQ2]
    exact h1.ndQ
  · rw [hC2]
    exact List.nodup_cons.mpr ⟨hkC1, h1.ndC⟩
  · -- inS_iff
    intro k e2 he2
    rw [hM2] at he2
    rw [hS2]
    by_cases hk : k = key
    · subst hk
      rw [mapSet_same] at he2
      have heq2 : { e with is_resident := true } = e2 := Option.some.injEq _ _ ▸ he2
      rw [← heq2]
      exact iff_of_true hinS hkeyS1
    · rw [mapSet_other _ _ _ hk] at he2
      exact h1.inS_iff k e2 he2
  · -- inQ_iff
    intro k e2 he2
    rw [hM2] at he2
    rw [hQ2]
    by_cases hk : k = key
    · subst hk
      rw [mapSet_same] at he2
      have heq2 : { e with is_resident := true } = e2 := Option.some.injEq _ _ ▸ he2
      rw [← heq2]
      exact iff_of_false (by simp [hinQ]) hkQ1
    · rw [mapSet_other _ _ _ hk] at he2
      exact h1.inQ_iff k e2 he2
  · -- res_iff
    intro k e2 he2
    rw [hM2] at he2
    rw [hC2]
    by_cases hk : k = key
    · subst hk
      rw [mapSet_same] at he2
      have heq2 : { e with is_resident := true } = e2 := Option.some.injEq _ _ ▸ he2
      rw [← heq2]
      exact iff_of_true rfl (by simp [keysOf])
    · rw [mapSet_other _ _ _ hk] at he2
      have hiff := h1.res_iff k e2 he2
      constructor
      · intro hf
        simp only [keysOf_cons, List.mem_cons]
        exact Or.inr (hiff.mp hf)
      · intro hf
        simp only [keysOf_cons, List.mem_cons] at hf
        rcases hf with hf | hf
        · exact absurd hf hk
        · exact hiff.mpr hf
  · -- memS
    intro k hk
    rw [hS2] at hk
    rw [hM2]
    by_cases hkv : k = key
    · subst hkv
      rw [mapSet_same]
      rfl
    · rw [mapSet_other _ _ _ hkv]
      exact h1.memS k hk
  · -- memQ
    intro k hk
    rw [hQ2] at hk
    rw [hM2]
    by_cases hkv : k = key
    · subst hkv
      rw [mapSet_same]
      rfl
    · rw [mapSet_other _ _ _ hkv]
      exact h1.memQ k hk
  · -- memC
    intro k hk
    rw [hC2] at hk
    rw [hM2]
    by_cases hkv : k = key
    · subst hkv
      rw [mapSet_same]
      rfl
    · rw [mapSet_other _ _ _ hkv]
      simp only [keysOf_cons, List.mem_cons] at hk
      rcases hk with hk | hk
      · exact absurd hk hkv
      · exact h1.memC k hk
  · -- lirF
    intro k e2 he2 hL2
    rw [hM2] at he2
    by_cases hk : k = key
    · subst hk
      rw [mapSet_same] at he2
      have heq2 : { e with is_resident := true } = e2 := Option.some.injEq _ _ ▸ he2
      rw [← heq2] at hL2
      have hb : e.is_LIR = true := hL2
      rw [hL] at hb
      exact absurd hb (by simp)
    · rw [mapSet_other _ _ _ hk] at he2
      exact h1.lirF k e2 he2 hL2
  · -- ghostF
    intro k e2 he2 hres2
    rw [hM2] at he2
    by_cases hk : k = key
    · subst hk
      rw [mapSet_same] at he2
      have heq2 : { e with is_resident := true } = e2 := Option.some.injEq _ _ ▸ he2
      rw [← heq2] at hres2
      have hb : (true : Bool) = false := hres2
      exact absurd hb (by simp)
    · rw [mapSet_other _ _ _ hk] at he2
      exact h1.ghostF k e2 he2 hres2
  · -- resQx
    intro k e2 he2 hk hres2 hL2
    rw [hM2] at he2
    rw [mapSet_other _ _ _ hk] at he2
    exact h1.resQ k e2 he2 hres2 hL2

theorem upd_cache_winv {st : CState K V} (h : WInv st) (key : K) (value : V) :
    WInv { st with cache_ := updateCache st.cache_ key value } := by
  have hkeys : keysOf (updateCache st.cache_ key value) = keysOf st.cache_ :=
    keysOf_updateCache st.cache_ key value
  refine ⟨h.ndS, h.ndQ, ?_, h.inS_iff, h.inQ_iff, ?_, h.memS, h.memQ, ?_, h.lirF,
    h.ghostF, h.resQ⟩
  · rw [show ({ st with cache_ := updateCache st.cache_ key value } :
      CState K V).cache_ = updateCache st.cache_ key value from rfl, hkeys]
    exact h.ndC
  · intro k e2 he2
    rw [show ({ st with cache_ := updateCache st.cache_ key value } :
      CState K V).cache_ = updateCache st.cache_ key value from rfl, hkeys]
    exact h.res_iff k e2 he2
  · intro k hk
    rw [show ({ st with cache_ := updateCache st.cache_ key value } :
      CState K V).cache_ = updateCache st.cache_ key value from rfl, hkeys] at hk
    exact h.memC k hk

theorem insert_warm_eq (key : K) (value : V) (st : CState K V)
    (hlt : st.lir_count_ < st.lir_capacity_) :
    insert_new key value st =
      { st with cache_ := (key, value) :: st.cache_,
                lirs_stack_ := key :: st.lirs_stack_,
                map_ := mapSet st.map_ key
                  { is_LIR := true, is_resident := true, in_lirs_stack := true, in_hir_stack := false },
                lir_count_ := st.lir_count_ + 1 } := by
  unfold insert_new
  rw [if_pos hlt]

theorem insert_steady_eq (key : K) (value : V) (st : CState K V)
    (hge : ¬ st.lir_count_ < st.lir_capacity_) :
    insert_new key value st =
      { evict_hir_resident st with
        cache_ := (key, value) :: (evict_hir_resident st).cache_,
        lirs_stack_ := key :: (evict_hir_resident st).lirs_stack_,
        hir_stack_ := key :: (evict_hir_resident st).hir_stack_,
        map_ := mapSet (evict_hir_resident st).map_ key
          { is_LIR := false, is_resident := true, in_lirs_stack := true, in_hir_stack := true } } := by
  unfold insert_new
  rw [if_neg hge]

/-- The fresh entry record written by `insert_new`: LIR during warm-up,
HIR (and in Q) afterwards. -/
def admitEntry (asLIR : Bool) : Entry :=
  { is_LIR := asLIR, is_resident := true, in_lirs_stack := true, in_hir_stack := !asLIR }

/-- `WInv` for the state that admits a fresh key on top of a base state in
which the key is completely unknown (covers both `insert_new` branches and
the final part of `access_hir_non_resident`). -/
theorem admit_winv {st : CState K V} (h : WInv st) {key : K} (hnew : st.map_ key = none)
    (value : V) (asLIR : Bool) :
    WInv { st with cache_ := (key, value) :: st.cache_,
                   lirs_stack_ := key :: st.lirs_stack_,
                   hir_stack_ := if asLIR then st.hir_stack_ else key :: st.hir_stack_,
                   map_ := mapSet st.map_ key (admitEntry asLIR),
                   lir_count_ := if asLIR then st.lir_count_ + 1 else st.lir_count_ } := by
  have hkS : key ∉ st.lirs_stack_ := fun hm => by
    have := h.memS key hm
    rw [hnew] at this
    exact absurd this (by simp)
  have hkQ : key ∉ st.hir_stack_ := fun hm => by
    have := h.memQ key hm
    rw [hnew] at this
    exact absurd this (by simp)
  have hkC : key ∉ keysOf st.cache_ := fun hm => by
    have := h.memC key hm
    rw [hnew] at this
    exact absurd this (by simp)
  set st' : CState K V :=
    { st with cache_ := (key, value) :: st.cache_,
              lirs_stack_ := key :: st.lirs_stack_,
              hir_stack_ := if asLIR then st.hir_stack_ else key :: st.hir_stack_,
              map_ := mapSet st.map_ key (admitEntry asLIR),
              lir_count_ := if asLIR then st.lir_count_ + 1 else st.lir_count_ } with hst'
  have hM' : st'.map_ = mapSet st.map_ key (admitEntry asLIR) := rfl
  have hS' : st'.lirs_stack_ = key :: st.lirs_stack_ := rfl
  have hQ' : st'.hir_stack_ = (if asLIR then st.hir_stack_ else key :: st.hir_stack_) := rfl
  have hC' : st'.cache_ = (key, value) :: st.cache_ := rfl
  have hQm : ∀ j, j ∈ st'.hir_stack_ ↔ ((asLIR = false ∧ j = key) ∨ j ∈ st.hir_stack_) := by
    intro j
    rw [hQ']
    cases asLIR
    · simp only [Bool.false_eq_true, if_false]
      constructor
      · intro hj
        rcases List.mem_cons.mp hj with hj | hj
        · exact Or.inl ⟨by simp, hj⟩
        · exact Or.inr hj
      · intro hj
        rcases hj with ⟨_, hj⟩ | hj
        · exact hj ▸ List.mem_cons_self _ _
        · exact List.mem_cons_of_mem _ hj
    · simp only [if_true]
      constructor
      · intro hj
        exact Or.inr hj
      · intro hj
        rcases hj with ⟨hj, _⟩ | hj
        · exact absurd hj (by simp)
        · exact hj
  refine ⟨hS' ▸ List.nodup_cons.mpr ⟨hkS, h.ndS⟩, ?_, hC' ▸ List.nodup_cons.mpr ⟨hkC, h.ndC⟩,
    ?_, ?_, ?_, ?_, ?_, ?_, ?_, ?_, ?_⟩
  · rw [hQ']
    cases asLIR
    · simp only [Bool.false_eq_true, if_false]
      exact List.nodup_cons.mpr ⟨hkQ, h.ndQ⟩
    · simp only [if_true]
      exact h.ndQ
  · -- inS_iff
    intro k e2 he2
    rw [hM'] at he2
    rw [hS']
    by_cases hk : k = key
    · subst hk
      rw [mapSet_same] at he2
      have heq2 : admitEntry asLIR = e2 := Option.some.injEq _ _ ▸ he2
      rw [← heq2]
      exact iff_of_true rfl (List.mem_cons_self _ _)
    · rw [mapSet_other _ _ _ hk] at he2
      have hiff := h.inS_iff k e2 he2
      constructor
      · intro hf
        exact List.mem_cons_of_mem _ (hiff.mp hf)
      · intro hf
        rcases List.mem_cons.mp hf with hf | hf
        · exact absurd hf hk
        · exact hiff.mpr hf
  · -- inQ_iff
    intro k e2 he2
    rw [hM'] at he2
    rw [hQm k]
    by_cases hk : k = key
    · subst hk
      rw [mapSet_same] at he2
      have heq2 : admitEntry asLIR = e2 := Option.some.injEq _ _ ▸ he2
      rw [← heq2]
      cases asLIR
      · exact iff_of_true rfl (Or.inl (by simp))
      · refine iff_of_false (by simp [admitEntry]) ?_
        intro hf
        rcases hf with ⟨hf, _⟩ | hf
        · exact absurd hf (by simp)
        · exact hkQ hf
    · rw [mapSet_other _ _ _ hk] at he2
      have hiff := h.inQ_iff k e2 he2
      constructor
      · intro hf
        exact Or.inr (hiff.mp hf)
      · intro hf
        rcases hf with ⟨_, hf⟩ | hf
        · exact absurd hf hk
        · exact hiff.mpr hf
  · -- res_iff
    intro k e2 he2
    rw [hM'] at he2
    rw [hC']
    by_cases hk : k = key
    · subst hk
      rw [mapSet_same] at he2
      have heq2 : admitEntry asLIR = e2 := Option.some.injEq _ _ ▸ he2
      rw [← heq2]
      exact iff_of_true rfl (by simp [keysOf])
    · rw [mapSet_other _ _ _ hk] at he2
      have hiff := h.res_iff k e2 he2
      constructor
      · intro hf
        simp only [keysOf_cons, List.mem_cons]
        exact Or.inr (hiff.mp hf)
      · intro hf
        simp only [keysOf_cons, List.mem_cons] at hf
        rcases hf with hf | hf
        · exact absurd hf hk
        · exact hiff.mpr hf
  · -- memS
    intro k hk
    rw [hS'] at hk
    rw [hM']
    by_cases hkv : k = key
    · subst hkv
      rw [mapSet_same]
      rfl
    · rw [mapSet_other _ _ _ hkv]
      rcases List.mem_cons.mp hk with hk | hk
      · exact absurd hk hkv
      · exact h.memS k hk
  · -- memQ
    intro k hk
    rw [hQm k] at hk
    rw [hM']
    by_cases hkv : k = key
    · subst hkv
      rw [mapSet_same]
      rfl
    · rw [mapSet_other _ _ _ hkv]
      rcases hk with ⟨_, hk⟩ | hk
      · exact absurd hk hkv
      · exact h.memQ k hk
  · -- memC
    intro k hk
    rw [hC'] at hk
    rw [hM']
    by_cases hkv : k = key
    · subst hkv
      rw [mapSet_same]
      rfl
    · rw [mapSet_other _ _ _ hkv]
      simp only [keysOf_cons, List.mem_cons] at hk
      rcases hk with hk | hk
      · exact absurd hk hkv
      · exact h.memC k hk
  · -- lirF
    intro k e2 he2 hL2
    rw [hM'] at he2
    by_cases hk : k = key
    · subst hk
      rw [mapSet_same] at he2
      have heq2 : admitEntry asLIR = e2 := Option.some.injEq _ _ ▸ he2
      rw [← heq2] at hL2 ⊢
      have hb : asLIR = true := hL2
      subst hb
      exact ⟨rfl, rfl, rfl⟩
    · rw [mapSet_other _ _ _ hk] at he2
      exact h.lirF k e2 he2 hL2
  · -- ghostF
    intro k e2 he2 hres2
    rw [hM'] at he2
    by_cases hk : k = key
    · subst hk
      rw [mapSet_same] at he2
      have heq2 : admitEntry asLIR = e2 := Option.some.injEq _ _ ▸ he2
      rw [← heq2] at hres2
      have hb : (true : Bool) = false := hres2
      exact absurd hb (by simp)
    · rw [mapSet_other _ _ _ hk] at he2
      exact h.ghostF k e2 he2 hres2
  · -- resQ
    intro k e2 he2 hres2 hL2
    rw [hM'] at he2
    by_cases hk : k = key
    · subst hk
      rw [mapSet_same] at he2
      have heq2 : admitEntry asLIR = e2 := Option.some.injEq _ _ ▸ he2
      rw [← heq2] at hL2 ⊢
      have hb : asLIR = false := hL2
      subst hb
      rfl
    · rw [mapSet_other _ _ _ hk] at he2
      exact h.resQ k e2 he2 hres2 hL2

theorem ghost_winv {st : CState K V} {key : K} {value : V} {e : Entry} (h : WInv st)
    (he : st.map_ key = some e) (hres : e.is_resident = false) :
    WInv (access_hir_non_resident key value e st) := by
  have hinS : e.in_lirs_stack = true := (h.ghostF key e he hres).1
  rw [ghost_eq_promote key value e st hinS]
  exact promote_winv (ghost_ppre value h he hres)

theorem evict_map_none {st : CState K V} (h : WInv st) {key : K}
    (hnew : st.map_ key = none) : (evict_hir_resident st).map_ key = none := by
  rcases hq : st.hir_stack_.getLast? with _ | victim
  · rw [evict_empty (eq_nil_of_getLast? hq)]
    exact hnew
  · obtain ⟨e, he, _, _, _, _, _⟩ := evict_victim_entry h hq
    obtain ⟨_, _, _, _, hmo, _, _⟩ := evict_pop_facts h hq
    have hkv : key ≠ victim := fun hh => by
      rw [hh, he] at hnew
      exact absurd hnew (by simp)
    rw [hmo key hkv]
    exact hnew

theorem insert_winv {st : CState K V} (h : WInv st) {key : K}
    (hnew : st.map_ key = none) (value : V) : WInv (insert_new key value st) := by
  by_cases hlt : st.lir_count_ < st.lir_capacity_
  · rw [insert_warm_eq key value st hlt]
    exact admit_winv h hnew value true
  · rw [insert_steady_eq key value st hlt]
    exact admit_winv (evict_winv h) (evict_map_none h hnew) value false

/-! dispatch shapes of `get` and `put` -/

theorem getOp_miss_unknown {st : CState K V} {key : K} (h : st.map_ key = none) :
    getOp key st = (none, st) := by
  simp [getOp, h]

theorem getOp_miss_ghost {st : CState K V} {key : K} {e : Entry}
    (he : st.map_ key = some e) (hres : e.is_resident = false) :
    getOp key st = (none, st) := by
  simp [getOp, he, hres]

theorem getOp_lir_eq {st : CState K V} {key : K} {e : Entry}
    (he : st.map_ key = some e) (hres : e.is_resident = true) (hL : e.is_LIR = true) :
    getOp key st = (lookupCache (access_lir key st).cache_ key, access_lir key st) := by
  simp [getOp, he, hres, hL]

theorem getOp_hir_eq {st : CState K V} {key : K} {e : Entry}
    (he : st.map_ key = some e) (hres : e.is_resident = true) (hL : e.is_LIR = false) :
    getOp key st = (lookupCache (access_hir_resident key e st).cache_ key,
      access_hir_resident key e st) := by
  simp [getOp, he, hres, hL]

theorem putOp_new_eq {st : CState K V} {key : K} (value : V) (h : st.map_ key = none) :
    putOp key value st = insert_new key value st := by
  simp [putOp, h]

theorem putOp_lir_eq {st : CState K V} {key : K} {e : Entry} (value : V)
    (he : st.map_ key = some e) (hL : e.is_LIR = true) :
    putOp key value st =
      access_lir key { st with cache_ := updateCache st.cache_ key value } := by
  simp [putOp, he, hL]

theorem putOp_hir_eq {st : CState K V} {key : K} {e : Entry} (value : V)
    (he : st.map_ key = some e) (hL : e.is_LIR = false) (hres : e.is_resident = true) :
    putOp key value st =
      access_hir_resident key e { st with cache_ := updateCache st.cache_ key value } := by
  simp [putOp, he, hL, hres]

theorem putOp_ghost_eq {st : CState K V} {key : K} {e : Entry} (value : V)
    (he : st.map_ key = some e) (hL : e.is_LIR = false) (hres : e.is_resident = false) :
    putOp key value st = access_hir_non_resident key value e st := by
  simp [putOp, he, hL, hres]

theorem getOp_winv {st : CState K V} (h : WInv st) (key : K) : WInv (getOp key st).2 := by
  rcases he : st.map_ key with _ | e
  · rw [getOp_miss_unknown he]
    exact h
  · by_cases hres : e.is_resident = true
    · by_cases hL : e.is_LIR = true
      · rw [getOp_lir_eq he hres hL]
        exact access_lir_winv h he (h.lirF key e he hL).1
      · rw [getOp_hir_eq he hres (bool_eq_false hL)]
        exact access_hir_winv h he hres (bool_eq_false hL)
    · rw [getOp_miss_ghost he (bool_eq_false hres)]
      exact h

theorem putOp_winv {st : CState K V} (h : WInv st) (key : K) (value : V) :
    WInv (putOp key value st) := by
  rcases he : st.map_ key with _ | e
  · rw [putOp_new_eq value he]
    exact insert_winv h he value
  · by_cases hL : e.is_LIR = true
    · rw [putOp_lir_eq value he hL]
      exact access_lir_winv (upd_cache_winv h key value) he (h.lirF key e he hL).1
    · by_cases hres : e.is_resident = true
      · rw [putOp_hir_eq value he (bool_eq_false hL) hres]
        exact access_hir_winv (upd_cache_winv h key value) he hres (bool_eq_false hL)
      · rw [putOp_ghost_eq value he (bool_eq_false hL) (bool_eq_false hres)]
        exact ghost_winv h he (bool_eq_false hres)

theorem step_winv {st : CState K V} (h : WInv st) (op : Op K V) : WInv (step st op) := by
  cases op with
  | get k => exact getOp_winv h k
  | put k v => exact putOp_winv h k v

theorem runOps_winv {st : CState K V} (h : WInv st) (ops : List (Op K V)) :
    WInv (runOps st ops) := by
  induction ops generalizing st with
  | nil => exact h
  | cons op rest ih =>
    rw [show runOps st (op :: rest) = runOps (step st op) rest from rfl]
    exact ih (step_winv h op)

theorem initState_winv (cap hc : Nat) : WInv (initState K V cap hc) := by
  refine ⟨?_, ?_, ?_, ?_, ?_, ?_, ?_, ?_, ?_, ?_, ?_, ?_⟩ <;>
    intros <;> simp_all [initState, keysOf]

/-! ### The quantitative invariant

`ExtraInv` holds at every public boundary provided the configuration is
non-degenerate (`lir_capacity_ >= 1`, i.e. `capacity >= 2`).  Together with
`WInv` it yields P1, P2 and P3 of the specification. -/

structure ExtraInv (st : CState K V) : Prop where
  lpos : 1 ≤ st.lir_capacity_
  hpos : 1 ≤ st.hir_capacity_
  capEq : st.capacity_ = st.lir_capacity_ + st.hir_capacity_
  lcLe : st.lir_count_ ≤ st.lir_capacity_
  steady : (∃ k e, st.map_ k = some e ∧ e.is_LIR = false) →
    st.lir_count_ = st.lir_capacity_
  lirWitness : 1 ≤ st.lir_count_ → ∃ k e, st.map_ k = some e ∧ e.is_LIR = true
  bottomLIR : ∀ b, st.lirs_stack_.getLast? = some b →
    ∃ e, st.map_ b = some e ∧ e.is_LIR = true
  sizeEq : st.cache_.length = st.lir_count_ + st.hir_stack_.length
  qLen : st.hir_stack_.length ≤ st.hir_capacity_

/-- The full invariant of a non-degenerate engine. -/
def Inv (st : CState K V) : Prop := WInv st ∧ ExtraInv st

theorem stack_pruning_extra {st : CState K V} (hw : WInv st)
    (h1 : 1 ≤ st.lir_capacity_) (h2 : 1 ≤ st.hir_capacity_)
    (h3 : st.capacity_ = st.lir_capacity_ + st.hir_capacity_)
    (h4 : st.lir_count_ ≤ st.lir_capacity_)
    (h5 : (∃ k e, st.map_ k = some e ∧ e.is_LIR = false) →
      st.lir_count_ = st.lir_capacity_)
    (h6 : 1 ≤ st.lir_count_ → ∃ k e, st.map_ k = some e ∧ e.is_LIR = true)
    (h7 : st.cache_.length = st.lir_count_ + st.hir_stack_.length)
    (h8 : st.hir_stack_.length ≤ st.hir_capacity_) :
    ExtraInv (stack_pruning st) := by
  refine ⟨h1, h2, h3, h4, ?_, ?_, ?_, h7, h8⟩
  · rintro ⟨k, e', he', hL'⟩
    obtain ⟨e, he, hLeq, _, _⟩ := stack_pruning_fields hw k e' he'
    exact h5 ⟨k, e, he, hLeq ▸ hL'⟩
  · intro hlc
    obtain ⟨k, e, he, hL⟩ := h6 hlc
    exact ⟨k, e, stack_pruning_keeps_lir hw k e he hL, hL⟩
  · exact stack_pruning_bottom hw

theorem promote_entry_val {e : Entry} (hS : e.in_lirs_stack = true)
    (hR : e.is_resident = true) :
    (if e.in_hir_stack = true then { e with is_LIR := true, in_hir_stack := false }
     else { e with is_LIR := true }) = lirEntryVal := by
  obtain ⟨eL, eR, eS, eQ⟩ := e
  have h1 : eS = true := hS
  have h3 : eR = true := hR
  subst h1
  subst h3
  by_cases hq : eQ = true
  · subst hq
    simp [lirEntryVal]
  · rw [bool_eq_false hq]
    simp [lirEntryVal]

theorem promote_st1_key_entry {st : CState K V} {key : K} {e : Entry}
    (hp : PPre st key e) : (promote_st1 key e st).map_ key = some lirEntryVal := by
  rw [promote_st1_map, mapSet_same, promote_entry_val hp.keyS hp.keyR]

theorem getLast?_retop {l : List K} {key b : K} (hb : l.getLast? = some b)
    (hkb : key ≠ b) (hkl : key ∈ l) :
    (key :: removeK l key).getLast? = some b := by
  obtain ⟨xs, rfl⟩ := exists_append_of_getLast? hb
  have hkxs : key ∈ xs := by
    rcases List.mem_append.mp hkl with hk | hk
    · exact hk
    · exact absurd (List.mem_singleton.mp hk) hkb
  rw [removeK_append_of_mem_left _ hkxs,
    show key :: (removeK xs key ++ [b]) = (key :: removeK xs key) ++ [b] from rfl]
  exact List.getLast?_concat _

theorem promote_extra {st : CState K V} {key : K} {e : Entry} (hp : PPre st key e)
    (hlc : st.lir_count_ = st.lir_capacity_)
    (hlpos : 1 ≤ st.lir_capacity_)
    (hhpos : 1 ≤ st.hir_capacity_)
    (hcapEq : st.capacity_ = st.lir_capacity_ + st.hir_capacity_)
    (hbot : ∀ b, st.lirs_stack_.getLast? = some b →
      ∃ eb, st.map_ b = some eb ∧ eb.is_LIR = true)
    (hsz : st.cache_.length = st.lir_count_ + st.hir_stack_.length +
      (if e.in_hir_stack = true then 0 else 1))
    (hqlen : st.hir_stack_.length + (if e.in_hir_stack = true then 0 else 1) ≤
      st.hir_capacity_) :
    ExtraInv (promote_to_lir key e st) ∧
    (promote_to_lir key e st).lir_count_ = st.lir_count_ := by
  have hkS : key ∈ st.lirs_stack_ := (hp.inS_iff key e hp.find).mp hp.keyS
  rcases hlast : st.lirs_stack_.getLast? with _ | b
  · exfalso
    rw [eq_nil_of_getLast? hlast] at hkS
    simp at hkS
  obtain ⟨eb, heb, hebL⟩ := hbot b hlast
  have hkb : key ≠ b := by
    rintro rfl
    rw [hp.find] at heb
    have : e = eb := Option.some.injEq _ _ ▸ heb
    rw [← this] at hebL
    rw [hp.keyL] at hebL
    exact absurd hebL (by simp)
  -- the intermediate state and its bottom
  have hw1 : WInv (promote_st1 key e st) := promote_st1_winv hp
  have hlast1 : (promote_st1 key e st).lirs_stack_.getLast? = some b := by
    rw [promote_st1_S]
    exact getLast?_retop hlast hkb hkS
  have heb1 : (promote_st1 key e st).map_ b = some eb := by
    rw [promote_st1_map, mapSet_other _ _ _ (fun hh => hkb hh.symm)]
    exact heb
  have h2eq := demote_fire hlast1 heb1 hebL
  have hw2 : WInv (demote_bottom_lir (promote_st1 key e st)) := demote_winv hw1
  have hpost : promote_to_lir key e st =
      stack_pruning (demote_bottom_lir (promote_st1 key e st)) := rfl
  -- projections of the demoted state
  have hlc2 : (demote_bottom_lir (promote_st1 key e st)).lir_count_ = st.lir_count_ := by
    rw [h2eq]
    simp
  have hC2 : (demote_bottom_lir (promote_st1 key e st)).cache_ = st.cache_ := by
    rw [h2eq]
    exact promote_st1_cache key e st
  have hQ2 : (demote_bottom_lir (promote_st1 key e st)).hir_stack_ =
      b :: (promote_st1 key e st).hir_stack_ := by
    rw [h2eq]
  have hQ2len : (demote_bottom_lir (promote_st1 key e st)).hir_stack_.length =
      st.hir_stack_.length + (if e.in_hir_stack = true then 0 else 1) := by
    rw [hQ2, promote_st1_Q]
    by_cases hq : e.in_hir_stack = true
    · rw [if_pos hq, if_pos hq]
      have hkQ : key ∈ st.hir_stack_ := (hp.inQ_iff key e hp.find).mp hq
      have := length_removeK_of_mem hkQ
      simp only [List.length_cons]
      omega
    · rw [if_neg hq, if_neg hq]
      simp
  -- the key's entry survives demotion and pruning as an LIR entry
  have hkey2 : (demote_bottom_lir (promote_st1 key e st)).map_ key = some lirEntryVal := by
    have hM2 : (demote_bottom_lir (promote_st1 key e st)).map_ =
        mapSet (promote_st1 key e st).map_ b
          { eb with is_LIR := false, in_lirs_stack := false, in_hir_stack := true } := by
      rw [h2eq]
    rw [hM2, mapSet_other _ _ _ hkb]
    exact promote_st1_key_entry hp
  have hkeypost : (promote_to_lir key e st).map_ key = some lirEntryVal := by
    rw [hpost]
    exact stack_pruning_keeps_lir hw2 key lirEntryVal hkey2 rfl
  -- assemble
  have hlcpost : (promote_to_lir key e st).lir_count_ = st.lir_count_ := by
    rw [hpost, stack_pruning_lc, hlc2]
  refine ⟨⟨?_, ?_, ?_, ?_, ?_, ?_, ?_, ?_, ?_⟩, hlcpost⟩
  · rw [hpost, stack_pruning_lcap]
    rw [show (demote_bottom_lir (promote_st1 key e st)).lir_capacity_ =
      st.lir_capacity_ by rw [demote_lcap, promote_st1_lcap]]
    exact hlpos
  · rw [hpost, stack_pruning_hcap]
    rw [show (demote_bottom_lir (promote_st1 key e st)).hir_capacity_ =
      st.hir_capacity_ by rw [demote_hcap, promote_st1_hcap]]
    exact hhpos
  · rw [hpost, stack_pruning_cap, stack_pruning_lcap, stack_pruning_hcap]
    rw [show (demote_bottom_lir (promote_st1 key e st)).capacity_ =
      st.capacity_ by rw [demote_cap, promote_st1_cap]]
    rw [show (demote_bottom_lir (promote_st1 key e st)).lir_capacity_ =
      st.lir_capacity_ by rw [demote_lcap, promote_st1_lcap]]
    rw [show (demote_bottom_lir (promote_st1 key e st)).hir_capacity_ =
      st.hir_capacity_ by rw [demote_hcap, promote_st1_hcap]]
    exact hcapEq
  · rw [hlcpost, hpost, stack_pruning_lcap]
    rw [show (demote_bottom_lir (promote_st1 key e st)).lir_capacity_ =
      st.lir_capacity_ by rw [demote_lcap, promote_st1_lcap]]
    exact hlc ▸ le_refl _
  · intro _
    rw [hlcpost, hpost, stack_pruning_lcap]
    rw [show (demote_bottom_lir (promote_st1 key e st)).lir_capacity_ =
      st.lir_capacity_ by rw [demote_lcap, promote_st1_lcap]]
    exact hlc
  · intro _
    exact ⟨key, lirEntryVal, hkeypost, rfl⟩
  · rw [hpost]
    exact stack_pruning_bottom hw2
  · rw [hpost, stack_pruning_lc, stack_pruning_q, stack_pruning_cache, hlc2, hC2, hQ2len]
    by_cases hq : e.in_hir_stack = true
    · rw [if_pos hq]
      rw [if_pos hq] at hsz
      omega
    · rw [if_neg hq]
      rw [if_neg hq] at hsz
      omega
  · rw [hpost, stack_pruning_q, stack_pruning_hcap, hQ2len]
    rw [show (demote_bottom_lir (promote_st1 key e st)).hir_capacity_ =
      st.hir_capacity_ by rw [demote_hcap, promote_st1_hcap]]
    by_cases hq : e.in_hir_stack = true
    · rw [if_pos hq]
      rw [if_pos hq] at hqlen
      omega
    · rw [if_neg hq]
      rw [if_neg hq] at hqlen
      omega

/-! ### Key-set monotonicity and cache preservation of the access routines -/

theorem demote_no_new {st : CState K V} (h : WInv st) :
    ∀ j, ((demote_bottom_lir st).map_ j).isSome = true → (st.map_ j).isSome = true := by
  intro j hj
  rcases hlast : st.lirs_stack_.getLast? with _ | bk
  · rw [demote_empty (eq_nil_of_getLast? hlast)] at hj
    exact hj
  obtain ⟨e, he⟩ := Option.isSome_iff_exists.mp (h.memS bk (mem_of_getLast? hlast))
  by_cases hL : e.is_LIR = true
  · rw [demote_fire hlast he hL] at hj
    by_cases hjb : j = bk
    · subst hjb
      rw [he]
      rfl
    · have hM : (mapSet st.map_ bk
          { e with is_LIR := false, in_lirs_stack := false, in_hir_stack := true }) j =
          st.map_ j := mapSet_other _ _ _ hjb
      rw [show ({ st with
          map_ := mapSet st.map_ bk
            { e with is_LIR := false, in_lirs_stack := false, in_hir_stack := true },
          lir_count_ := st.lir_count_ - 1,
          lirs_stack_ := st.lirs_stack_.dropLast,
          hir_stack_ := bk :: st.hir_stack_ } : CState K V).map_ j =
          (mapSet st.map_ bk
            { e with is_LIR := false, in_lirs_stack := false, in_hir_stack := true }) j
          from rfl, hM] at hj
      exact hj
  · rw [demote_skip hlast he hL] at hj
    exact hj

theorem promote_no_new {st : CState K V} {key : K} {e : Entry} (hp : PPre st key e) :
    ∀ j, ((promote_to_lir key e st).map_ j).isSome = true →
      (st.map_ j).isSome = true := by
  intro j hj
  have hw1 : WInv (promote_st1 key e st) := promote_st1_winv hp
  have hw2 : WInv (demote_bottom_lir (promote_st1 key e st)) := demote_winv hw1
  have h1 := stack_pruning_no_new hw2 j hj
  have h2 := demote_no_new hw1 j h1
  rw [promote_st1_map] at h2
  by_cases hjk : j = key
  · subst hjk
    rw [hp.find]
    rfl
  · rw [mapSet_other _ _ _ hjk] at h2
    exact h2

theorem access_lir_cache (key : K) (st : CState K V) :
    (access_lir key st).cache_ = st.cache_ := by
  rw [access_lir_eq]
  by_cases hb : st.lirs_stack_.getLast? = some key
  · rw [if_pos hb, stack_pruning_cache]
  · rw [if_neg hb]

theorem access_lir_lc (key : K) (st : CState K V) :
    (access_lir key st).lir_count_ = st.lir_count_ := by
  rw [access_lir_eq]
  by_cases hb : st.lirs_stack_.getLast? = some key
  · rw [if_pos hb, stack_pruning_lc]
  · rw [if_neg hb]

theorem access_lir_q (key : K) (st : CState K V) :
    (access_lir key st).hir_stack_ = st.hir_stack_ := by
  rw [access_lir_eq]
  by_cases hb : st.lirs_stack_.getLast? = some key
  · rw [if_pos hb, stack_pruning_q]
  · rw [if_neg hb]

theorem access_lir_caps (key : K) (st : CState K V) :
    (access_lir key st).capacity_ = st.capacity_ ∧
    (access_lir key st).hir_capacity_ = st.hir_capacity_ ∧
    (access_lir key st).lir_capacity_ = st.lir_capacity_ := by
  rw [access_lir_eq]
  by_cases hb : st.lirs_stack_.getLast? = some key
  · rw [if_pos hb, stack_pruning_cap, stack_pruning_hcap, stack_pruning_lcap]
    exact ⟨rfl, rfl, rfl⟩
  · rw [if_neg hb]
    exact ⟨rfl, rfl, rfl⟩

theorem access_hir_cache (key : K) (e : Entry) (st : CState K V) :
    (access_hir_resident key e st).cache_ = st.cache_ := by
  by_cases hin : e.in_lirs_stack = true
  · rw [access_hir_eq_promote key e st hin, promote_cache]
  · rw [access_hir_eq_refresh key e st hin]

theorem getLast?_cons_of_getLast? {l : List K} {b : K} (hb : l.getLast? = some b)
    (a : K) : (a :: l).getLast? = some b := by
  obtain ⟨xs, rfl⟩ := exists_append_of_getLast? hb
  rw [show a :: (xs ++ [b]) = (a :: xs) ++ [b] from rfl]
  exact List.getLast?_concat _

/-! ### `ExtraInv` preservation for the access routines -/

theorem access_lir_extra {st : CState K V} {key : K} {e : Entry} (hw : WInv st)
    (hx : ExtraInv st) (he : st.map_ key = some e) (hL : e.is_LIR = true) :
    ExtraInv (access_lir key st) := by
  have hin : e.in_lirs_stack = true := (hw.lirF key e he hL).1
  have hkS : key ∈ st.lirs_stack_ := (hw.inS_iff key e he).mp hin
  have hw1 : WInv { st with lirs_stack_ := key :: removeK st.lirs_stack_ key } :=
    retop_S_winv hw he hin
  rw [access_lir_eq]
  by_cases hb : st.lirs_stack_.getLast? = some key
  · rw [if_pos hb]
    exact stack_pruning_extra hw1 hx.lpos hx.hpos hx.capEq hx.lcLe hx.steady
      hx.lirWitness hx.sizeEq hx.qLen
  · rw [if_neg hb]
    refine ⟨hx.lpos, hx.hpos, hx.capEq, hx.lcLe, hx.steady, hx.lirWitness, ?_,
      hx.sizeEq, hx.qLen⟩
    intro b hbS
    rcases hlast : st.lirs_stack_.getLast? with _ | b0
    · exfalso
      rw [eq_nil_of_getLast? hlast] at hkS
      simp at hkS
    · have hkb0 : key ≠ b0 := fun hh => hb (hh ▸ hlast)
      have hgl : (key :: removeK st.lirs_stack_ key).getLast? = some b0 :=
        getLast?_retop hlast hkb0 hkS
      rw [show ({ st with lirs_stack_ := key :: removeK st.lirs_stack_ key } :
        CState K V).lirs_stack_ = key :: removeK st.lirs_stack_ key from rfl, hgl] at hbS
      have hbb : b0 = b := Option.some.injEq _ _ ▸ hbS
      subst hbb
      exact hx.bottomLIR b0 hlast

theorem refresh_extra {st : CState K V} {key : K} {e : Entry} (hw : WInv st)
    (hx : ExtraInv st) (he : st.map_ key = some e) (hL : e.is_LIR = false)
    (hres : e.is_resident = true) (hin : ¬ e.in_lirs_stack = true) :
    ExtraInv (access_hir_resident key e st) ∧
    (access_hir_resident key e st).lir_count_ = st.lir_count_ := by
  rw [access_hir_eq_refresh key e st hin]
  set st' : CState K V :=
    { st with
      lirs_stack_ := key :: st.lirs_stack_,
      hir_stack_ := key :: removeK st.hir_stack_ key,
      map_ := mapSet st.map_ key { e with in_lirs_stack := true } } with hst'
  have hM' : st'.map_ = mapSet st.map_ key { e with in_lirs_stack := true } := rfl
  have hS' : st'.lirs_stack_ = key :: st.lirs_stack_ := rfl
  have hQ' : st'.hir_stack_ = key :: removeK st.hir_stack_ key := rfl
  have hC' : st'.cache_ = st.cache_ := rfl
  have hlc' : st'.lir_count_ = st.lir_count_ := rfl
  have hkQ : key ∈ st.hir_stack_ := (hw.inQ_iff key e he).mp (hw.resQ key e he hres hL)
  have hlen : st'.hir_stack_.length = st.hir_stack_.length := by
    rw [hQ']
    have := length_removeK_of_mem hkQ
    simp only [List.length_cons]
    omega
  have hlc : st.lir_count_ = st.lir_capacity_ := hx.steady ⟨key, e, he, hL⟩
  refine ⟨⟨hx.lpos, hx.hpos, hx.capEq, hx.lcLe, ?_, ?_, ?_, ?_, ?_⟩, hlc'⟩
  · intro _
    exact hlc
  · intro h1
    obtain ⟨j, ej, hej, hLj⟩ := hx.lirWitness h1
    have hjk : j ≠ key := by
      rintro rfl
      rw [he] at hej
      have hee : e = ej := Option.some.injEq _ _ ▸ hej
      rw [← hee] at hLj
      rw [hL] at hLj
      exact absurd hLj (by simp)
    refine ⟨j, ej, ?_, hLj⟩
    rw [hM', mapSet_other _ _ _ hjk]
    exact hej
  · -- the new top is HIR but the bottom of S is unchanged
    intro b hbS
    have hSne : st.lirs_stack_ ≠ [] := by
      have h1 : 1 ≤ st.lir_count_ := hlc ▸ hx.lpos
      obtain ⟨j, ej, hej, hLj⟩ := hx.lirWitness h1
      have hjS : j ∈ st.lirs_stack_ := (hw.inS_iff j ej hej).mp (hw.lirF j ej hej hLj).1
      intro hnil
      rw [hnil] at hjS
      simp at hjS
    rcases hlast : st.lirs_stack_.getLast? with _ | b0
    · exact absurd (eq_nil_of_getLast? hlast) hSne
    · have hgl : (key :: st.lirs_stack_).getLast? = some b0 :=
        getLast?_cons_of_getLast? hlast key
      rw [hS', hgl] at hbS
      have hbb : b0 = b := Option.some.injEq _ _ ▸ hbS
      subst hbb
      obtain ⟨eb, hebm, hebL⟩ := hx.bottomLIR b0 hlast
      have hbk : b0 ≠ key := by
        rintro rfl
        rw [he] at hebm
        have hee : e = eb := Option.some.injEq _ _ ▸ hebm
        rw [← hee] at hebL
        rw [hL] at hebL
        exact absurd hebL (by simp)
      refine ⟨eb, ?_, hebL⟩
      rw [hM', mapSet_other _ _ _ hbk]
      exact hebm
  · rw [hC', hlc', hlen]
    exact hx.sizeEq
  · rw [hlen]
    rw [show st'.hir_capacity_ = st.hir_capacity_ from rfl]
    exact hx.qLen

theorem ghost_extra {st : CState K V} {key : K} (value : V) {e : Entry} (hw : WInv st)
    (hx : ExtraInv st) (he : st.map_ key = some e) (hres : e.is_resident = false) :
    ExtraInv (access_hir_non_resident key value e st) ∧
    (access_hir_non_resident key value e st).lir_count_ = st.lir_count_ := by
  obtain ⟨hinS, hinQ⟩ := hw.ghostF key e he hres
  have hL : e.is_LIR = false := by
    by_cases hT : e.is_LIR = true
    · have := (hw.lirF key e he hT).2.2
      rw [hres] at this
      exact absurd this (by simp)
    · exact bool_eq_false hT
  rw [ghost_eq_promote key value e st hinS]
  have hp2 := ghost_ppre value hw he hres
  set st1 := evict_hir_resident st with hst1
  set st2 : CState K V :=
    { st1 with cache_ := (key, value) :: st1.cache_,
               map_ := mapSet st1.map_ key { e with is_resident := true } } with hst2
  have hlc2 : st2.lir_count_ = st.lir_count_ := by
    rw [show st2.lir_count_ = st1.lir_count_ from rfl, hst1, evict_lc]
  have hlcap2 : st2.lir_capacity_ = st.lir_capacity_ := by
    rw [show st2.lir_capacity_ = st1.lir_capacity_ from rfl, hst1, evict_lcap]
  have hhcap2 : st2.hir_capacity_ = st.hir_capacity_ := by
    rw [show st2.hir_capacity_ = st1.hir_capacity_ from rfl, hst1, evict_hcap]
  have hcap2 : st2.capacity_ = st.capacity_ := by
    rw [show st2.capacity_ = st1.capacity_ from rfl, hst1, evict_cap]
  have hS2 : st2.lirs_stack_ = st.lirs_stack_ := by
    rw [show st2.lirs_stack_ = st1.lirs_stack_ from rfl, hst1, evict_S]
  have hsteady : st.lir_count_ = st.lir_capacity_ := hx.steady ⟨key, e, he, hL⟩
  have hoff : ({ e with is_resident := true } : Entry).in_hir_stack = false := hinQ
  -- size and queue-length bookkeeping through the eviction
  have hQC : st2.cache_.length = st2.lir_count_ + st2.hir_stack_.length + 1 ∧
      st2.hir_stack_.length + 1 ≤ st.hir_capacity_ := by
    have hC2 : st2.cache_.length = st1.cache_.length + 1 := by
      rw [show st2.cache_ = (key, value) :: st1.cache_ from rfl]
      simp
    have hQ2 : st2.hir_stack_ = st1.hir_stack_ := rfl
    rcases hq : st.hir_stack_.getLast? with _ | victim
    · have hqe : st.hir_stack_ = [] := eq_nil_of_getLast? hq
      have h1eq : st1 = st := by
        rw [hst1, evict_empty hqe]
      rw [hC2, hQ2, h1eq, hlc2, hqe]
      have := hx.sizeEq
      rw [hqe] at this
      simp only [List.length_nil] at this ⊢
      constructor
      · omega
      · exact hx.hpos
    · obtain ⟨_, _, hlen1, hlenQ1, _, _, _⟩ := evict_pop_facts hw hq
      rw [← hst1] at hlen1 hlenQ1
      rw [hC2, hQ2, hlc2]
      have h3 := hx.sizeEq
      have h4 := hx.qLen
      constructor
      · omega
      · omega
  have hbot2 : ∀ b, st2.lirs_stack_.getLast? = some b →
      ∃ eb, st2.map_ b = some eb ∧ eb.is_LIR = true := by
    intro b hb
    rw [hS2] at hb
    obtain ⟨eb, hebm, hebL⟩ := hx.bottomLIR b hb
    have hbk : b ≠ key := by
      rintro rfl
      rw [he] at hebm
      have hee : e = eb := Option.some.injEq _ _ ▸ hebm
      rw [← hee] at hebL
      rw [hL] at hebL
      exact absurd hebL (by simp)
    refine ⟨eb, ?_, hebL⟩
    rw [show st2.map_ = mapSet st1.map_ key { e with is_resident := true } from rfl,
      mapSet_other _ _ _ hbk]
    rcases hq : st.hir_stack_.getLast? with _ | victim
    · rw [hst1, evict_empty (eq_nil_of_getLast? hq)]
      exact hebm
    · obtain ⟨ev, hev, hevL, _, _, _, _⟩ := evict_victim_entry hw hq
      have hbv : b ≠ victim := by
        rintro rfl
        rw [hev] at hebm
        have hee : ev = eb := Option.some.injEq _ _ ▸ hebm
        rw [← hee] at hebL
        rw [hevL] at hebL
        exact absurd hebL (by simp)
      obtain ⟨_, _, _, _, hmo, _, _⟩ := evict_pop_facts hw hq
      rw [hst1, hmo b hbv]
      exact hebm
  have hout := promote_extra hp2 (by rw [hlc2, hlcap2]; exact hsteady)
    (by rw [hlcap2]; exact hx.lpos) (by rw [hhcap2]; exact hx.hpos)
    (by rw [hcap2, hlcap2, hhcap2]; exact hx.capEq) hbot2
    (by rw [hoff]; simp only [Bool.false_eq_true, if_false]; exact hQC.1)
    (by rw [hoff]; simp only [Bool.false_eq_true, if_false]; rw [hhcap2]; exact hQC.2)
  exact ⟨hout.1, by rw [hout.2, hlc2]⟩

theorem insert_extra {st : CState K V} (hw : WInv st) (hx : ExtraInv st) {key : K}
    (hnew : st.map_ key = none) (value : V) :
    ExtraInv (insert_new key value st) ∧
    (st.lir_count_ < st.lir_capacity_ →
      (insert_new key value st).lir_count_ = st.lir_count_ + 1) ∧
    (¬ st.lir_count_ < st.lir_capacity_ →
      (insert_new key value st).lir_count_ = st.lir_count_) := by
  have hkS : key ∉ st.lirs_stack_ := fun hm => by
    have := hw.memS key hm
    rw [hnew] at this
    exact absurd this (by simp)
  by_cases hlt : st.lir_count_ < st.lir_capacity_
  · rw [insert_warm_eq key value st hlt]
    set st' : CState K V :=
      { st with cache_ := (key, value) :: st.cache_,
                lirs_stack_ := key :: st.lirs_stack_,
                map_ := mapSet st.map_ key
                  { is_LIR := true, is_resident := true, in_lirs_stack := true, in_hir_stack := false },
                lir_count_ := st.lir_count_ + 1 } with hst'
    have hM' : st'.map_ = mapSet st.map_ key
        { is_LIR := true, is_resident := true, in_lirs_stack := true, in_hir_stack := false } := rfl
    have hS' : st'.lirs_stack_ = key :: st.lirs_stack_ := rfl
    refine ⟨⟨hx.lpos, hx.hpos, hx.capEq, by
        show st.lir_count_ + 1 ≤ st.lir_capacity_
        omega, ?_, ?_, ?_, ?_, hx.qLen⟩, fun _ => rfl, fun hc => absurd hlt hc⟩
    · rintro ⟨j, ej, hej, hLj⟩
      rw [hM'] at hej
      by_cases hjk : j = key
      · subst hjk
        rw [mapSet_same] at hej
        injection hej with hee
        rw [← hee] at hLj
        exact absurd hLj (by simp)
      · rw [mapSet_other _ _ _ hjk] at hej
        have := hx.steady ⟨j, ej, hej, hLj⟩
        omega
    · intro _
      refine ⟨key, admitEntry true, ?_, ?_⟩
      · rw [hM']
        exact mapSet_same _ _ _
      · rfl
    · intro b hb
      rw [hS'] at hb
      rcases hlast : st.lirs_stack_.getLast? with _ | b0
      · have hnil : st.lirs_stack_ = [] := eq_nil_of_getLast? hlast
        rw [hnil] at hb
        simp only [List.getLast?_singleton, Option.some.injEq] at hb
        subst hb
        refine ⟨admitEntry true, ?_, ?_⟩
        · rw [hM']
          exact mapSet_same _ _ _
        · rfl
      · have hgl : (key :: st.lirs_stack_).getLast? = some b0 :=
          getLast?_cons_of_getLast? hlast key
        rw [hgl] at hb
        have hbb : b0 = b := Option.some.injEq _ _ ▸ hb
        subst hbb
        obtain ⟨eb, hebm, hebL⟩ := hx.bottomLIR b0 hlast
        have hbk : b0 ≠ key := fun hh => hkS (hh ▸ mem_of_getLast? hlast)
        refine ⟨eb, ?_, hebL⟩
        rw [hM', mapSet_other _ _ _ hbk]
        exact hebm
    · show (st'.cache_).length = st.lir_count_ + 1 + st.hir_stack_.length
      rw [show st'.cache_ = (key, value) :: st.cache_ from rfl]
      simp only [List.length_cons]
      have := hx.sizeEq
      omega
  · rw [insert_steady_eq key value st hlt]
    have hlceq : st.lir_count_ = st.lir_capacity_ := le_antisymm hx.lcLe (by omega)
    have h1 : WInv (evict_hir_resident st) := evict_winv hw
    set st1 := evict_hir_resident st with hst1
    set st' : CState K V :=
      { st1 with cache_ := (key, value) :: st1.cache_,
                 lirs_stack_ := key :: st1.lirs_stack_,
                 hir_stack_ := key :: st1.hir_stack_,
                 map_ := mapSet st1.map_ key
                   { is_LIR := false, is_resident := true, in_lirs_stack := true, in_hir_stack := true } } with hst'
    have hM' : st'.map_ = mapSet st1.map_ key
        { is_LIR := false, is_resident := true, in_lirs_stack := true, in_hir_stack := true } := rfl
    have hS' : st'.lirs_stack_ = key :: st1.lirs_stack_ := rfl
    have hQ' : st'.hir_stack_ = key :: st1.hir_stack_ := rfl
    have hC' : st'.cache_ = (key, value) :: st1.cache_ := rfl
    have hlc' : st'.lir_count_ = st.lir_count_ := by
      rw [show st'.lir_count_ = st1.lir_count_ from rfl, hst1, evict_lc]
    have hlcap' : st'.lir_capacity_ = st.lir_capacity_ := by
      rw [show st'.lir_capacity_ = st1.lir_capacity_ from rfl, hst1, evict_lcap]
    have hhcap' : st'.hir_capacity_ = st.hir_capacity_ := by
      rw [show st'.hir_capacity_ = st1.hir_capacity_ from rfl, hst1, evict_hcap]
    have hcap' : st'.capacity_ = st.capacity_ := by
      rw [show st'.capacity_ = st1.capacity_ from rfl, hst1, evict_cap]
    have hS1 : st1.lirs_stack_ = st.lirs_stack_ := by rw [hst1, evict_S]
    have hlc1 : 1 ≤ st.lir_count_ := by
      rw [hlceq]
      exact hx.lpos
    obtain ⟨j, ej, hej, hLj⟩ := hx.lirWitness hlc1
    have hjkey : j ≠ key := fun hh => by
      rw [hh, hnew] at hej
      exact absurd hej (by simp)
    have hej1 : st1.map_ j = some ej := by
      rcases hq : st.hir_stack_.getLast? with _ | victim
      · rw [hst1, evict_empty (eq_nil_of_getLast? hq)]
        exact hej
      · obtain ⟨ev, hev, hevL, _, _, _, _⟩ := evict_victim_entry hw hq
        have hjv : j ≠ victim := by
          rintro rfl
          rw [hev] at hej
          have hee : ev = ej := Option.some.injEq _ _ ▸ hej
          rw [← hee] at hLj
          rw [hevL] at hLj
          exact absurd hLj (by simp)
        obtain ⟨_, _, _, _, hmo, _, _⟩ := evict_pop_facts hw hq
        rw [hst1, hmo j hjv]
        exact hej
    refine ⟨⟨by rw [hlcap']; exact hx.lpos, by rw [hhcap']; exact hx.hpos,
      by rw [hcap', hlcap', hhcap']; exact hx.capEq,
      by rw [hlc', hlcap']; omega,
      fun _ => by rw [hlc', hlcap']; exact hlceq,
      ?_, ?_, ?_, ?_⟩, fun hc => absurd hc hlt, fun _ => hlc'⟩
    · intro _
      refine ⟨j, ej, ?_, hLj⟩
      rw [hM', mapSet_other _ _ _ hjkey]
      exact hej1
    · -- bottomLIR
      intro b hb
      rw [hS', hS1] at hb
      have hjS : j ∈ st.lirs_stack_ := (hw.inS_iff j ej hej).mp (hw.lirF j ej hej hLj).1
      rcases hlast : st.lirs_stack_.getLast? with _ | b0
      · exfalso
        rw [eq_nil_of_getLast? hlast] at hjS
        simp at hjS
      · have hgl := getLast?_cons_of_getLast? hlast key
        rw [hgl] at hb
        have hbb : b0 = b := Option.some.injEq _ _ ▸ hb
        subst hbb
        obtain ⟨eb, hebm, hebL⟩ := hx.bottomLIR b0 hlast
        have hbk : b0 ≠ key := fun hh => by
          rw [hh, hnew] at hebm
          exact absurd hebm (by simp)
        refine ⟨eb, ?_, hebL⟩
        rw [hM', mapSet_other _ _ _ hbk]
        rcases hq : st.hir_stack_.getLast? with _ | victim
        · rw [hst1, evict_empty (eq_nil_of_getLast? hq)]
          exact hebm
        · obtain ⟨ev, hev, hevL, _, _, _, _⟩ := evict_victim_entry hw hq
          have hbv : b0 ≠ victim := by
            rintro rfl
            rw [hev] at hebm
            have hee : ev = eb := Option.some.injEq _ _ ▸ hebm
            rw [← hee] at hebL
            rw [hevL] at hebL
            exact absurd hebL (by simp)
          obtain ⟨_, _, _, _, hmo, _, _⟩ := evict_pop_facts hw hq
          rw [hst1, hmo b0 hbv]
          exact hebm
    · -- sizeEq
      rw [hC', hQ', hlc']
      simp only [List.length_cons]
      rcases hq : st.hir_stack_.getLast? with _ | victim
      · have h1eq : st1 = st := by rw [hst1, evict_empty (eq_nil_of_getLast? hq)]
        rw [h1eq]
        have h3 := hx.sizeEq
        omega
      · obtain ⟨_, _, hlen1, hlenQ1, _, _, _⟩ := evict_pop_facts hw hq
        rw [← hst1] at hlen1 hlenQ1
        have h3 := hx.sizeEq
        omega
    · -- qLen
      rw [hQ', hhcap']
      simp only [List.length_cons]
      rcases hq : st.hir_stack_.getLast? with _ | victim
      · have h1eq : st1 = st := by rw [hst1, evict_empty (eq_nil_of_getLast? hq)]
        rw [h1eq, eq_nil_of_getLast? hq]
        simp only [List.length_nil]
        exact hx.hpos
      · obtain ⟨_, _, _, hlenQ1, _, _, _⟩ := evict_pop_facts hw hq
        rw [← hst1] at hlenQ1
        have h4 := hx.qLen
        omega

theorem upd_cache_extra {st : CState K V} (hx : ExtraInv st) (key : K) (value : V) :
    ExtraInv { st with cache_ := updateCache st.cache_ key value } := by
  refine ⟨hx.lpos, hx.hpos, hx.capEq, hx.lcLe, hx.steady, hx.lirWitness, hx.bottomLIR,
    ?_, hx.qLen⟩
  rw [show ({ st with cache_ := updateCache st.cache_ key value } : CState K V).cache_ =
    updateCache st.cache_ key value from rfl, length_updateCache]
  exact hx.sizeEq

theorem insert_warm_map (key : K) (value : V) (st : CState K V)
    (hlt : st.lir_count_ < st.lir_capacity_) :
    (insert_new key value st).map_ = mapSet st.map_ key (admitEntry true) := by
  rw [insert_warm_eq key value st hlt]
  rfl

theorem insert_steady_map (key : K) (value : V) (st : CState K V)
    (hge : ¬ st.lir_count_ < st.lir_capacity_) :
    (insert_new key value st).map_ =
      mapSet (evict_hir_resident st).map_ key (admitEntry false) := by
  rw [insert_steady_eq key value st hge]
  rfl

theorem access_lir_no_new {st : CState K V} {key : K} {e : Entry} (hw : WInv st)
    (he : st.map_ key = some e) (hS : e.in_lirs_stack = true) :
    ∀ j, ((access_lir key st).map_ j).isSome = true → (st.map_ j).isSome = true := by
  intro j hj
  rw [access_lir_eq] at hj
  by_cases hb : st.lirs_stack_.getLast? = some key
  · rw [if_pos hb] at hj
    exact stack_pruning_no_new (retop_S_winv hw he hS) j hj
  · rw [if_neg hb] at hj
    exact hj

theorem access_hir_no_new {st : CState K V} {key : K} {e : Entry} (hw : WInv st)
    (he : st.map_ key = some e) (hres : e.is_resident = true) (hL : e.is_LIR = false) :
    ∀ j, ((access_hir_resident key e st).map_ j).isSome = true →
      (st.map_ j).isSome = true := by
  intro j hj
  by_cases hin : e.in_lirs_stack = true
  · rw [access_hir_eq_promote key e st hin] at hj
    exact promote_no_new (hw.toPPre he hin hL hres) j hj
  · rw [access_hir_eq_refresh key e st hin] at hj
    rw [show ({ st with
        lirs_stack_ := key :: st.lirs_stack_,
        hir_stack_ := key :: removeK st.hir_stack_ key,
        map_ := mapSet st.map_ key { e with in_lirs_stack := true } } : CState K V).map_ =
        mapSet st.map_ key { e with in_lirs_stack := true } from rfl] at hj
    by_cases hjk : j = key
    · subst hjk
      rw [he]
      rfl
    · rw [mapSet_other _ _ _ hjk] at hj
      exact hj

theorem getOp_no_new {st : CState K V} (hw : WInv st) (key : K) :
    ∀ j, (((getOp key st).2).map_ j).isSome = true → (st.map_ j).isSome = true := by
  intro j hj
  rcases he : st.map_ key with _ | e
  · rw [getOp_miss_unknown he] at hj
    exact hj
  · by_cases hres : e.is_resident = true
    · by_cases hL : e.is_LIR = true
      · rw [getOp_lir_eq he hres hL] at hj
        exact access_lir_no_new hw he (hw.lirF key e he hL).1 j hj
      · rw [getOp_hir_eq he hres (bool_eq_false hL)] at hj
        exact access_hir_no_new hw he hres (bool_eq_false hL) j hj
    · rw [getOp_miss_ghost he (bool_eq_false hres)] at hj
      exact hj

theorem putOp_no_new {st : CState K V} (hw : WInv st) (key : K) (value : V) :
    ∀ j, ((putOp key value st).map_ j).isSome = true →
      (st.map_ j).isSome = true ∨ j = key := by
  intro j hj
  by_cases hjk : j = key
  · exact Or.inr hjk
  refine Or.inl ?_
  rcases he : st.map_ key with _ | e
  · rw [putOp_new_eq value he] at hj
    by_cases hlt : st.lir_count_ < st.lir_capacity_
    · rw [insert_warm_map key value st hlt, mapSet_other _ _ _ hjk] at hj
      exact hj
    · rw [insert_steady_map key value st hlt, mapSet_other _ _ _ hjk] at hj
      rcases hq : st.hir_stack_.getLast? with _ | victim
      · rw [evict_empty (eq_nil_of_getLast? hq)] at hj
        exact hj
      · obtain ⟨_, _, _, _, _, hnn, _⟩ := evict_pop_facts hw hq
        exact hnn j hj
  · by_cases hL : e.is_LIR = true
    · rw [putOp_lir_eq value he hL] at hj
      exact access_lir_no_new (upd_cache_winv hw key value) he (hw.lirF key e he hL).1 j hj
    · by_cases hres : e.is_resident = true
      · rw [putOp_hir_eq value he (bool_eq_false hL) hres] at hj
        exact access_hir_no_new (upd_cache_winv hw key value) he hres (bool_eq_false hL) j hj
      · rw [putOp_ghost_eq value he (bool_eq_false hL) (bool_eq_false hres)] at hj
        have hinS : e.in_lirs_stack = true := (hw.ghostF key e he (bool_eq_false hres)).1
        rw [ghost_eq_promote key value e st hinS] at hj
        have h2 := promote_no_new (ghost_ppre value hw he (bool_eq_false hres)) j hj
        rw [show ({ evict_hir_resident st with
            cache_ := (key, value) :: (evict_hir_resident st).cache_,
            map_ := mapSet (evict_hir_resident st).map_ key { e with is_resident := true } } :
            CState K V).map_ =
            mapSet (evict_hir_resident st).map_ key { e with is_resident := true }
            from rfl, mapSet_other _ _ _ hjk] at h2
        rcases hq : st.hir_stack_.getLast? with _ | victim
        · rw [evict_empty (eq_nil_of_getLast? hq)] at h2
          exact h2
        · obtain ⟨_, _, _, _, _, hnn, _⟩ := evict_pop_facts hw hq
          exact hnn j h2

theorem getOp_inv {st : CState K V} (hw : WInv st) (hx : ExtraInv st) (key : K) :
    ExtraInv (getOp key st).2 ∧ (getOp key st).2.lir_count_ = st.lir_count_ := by
  rcases he : st.map_ key with _ | e
  · rw [getOp_miss_unknown he]
    exact ⟨hx, rfl⟩
  · by_cases hres : e.is_resident = true
    · by_cases hL : e.is_LIR = true
      · rw [getOp_lir_eq he hres hL]
        exact ⟨access_lir_extra hw hx he hL, access_lir_lc key st⟩
      · rw [getOp_hir_eq he hres (bool_eq_false hL)]
        by_cases hin : e.in_lirs_stack = true
        · rw [access_hir_eq_promote key e st hin]
          have hq2 : e.in_hir_stack = true := hw.resQ key e he hres (bool_eq_false hL)
          have hout := promote_extra (hw.toPPre he hin (bool_eq_false hL) hres)
            (hx.steady ⟨key, e, he, bool_eq_false hL⟩) hx.lpos hx.hpos hx.capEq
            hx.bottomLIR
            (by rw [if_pos hq2]; have := hx.sizeEq; omega)
            (by rw [if_pos hq2]; have := hx.qLen; omega)
          exact hout
        · exact refresh_extra hw hx he (bool_eq_false hL) hres hin
    · rw [getOp_miss_ghost he (bool_eq_false hres)]
      exact ⟨hx, rfl⟩

theorem putOp_inv {st : CState K V} (hw : WInv st) (hx : ExtraInv st) (key : K)
    (value : V) :
    ExtraInv (putOp key value st) ∧
    ((st.map_ key).isSome = true → (putOp key value st).lir_count_ = st.lir_count_) ∧
    (st.map_ key = none → st.lir_count_ < st.lir_capacity_ →
      (putOp key value st).lir_count_ = st.lir_count_ + 1) ∧
    (st.map_ key = none → ¬ st.lir_count_ < st.lir_capacity_ →
      (putOp key value st).lir_count_ = st.lir_count_) := by
  rcases he : st.map_ key with _ | e
  · rw [putOp_new_eq value he]
    obtain ⟨h1, h2, h3⟩ := insert_extra hw hx he value
    exact ⟨h1, fun hc => absurd hc (by simp), fun _ => h2, fun _ => h3⟩
  · have hwu := upd_cache_winv hw key value
    have hxu := upd_cache_extra hx key value
    by_cases hL : e.is_LIR = true
    · rw [putOp_lir_eq value he hL]
      refine ⟨access_lir_extra hwu hxu he hL, fun _ => access_lir_lc key _,
        fun hc => absurd hc (by simp [he]), fun hc => absurd hc (by simp [he])⟩
    · by_cases hres : e.is_resident = true
      · rw [putOp_hir_eq value he (bool_eq_false hL) hres]
        by_cases hin : e.in_lirs_stack = true
        · rw [access_hir_eq_promote key e _ hin]
          have hq2 : e.in_hir_stack = true := hw.resQ key e he hres (bool_eq_false hL)
          have hout := promote_extra (hwu.toPPre he hin (bool_eq_false hL) hres)
            (hxu.steady ⟨key, e, he, bool_eq_false hL⟩) hxu.lpos hxu.hpos hxu.capEq
            hxu.bottomLIR
            (by rw [if_pos hq2]; have := hxu.sizeEq; omega)
            (by rw [if_pos hq2]; have := hxu.qLen; omega)
          exact ⟨hout.1, fun _ => hout.2, fun hc => absurd hc (by simp [he]),
            fun hc => absurd hc (by simp [he])⟩
        · obtain ⟨h1, h2⟩ := refresh_extra hwu hxu he (bool_eq_false hL) hres hin
          exact ⟨h1, fun _ => h2, fun hc => absurd hc (by simp [he]),
            fun hc => absurd hc (by simp [he])⟩
      · rw [putOp_ghost_eq value he (bool_eq_false hL) (bool_eq_false hres)]
        obtain ⟨h1, h2⟩ := ghost_extra value hw hx he (bool_eq_false hres)
        exact ⟨h1, fun _ => h2, fun hc => absurd hc (by simp [he]),
          fun hc => absurd hc (by simp [he])⟩

/-! ### Configuration fields are constant across the public operations -/

theorem access_hir_caps (key : K) (e : Entry) (st : CState K V) :
    (access_hir_resident key e st).capacity_ = st.capacity_ ∧
    (access_hir_resident key e st).hir_capacity_ = st.hir_capacity_ ∧
    (access_hir_resident key e st).lir_capacity_ = st.lir_capacity_ := by
  by_cases hin : e.in_lirs_stack = true
  · rw [access_hir_eq_promote key e st hin]
    exact ⟨promote_cap _ _ _, promote_hcap _ _ _, promote_lcap _ _ _⟩
  · rw [access_hir_eq_refresh key e st hin]
    exact ⟨rfl, rfl, rfl⟩

theorem ghost_caps (key : K) (value : V) (e : Entry) (st : CState K V) :
    (access_hir_non_resident key value e st).capacity_ = st.capacity_ ∧
    (access_hir_non_resident key value e st).hir_capacity_ = st.hir_capacity_ ∧
    (access_hir_non_resident key value e st).lir_capacity_ = st.lir_capacity_ := by
  unfold access_hir_non_resident
  dsimp only
  split
  · exact ⟨by rw [promote_cap, evict_cap], by rw [promote_hcap, evict_hcap],
      by rw [promote_lcap, evict_lcap]⟩
  · exact ⟨by rw [evict_cap], by rw [evict_hcap], by rw [evict_lcap]⟩

theorem insert_caps (key : K) (value : V) (st : CState K V) :
    (insert_new key value st).capacity_ = st.capacity_ ∧
    (insert_new key value st).hir_capacity_ = st.hir_capacity_ ∧
    (insert_new key value st).lir_capacity_ = st.lir_capacity_ := by
  unfold insert_new
  split
  · exact ⟨rfl, rfl, rfl⟩
  · exact ⟨evict_cap st, evict_hcap st, evict_lcap st⟩

theorem getOp_caps (key : K) (st : CState K V) :
    (getOp key st).2.capacity_ = st.capacity_ ∧
    (getOp key st).2.hir_capacity_ = st.hir_capacity_ ∧
    (getOp key st).2.lir_capacity_ = st.lir_capacity_ := by
  rcases he : st.map_ key with _ | e
  · rw [getOp_miss_unknown he]
    exact ⟨rfl, rfl, rfl⟩
  · by_cases hres : e.is_resident = true
    · by_cases hL : e.is_LIR = true
      · rw [getOp_lir_eq he hres hL]
        exact access_lir_caps key st
      · rw [getOp_hir_eq he hres (bool_eq_false hL)]
        exact access_hir_caps key e st
    · rw [getOp_miss_ghost he (bool_eq_false hres)]
      exact ⟨rfl, rfl, rfl⟩

theorem putOp_caps (key : K) (value : V) (st : CState K V) :
    (putOp key value st).capacity_ = st.capacity_ ∧
    (putOp key value st).hir_capacity_ = st.hir_capacity_ ∧
    (putOp key value st).lir_capacity_ = st.lir_capacity_ := by
  rcases he : st.map_ key with _ | e
  · rw [putOp_new_eq value he]
    exact insert_caps key value st
  · by_cases hL : e.is_LIR = true
    · rw [putOp_lir_eq value he hL]
      exact access_lir_caps key _
    · by_cases hres : e.is_resident = true
      · rw [putOp_hir_eq value he (bool_eq_false hL) hres]
        exact access_hir_caps key e _
      · rw [putOp_ghost_eq value he (bool_eq_false hL) (bool_eq_false hres)]
        exact ghost_caps key value e st

theorem step_caps (st : CState K V) (op : Op K V) :
    (step st op).capacity_ = st.capacity_ ∧
    (step st op).hir_capacity_ = st.hir_capacity_ ∧
    (step st op).lir_capacity_ = st.lir_capacity_ := by
  cases op with
  | get k => exact getOp_caps k st
  | put k v => exact putOp_caps k v st

theorem runOps_caps (st : CState K V) (ops : List (Op K V)) :
    (runOps st ops).capacity_ = st.capacity_ ∧
    (runOps st ops).hir_capacity_ = st.hir_capacity_ ∧
    (runOps st ops).lir_capacity_ = st.lir_capacity_ := by
  induction ops generalizing st with
  | nil => exact ⟨rfl, rfl, rfl⟩
  | cons op rest ih =>
    rw [show runOps st (op :: rest) = runOps (step st op) rest from rfl]
    obtain ⟨h1, h2, h3⟩ := ih (step st op)
    obtain ⟨g1, g2, g3⟩ := step_caps st op
    exact ⟨h1.trans g1, h2.trans g2, h3.trans g3⟩

/-! ### The invariants at construction time -/

theorem mkLIRS_elim {cap : Nat} {r : ℚ} {st : CState K V}
    (h : mkLIRS K V cap r = some st) :
    ¬ cap = 0 ∧ ¬ (r ≤ 0 ∨ 1 ≤ r) ∧
    st = initState K V cap (max 1 (((cap : ℚ) * r).floor.toNat)) := by
  unfold mkLIRS at h
  by_cases h0 : cap = 0
  · rw [if_pos h0] at h
    exact absurd h (by simp)
  · rw [if_neg h0] at h
    by_cases h1 : r ≤ 0 ∨ 1 ≤ r
    · rw [if_pos h1] at h
      exact absurd h (by simp)
    · rw [if_neg h1] at h
      refine ⟨h0, h1, ?_⟩
      injection h with h
      exact h.symm

theorem mkLIRS_winv {cap : Nat} {r : ℚ} {st : CState K V}
    (h : mkLIRS K V cap r = some st) : WInv st := by
  obtain ⟨_, _, hst⟩ := mkLIRS_elim h
  rw [hst]
  exact initState_winv _ _

theorem initState_extra {cap hc : Nat} (h1 : 1 ≤ hc) (h2 : hc < cap) :
    ExtraInv (initState K V cap hc) := by
  refine ⟨?_, ?_, ?_, ?_, ?_, ?_, ?_, ?_, ?_⟩
  · show 1 ≤ cap - hc
    omega
  · exact h1
  · show cap = (cap - hc) + hc
    omega
  · show (0 : Nat) ≤ cap - hc
    omega
  · rintro ⟨k, e, he, -⟩
    exact absurd he (by simp [initState])
  · intro hlc
    exact absurd hlc (by simp [initState])
  · intro b hb
    exact absurd hb (by simp [initState])
  · rfl
  · show (0 : Nat) ≤ hc
    omega

theorem mkLIRS_inv {cap : Nat} {r : ℚ} {st : CState K V}
    (hcap : 2 ≤ cap) (h : mkLIRS K V cap r = some st) : Inv st := by
  obtain ⟨h0, h1, hst⟩ := mkLIRS_elim h
  push_neg at h1
  obtain ⟨hr0, hr1⟩ := h1
  have hcpos : (0 : ℚ) < (cap : ℚ) := by
    exact_mod_cast Nat.pos_of_ne_zero h0
  have hfl : ((cap : ℚ) * r).floor < (cap : ℤ) := by
    by_contra hle
    push_neg at hle
    rw [Rat.le_floor] at hle
    have hlt : (cap : ℚ) * r < (cap : ℚ) := by
      calc (cap : ℚ) * r < (cap : ℚ) * 1 := mul_lt_mul_of_pos_left hr1 hcpos
        _ = (cap : ℚ) := mul_one _
    push_cast at hle
    linarith
  have hflt : ((cap : ℚ) * r).floor.toNat < cap := by omega
  have hhc : max 1 (((cap : ℚ) * r).floor.toNat) < cap := by omega
  rw [hst]
  exact ⟨initState_winv _ _, initState_extra (le_max_left _ _) hhc⟩

theorem step_inv {st : CState K V} (h : Inv st) (op : Op K V) : Inv (step st op) := by
  cases op with
  | get k => exact ⟨getOp_winv h.1 k, (getOp_inv h.1 h.2 k).1⟩
  | put k v => exact ⟨putOp_winv h.1 k v, (putOp_inv h.1 h.2 k v).1⟩

theorem runOps_inv {st : CState K V} (h : Inv st) (ops : List (Op K V)) :
    Inv (runOps st ops) := by
  induction ops generalizing st with
  | nil => exact h
  | cons op rest ih =>
    rw [show runOps st (op :: rest) = runOps (step st op) rest from rfl]
    exact ih (step_inv h op)

/-! ### Residency, stored values, and the frame facts of the operations -/

/-- A key is resident when its entry record exists and has
`is_resident = true` (an absent record counts as not resident). -/
def isResidentKey (st : CState K V) (k : K) : Bool :=
  ((st.map_ k).getD default).is_resident

theorem isResidentKey_iff_mem {st : CState K V} (hw : WInv st) (j : K) :
    isResidentKey st j = true ↔ j ∈ keysOf st.cache_ := by
  unfold isResidentKey
  rcases he : st.map_ j with _ | e
  · simp only [Option.getD_none]
    refine iff_of_false (by simp [default]) ?_
    intro hm
    have := hw.memC j hm
    rw [he] at this
    exact absurd this (by simp)
  · simp only [Option.getD_some]
    exact hw.res_iff j e he

theorem bool_ext {a b : Bool} (h : a = true ↔ b = true) : a = b := by
  cases a <;> cases b <;> simp_all

theorem isResidentKey_of_entry {st : CState K V} {k : K}
    (h : isResidentKey st k = true) :
    ∃ e, st.map_ k = some e ∧ e.is_resident = true := by
  unfold isResidentKey at h
  rcases he : st.map_ k with _ | e
  · rw [he] at h
    exact absurd h (by simp [default])
  · rw [he] at h
    exact ⟨e, rfl, h⟩

theorem getOp_state_cache (key : K) (st : CState K V) :
    (getOp key st).2.cache_ = st.cache_ := by
  rcases he : st.map_ key with _ | e
  · rw [getOp_miss_unknown he]
  · by_cases hres : e.is_resident = true
    · by_cases hL : e.is_LIR = true
      · rw [getOp_lir_eq he hres hL]
        exact access_lir_cache key st
      · rw [getOp_hir_eq he hres (bool_eq_false hL)]
        exact access_hir_cache key e st
    · rw [getOp_miss_ghost he (bool_eq_false hres)]

theorem getOp_fst_resident {st : CState K V} {key : K} {e : Entry}
    (he : st.map_ key = some e) (hres : e.is_resident = true) :
    (getOp key st).1 = lookupCache st.cache_ key := by
  by_cases hL : e.is_LIR = true
  · rw [getOp_lir_eq he hres hL, access_lir_cache]
  · rw [getOp_hir_eq he hres (bool_eq_false hL), access_hir_cache]

theorem putOp_resident_cache {st : CState K V} {key : K} {e : Entry} (value : V)
    (he : st.map_ key = some e) (hres : e.is_resident = true) :
    (putOp key value st).cache_ = updateCache st.cache_ key value := by
  by_cases hL : e.is_LIR = true
  · rw [putOp_lir_eq value he hL, access_lir_cache]
  · rw [putOp_hir_eq value he (bool_eq_false hL) hres, access_hir_cache]

theorem demote_keeps_entry {st : CState K V} (hw : WInv st) {k : K} {e : Entry}
    (he : st.map_ k = some e) :
    ∃ e', (demote_bottom_lir st).map_ k = some e' ∧
      e'.is_resident = e.is_resident := by
  rcases hlast : st.lirs_stack_.getLast? with _ | bk
  · rw [demote_empty (eq_nil_of_getLast? hlast)]
    exact ⟨e, he, rfl⟩
  obtain ⟨eb, heb⟩ := Option.isSome_iff_exists.mp (hw.memS bk (mem_of_getLast? hlast))
  by_cases hL : eb.is_LIR = true
  · have heq := demote_fire hlast heb hL
    have hM : (demote_bottom_lir st).map_ = mapSet st.map_ bk
        { eb with is_LIR := false, in_lirs_stack := false, in_hir_stack := true } := by
      rw [heq]
    by_cases hk : k = bk
    · subst hk
      rw [hM, mapSet_same]
      have hee : e = eb := by
        rw [he] at heb
        exact Option.some.injEq _ _ ▸ heb
      exact ⟨_, rfl, by rw [hee]⟩
    · rw [hM, mapSet_other _ _ _ hk]
      exact ⟨e, he, rfl⟩
  · rw [demote_skip hlast heb hL]
    exact ⟨e, he, rfl⟩

theorem stack_pruning_keeps_resident {st : CState K V} (hw : WInv st) {k : K} {e : Entry}
    (he : st.map_ k = some e) (hres : e.is_resident = true) :
    ∃ e', (stack_pruning st).map_ k = some e' ∧ e'.is_resident = true := by
  obtain ⟨_, _, _, _, _, _, dr, _, _, _, _, hdropped, hkept, _⟩ :=
    stack_pruning_spec st hw.ndS hw.memS
  by_cases hd : k ∈ dr
  · obtain ⟨e2, he2, _, hfin⟩ := hdropped k hd
    have hee : e2 = e := by
      rw [he] at he2
      injection he2 with h
      exact h.symm
    rw [hee, if_pos hres] at hfin
    exact ⟨_, hfin, hres⟩
  · rw [hkept k hd]
    exact ⟨e, he, hres⟩

theorem promote_key_resident {st : CState K V} {key : K} {e : Entry} (hp : PPre st key e) :
    ∃ e', (promote_to_lir key e st).map_ key = some e' ∧ e'.is_resident = true := by
  have hw1 : WInv (promote_st1 key e st) := promote_st1_winv hp
  have h1 : (promote_st1 key e st).map_ key = some lirEntryVal :=
    promote_st1_key_entry hp
  obtain ⟨e2, h2, hr2⟩ := demote_keeps_entry hw1 h1
  have hw2 : WInv (demote_bottom_lir (promote_st1 key e st)) := demote_winv hw1
  have hr2' : e2.is_resident = true := by rw [hr2]; rfl
  obtain ⟨e3, h3, hr3⟩ := stack_pruning_keeps_resident hw2 h2 hr2'
  exact ⟨e3, h3, hr3⟩

theorem putOp_makes_resident {st : CState K V} (hw : WInv st) (key : K) (value : V) :
    ∃ e', (putOp key value st).map_ key = some e' ∧ e'.is_resident = true := by
  rcases he : st.map_ key with _ | e
  · rw [putOp_new_eq value he]
    by_cases hlt : st.lir_count_ < st.lir_capacity_
    · rw [insert_warm_map key value st hlt, mapSet_same]
      exact ⟨admitEntry true, rfl, rfl⟩
    · rw [insert_steady_map key value st hlt, mapSet_same]
      exact ⟨admitEntry false, rfl, rfl⟩
  · by_cases hL : e.is_LIR = true
    · rw [putOp_lir_eq value he hL]
      have hres : e.is_resident = true := (hw.lirF key e he hL).2.2
      have hin : e.in_lirs_stack = true := (hw.lirF key e he hL).1
      have hw' : WInv { st with cache_ := updateCache st.cache_ key value } :=
        upd_cache_winv hw key value
      rw [access_lir_eq]
      by_cases hb : ({ st with cache_ := updateCache st.cache_ key value } :
          CState K V).lirs_stack_.getLast? = some key
      · rw [if_pos hb]
        obtain ⟨e', he', hr'⟩ := stack_pruning_keeps_resident
          (retop_S_winv hw' he hin) (k := key) (e := e) he hres
        exact ⟨e', he', hr'⟩
      · rw [if_neg hb]
        exact ⟨e, he, hres⟩
    · by_cases hres : e.is_resident = true
      · rw [putOp_hir_eq value he (bool_eq_false hL) hres]
        by_cases hin : e.in_lirs_stack = true
        · rw [access_hir_eq_promote key e _ hin]
          exact promote_key_resident
            ((upd_cache_winv hw key value).toPPre he hin (bool_eq_false hL) hres)
        · rw [access_hir_eq_refresh key e _ hin]
          refine ⟨{ e with in_lirs_stack := true }, ?_, hres⟩
          show mapSet st.map_ key { e with in_lirs_stack := true } key = _
          rw [mapSet_same]
      · rw [putOp_ghost_eq value he (bool_eq_false hL) (bool_eq_false hres)]
        have hinS : e.in_lirs_stack = true := (hw.ghostF key e he (bool_eq_false hres)).1
        rw [ghost_eq_promote key value e st hinS]
        exact promote_key_resident (ghost_ppre value hw he (bool_eq_false hres))

theorem putOp_value {st : CState K V} (hw : WInv st) {key : K} {e : Entry}
    (he : st.map_ key = some e) (hres : e.is_resident = true) (value : V) :
    lookupCache (putOp key value st).cache_ key = some value := by
  rw [putOp_resident_cache value he hres]
  exact lookupCache_updateCache_same value ((hw.res_iff key e he).mp hres)

/-! ### Idempotence machinery for repeated accesses of one key -/

theorem stack_pruning_eq_self {st : CState K V}
    (hbot : ∀ b, st.lirs_stack_.getLast? = some b →
      ∃ e, st.map_ b = some e ∧ e.is_LIR = true) :
    stack_pruning st = st := by
  have hpr : pruneRec st.lirs_stack_.reverse st.map_ = (st.lirs_stack_.reverse, st.map_) := by
    rcases hlast : st.lirs_stack_.getLast? with _ | b
    · rw [eq_nil_of_getLast? hlast]
      rfl
    · obtain ⟨e, he, hL⟩ := hbot b hlast
      obtain ⟨xs, hxs⟩ := exists_append_of_getLast? hlast
      have hsome : (st.map_ b).isSome = true := by rw [he]; rfl
      rw [hxs, show (xs ++ [b]).reverse = b :: xs.reverse by simp]
      simp only [pruneRec, mapTouch_of_isSome hsome, he, Option.getD_some, hL, if_true]
  show ({ st with
      lirs_stack_ := (pruneRec st.lirs_stack_.reverse st.map_).1.reverse,
      map_ := (pruneRec st.lirs_stack_.reverse st.map_).2 } : CState K V) = st
  rw [hpr, List.reverse_reverse]

theorem access_lir_id {st : CState K V} {key : K}
    (hhead : st.lirs_stack_.head? = some key)
    (hbot : ∀ b, st.lirs_stack_.getLast? = some b →
      ∃ e, st.map_ b = some e ∧ e.is_LIR = true) :
    access_lir key st = st := by
  rcases hS : st.lirs_stack_ with _ | ⟨a, t⟩
  · rw [hS] at hhead
    exact absurd hhead (by simp)
  · rw [hS] at hhead
    simp only [List.head?_cons, Option.some.injEq] at hhead
    subst hhead
    have hst1 : ({ st with lirs_stack_ := a :: removeK st.lirs_stack_ a } : CState K V) = st := by
      rw [hS, show removeK (a :: t) a = t by simp [removeK], ← hS]
    rw [access_lir_eq, hst1]
    by_cases hb : st.lirs_stack_.getLast? = some a
    · rw [if_pos hb]
      exact stack_pruning_eq_self hbot
    · rw [if_neg hb]

theorem stack_pruning_head_of_lir {st : CState K V} (hw : WInv st) {key : K} {e : Entry}
    (hhead : st.lirs_stack_.head? = some key)
    (he : st.map_ key = some e) (hL : e.is_LIR = true) :
    (stack_pruning st).lirs_stack_.head? = some key := by
  obtain ⟨dr, hsplit, hdropped, hkept, hhd⟩ :=
    pruneRec_spec st.lirs_stack_.reverse st.map_ (List.nodup_reverse.mpr hw.ndS)
      (fun k hk => hw.memS k (List.mem_reverse.mp hk))
  have hS' : (stack_pruning st).lirs_stack_ =
      (pruneRec st.lirs_stack_.reverse st.map_).1.reverse := rfl
  have hSsplit : st.lirs_stack_ =
      (pruneRec st.lirs_stack_.reverse st.map_).1.reverse ++ dr.reverse := by
    have h2 := congrArg List.reverse hsplit
    rw [List.reverse_reverse, List.reverse_append] at h2
    exact h2
  have hkdr : key ∉ dr := by
    intro hd
    obtain ⟨e2, he2, hL2, -⟩ := hdropped key hd
    rw [he] at he2
    injection he2 with h2
    rw [← h2] at hL2
    exact absurd (hL.symm.trans hL2) (by simp)
  have hkS : key ∈ st.lirs_stack_ := by
    rcases hx : st.lirs_stack_ with _ | ⟨a, t⟩
    · rw [hx] at hhead
      exact absurd hhead (by simp)
    · rw [hx] at hhead
      simp only [List.head?_cons, Option.some.injEq] at hhead
      rw [← hhead]
      exact List.mem_cons_self _ _
  have hkpost : key ∈ (pruneRec st.lirs_stack_.reverse st.map_).1.reverse := by
    have h2 : key ∈ dr ++ (pruneRec st.lirs_stack_.reverse st.map_).1 := by
      rw [← hsplit]
      exact List.mem_reverse.mpr hkS
    rcases List.mem_append.mp h2 with h | h
    · exact absurd h hkdr
    · exact List.mem_reverse.mpr h
  rcases hp : (pruneRec st.lirs_stack_.reverse st.map_).1.reverse with _ | ⟨x, xs⟩
  · rw [hp] at hkpost
    exact absurd hkpost (by simp)
  · rw [hS', hp]
    rw [hp] at hSsplit
    rw [hSsplit] at hhead
    simp only [List.cons_append, List.head?_cons, Option.some.injEq] at hhead
    simp [hhead]

theorem promote_key_top {st : CState K V} {key : K} {e : Entry} (hp : PPre st key e)
    (hbot : ∀ b, st.lirs_stack_.getLast? = some b →
      ∃ eb, st.map_ b = some eb ∧ eb.is_LIR = true) :
    (promote_to_lir key e st).map_ key = some lirEntryVal ∧
    (promote_to_lir key e st).lirs_stack_.head? = some key := by
  have hkS : key ∈ st.lirs_stack_ := (hp.inS_iff key e hp.find).mp hp.keyS
  rcases hlast : st.lirs_stack_.getLast? with _ | b
  · exfalso
    rw [eq_nil_of_getLast? hlast] at hkS
    simp at hkS
  obtain ⟨eb, heb, hebL⟩ := hbot b hlast
  have hkb : key ≠ b := by
    rintro rfl
    rw [hp.find] at heb
    injection heb with h2
    rw [← h2] at hebL
    rw [hp.keyL] at hebL
    exact absurd hebL (by simp)
  have hw1 : WInv (promote_st1 key e st) := promote_st1_winv hp
  have hlast1 : (promote_st1 key e st).lirs_stack_.getLast? = some b := by
    rw [promote_st1_S]
    exact getLast?_retop hlast hkb hkS
  have heb1 : (promote_st1 key e st).map_ b = some eb := by
    rw [promote_st1_map, mapSet_other _ _ _ (fun hh => hkb hh.symm)]
    exact heb
  have h2eq := demote_fire hlast1 heb1 hebL
  have hw2 : WInv (demote_bottom_lir (promote_st1 key e st)) := demote_winv hw1
  have hkey2 : (demote_bottom_lir (promote_st1 key e st)).map_ key = some lirEntryVal := by
    have hM2 : (demote_bottom_lir (promote_st1 key e st)).map_ =
        mapSet (promote_st1 key e st).map_ b
          { eb with is_LIR := false, in_lirs_stack := false, in_hir_stack := true } := by
      rw [h2eq]
    rw [hM2, mapSet_other _ _ _ hkb]
    exact promote_st1_key_entry hp
  have hhead2 : (demote_bottom_lir (promote_st1 key e st)).lirs_stack_.head? = some key := by
    have hS2 : (demote_bottom_lir (promote_st1 key e st)).lirs_stack_ =
        (promote_st1 key e st).lirs_stack_.dropLast := by
      rw [h2eq]
    rw [hS2, promote_st1_S]
    have hbmem : b ∈ removeK st.lirs_stack_ key :=
      mem_removeK_of_ne (mem_of_getLast? hlast) (fun hh => hkb hh.symm)
    rcases hx : removeK st.lirs_stack_ key with _ | ⟨c, cs⟩
    · rw [hx] at hbmem
      simp at hbmem
    · rw [show (key :: c :: cs).dropLast = key :: (c :: cs).dropLast from rfl]
      simp
  exact ⟨stack_pruning_keeps_lir hw2 key lirEntryVal hkey2 rfl,
    stack_pruning_head_of_lir hw2 hhead2 hkey2 rfl⟩

/-! ### The non-cache components of the routines ignore the value store -/

theorem stack_pruning_noncache_congr {s t : CState K V}
    (hS : s.lirs_stack_ = t.lirs_stack_) (hM : s.map_ = t.map_) :
    (stack_pruning s).lirs_stack_ = (stack_pruning t).lirs_stack_ ∧
    (stack_pruning s).map_ = (stack_pruning t).map_ := by
  unfold stack_pruning
  rw [hS, hM]
  exact ⟨rfl, rfl⟩

theorem demote_noncache_congr {s t : CState K V}
    (hS : s.lirs_stack_ = t.lirs_stack_) (hQ : s.hir_stack_ = t.hir_stack_)
    (hM : s.map_ = t.map_) (hlc : s.lir_count_ = t.lir_count_) :
    (demote_bottom_lir s).lirs_stack_ = (demote_bottom_lir t).lirs_stack_ ∧
    (demote_bottom_lir s).hir_stack_ = (demote_bottom_lir t).hir_stack_ ∧
    (demote_bottom_lir s).map_ = (demote_bottom_lir t).map_ ∧
    (demote_bottom_lir s).lir_count_ = (demote_bottom_lir t).lir_count_ := by
  unfold demote_bottom_lir
  rw [hS, hQ, hM, hlc]
  rcases t.lirs_stack_.getLast? with _ | bk
  · exact ⟨hS, hQ, hM, hlc⟩
  · dsimp only
    split
    · exact ⟨rfl, rfl, rfl, rfl⟩
    · exact ⟨rfl, rfl, rfl, rfl⟩

theorem promote_st1_noncache_congr (key : K) (e : Entry) {s t : CState K V}
    (hS : s.lirs_stack_ = t.lirs_stack_) (hQ : s.hir_stack_ = t.hir_stack_)
    (hM : s.map_ = t.map_) (hlc : s.lir_count_ = t.lir_count_) :
    (promote_st1 key e s).lirs_stack_ = (promote_st1 key e t).lirs_stack_ ∧
    (promote_st1 key e s).hir_stack_ = (promote_st1 key e t).hir_stack_ ∧
    (promote_st1 key e s).map_ = (promote_st1 key e t).map_ ∧
    (promote_st1 key e s).lir_count_ = (promote_st1 key e t).lir_count_ := by
  refine ⟨?_, ?_, ?_, ?_⟩
  · rw [promote_st1_S, promote_st1_S, hS]
  · rw [promote_st1_Q, promote_st1_Q, hQ]
  · rw [promote_st1_map, promote_st1_map, hM]
  · rw [promote_st1_lc, promote_st1_lc, hlc]

theorem promote_noncache_congr (key : K) (e : Entry) {s t : CState K V}
    (hS : s.lirs_stack_ = t.lirs_stack_) (hQ : s.hir_stack_ = t.hir_stack_)
    (hM : s.map_ = t.map_) (hlc : s.lir_count_ = t.lir_count_) :
    (promote_to_lir key e s).lirs_stack_ = (promote_to_lir key e t).lirs_stack_ ∧
    (promote_to_lir key e s).hir_stack_ = (promote_to_lir key e t).hir_stack_ ∧
    (promote_to_lir key e s).map_ = (promote_to_lir key e t).map_ ∧
    (promote_to_lir key e s).lir_count_ = (promote_to_lir key e t).lir_count_ := by
  obtain ⟨a1, a2, a3, a4⟩ := promote_st1_noncache_congr key e hS hQ hM hlc
  obtain ⟨b1, b2, b3, b4⟩ := demote_noncache_congr a1 a2 a3 a4
  obtain ⟨c1, c2⟩ := stack_pruning_noncache_congr b1 b3
  unfold promote_to_lir
  exact ⟨c1, by rw [stack_pruning_q, stack_pruning_q]; exact b2, c2,
    by rw [stack_pruning_lc, stack_pruning_lc]; exact b4⟩

theorem access_lir_noncache_congr (key : K) {s t : CState K V}
    (hS : s.lirs_stack_ = t.lirs_stack_) (hQ : s.hir_stack_ = t.hir_stack_)
    (hM : s.map_ = t.map_) (hlc : s.lir_count_ = t.lir_count_) :
    (access_lir key s).lirs_stack_ = (access_lir key t).lirs_stack_ ∧
    (access_lir key s).hir_stack_ = (access_lir key t).hir_stack_ ∧
    (access_lir key s).map_ = (access_lir key t).map_ ∧
    (access_lir key s).lir_count_ = (access_lir key t).lir_count_ := by
  rw [access_lir_eq, access_lir_eq, hS]
  by_cases hb : t.lirs_stack_.getLast? = some key
  · rw [if_pos hb, if_pos hb]
    have h1 : ({ s with lirs_stack_ := key :: removeK t.lirs_stack_ key } :
        CState K V).lirs_stack_ = ({ t with lirs_stack_ := key :: removeK t.lirs_stack_ key } :
        CState K V).lirs_stack_ := rfl
    have h2 : ({ s with lirs_stack_ := key :: removeK t.lirs_stack_ key } :
        CState K V).map_ = ({ t with lirs_stack_ := key :: removeK t.lirs_stack_ key } :
        CState K V).map_ := hM
    obtain ⟨c1, c2⟩ := stack_pruning_noncache_congr h1 h2
    refine ⟨c1, ?_, c2, ?_⟩
    · rw [stack_pruning_q, stack_pruning_q]
      exact hQ
    · rw [stack_pruning_lc, stack_pruning_lc]
      exact hlc
  · rw [if_neg hb, if_neg hb]
    exact ⟨rfl, hQ, hM, hlc⟩

theorem access_hir_noncache_congr (key : K) (e : Entry) {s t : CState K V}
    (hS : s.lirs_stack_ = t.lirs_stack_) (hQ : s.hir_stack_ = t.hir_stack_)
    (hM : s.map_ = t.map_) (hlc : s.lir_count_ = t.lir_count_) :
    (access_hir_resident key e s).lirs_stack_ = (access_hir_resident key e t).lirs_stack_ ∧
    (access_hir_resident key e s).hir_stack_ = (access_hir_resident key e t).hir_stack_ ∧
    (access_hir_resident key e s).map_ = (access_hir_resident key e t).map_ ∧
    (access_hir_resident key e s).lir_count_ = (access_hir_resident key e t).lir_count_ := by
  by_cases hin : e.in_lirs_stack = true
  · rw [access_hir_eq_promote key e _ hin, access_hir_eq_promote key e _ hin]
    exact promote_noncache_congr key e hS hQ hM hlc
  · rw [access_hir_eq_refresh key e _ hin, access_hir_eq_refresh key e _ hin]
    refine ⟨?_, ?_, ?_, hlc⟩
    · dsimp only
      rw [hS]
    · dsimp only
      rw [hQ]
    · dsimp only
      rw [hM]

theorem putOp_indep (key : K) (v1 v2 : V) (st : CState K V) :
    (putOp key v1 st).lirs_stack_ = (putOp key v2 st).lirs_stack_ ∧
    (putOp key v1 st).hir_stack_ = (putOp key v2 st).hir_stack_ ∧
    (putOp key v1 st).map_ = (putOp key v2 st).map_ ∧
    (putOp key v1 st).lir_count_ = (putOp key v2 st).lir_count_ := by
  rcases he : st.map_ key with _ | e
  · rw [putOp_new_eq v1 he, putOp_new_eq v2 he]
    unfold insert_new
    by_cases hlt : st.lir_count_ < st.lir_capacity_
    · rw [if_pos hlt, if_pos hlt]
      exact ⟨rfl, rfl, rfl, rfl⟩
    · rw [if_neg hlt, if_neg hlt]
      exact ⟨rfl, rfl, rfl, rfl⟩
  · by_cases hL : e.is_LIR = true
    · rw [putOp_lir_eq v1 he hL, putOp_lir_eq v2 he hL]
      exact access_lir_noncache_congr key rfl rfl rfl rfl
    · by_cases hres : e.is_resident = true
      · rw [putOp_hir_eq v1 he (bool_eq_false hL) hres,
          putOp_hir_eq v2 he (bool_eq_false hL) hres]
        exact access_hir_noncache_congr key e rfl rfl rfl rfl
      · rw [putOp_ghost_eq v1 he (bool_eq_false hL) (bool_eq_false hres),
          putOp_ghost_eq v2 he (bool_eq_false hL) (bool_eq_false hres)]
        unfold access_hir_non_resident
        dsimp only
        by_cases hin : e.in_lirs_stack = true
        · rw [if_pos hin, if_pos hin]
          exact promote_noncache_congr key _ rfl rfl rfl rfl
        · rw [if_neg hin, if_neg hin]
          exact ⟨rfl, rfl, rfl, rfl⟩

/-- A `put` on a key whose record is in S leaves the key's entry as the
fully promoted LIR record and the key on top of S. -/
theorem putOp_inS_top {st : CState K V} (hw : WInv st) (hx : ExtraInv st) {key : K}
    {e : Entry} (he : st.map_ key = some e) (hin : e.in_lirs_stack = true) (value : V) :
    (putOp key value st).map_ key = some lirEntryVal ∧
    (putOp key value st).lirs_stack_.head? = some key := by
  by_cases hL : e.is_LIR = true
  · have heval : e = lirEntryVal := by
      obtain ⟨h1, h2, h3⟩ := hw.lirF key e he hL
      obtain ⟨eL, eR, eS, eQ⟩ := e
      simp_all [lirEntryVal]
    subst heval
    rw [putOp_lir_eq value he hL]
    have hw' : WInv ({ st with cache_ := updateCache st.cache_ key value } : CState K V) :=
      upd_cache_winv hw key value
    have he' : ({ st with cache_ := updateCache st.cache_ key value } :
        CState K V).map_ key = some lirEntryVal := he
    rw [access_lir_eq]
    by_cases hb : ({ st with cache_ := updateCache st.cache_ key value } :
        CState K V).lirs_stack_.getLast? = some key
    · rw [if_pos hb]
      have hwr : WInv ({ { st with cache_ := updateCache st.cache_ key value } with
          lirs_stack_ := key :: removeK ({ st with
            cache_ := updateCache st.cache_ key value } :
            CState K V).lirs_stack_ key } : CState K V) :=
        retop_S_winv hw' he' rfl
      refine ⟨stack_pruning_keeps_lir hwr key lirEntryVal he' rfl, ?_⟩
      exact stack_pruning_head_of_lir hwr (by simp) he' rfl
    · rw [if_neg hb]
      exact ⟨he', by simp⟩
  · by_cases hres : e.is_resident = true
    · rw [putOp_hir_eq value he (bool_eq_false hL) hres, access_hir_eq_promote key e _ hin]
      refine promote_key_top
        ((upd_cache_winv hw key value).toPPre he hin (bool_eq_false hL) hres) ?_
      intro b hb
      exact hx.bottomLIR b hb
    · rw [putOp_ghost_eq value he (bool_eq_false hL) (bool_eq_false hres),
        ghost_eq_promote key value e st hin]
      refine promote_key_top (ghost_ppre value hw he (bool_eq_false hres)) ?_
      intro b hb
      have hbS : st.lirs_stack_.getLast? = some b := by
        rw [show ({ evict_hir_resident st with
            cache_ := (key, value) :: (evict_hir_resident st).cache_,
            map_ := mapSet (evict_hir_resident st).map_ key { e with is_resident := true } } :
            CState K V).lirs_stack_ = (evict_hir_resident st).lirs_stack_ from rfl,
          evict_S] at hb
        exact hb
      obtain ⟨eb, heb, hebL⟩ := hx.bottomLIR b hbS
      have hbk : b ≠ key := by
        intro hh
        rw [hh, he] at heb
        injection heb with h2
        rw [← h2] at hebL
        exact hL hebL
      have heb1 : (evict_hir_resident st).map_ b = some eb := by
        rcases hq : st.hir_stack_.getLast? with _ | victim
        · rw [evict_empty (eq_nil_of_getLast? hq)]
          exact heb
        · obtain ⟨ev, hev, hevL, _, _, _, _⟩ := evict_victim_entry hw hq
          have hbv : b ≠ victim := by
            intro hh
            rw [hh, hev] at heb
            injection heb with h2
            rw [← h2] at hebL
            rw [hevL] at hebL
            exact absurd hebL (by simp)
          obtain ⟨_, _, _, _, hmo, _, _⟩ := evict_pop_facts hw hq
          rw [hmo b hbv]
          exact heb
      refine ⟨eb, ?_, hebL⟩
      rw [show ({ evict_hir_resident st with
          cache_ := (key, value) :: (evict_hir_resident st).cache_,
          map_ := mapSet (evict_hir_resident st).map_ key { e with is_resident := true } } :
          CState K V).map_ =
          mapSet (evict_hir_resident st).map_ key { e with is_resident := true } from rfl,
        mapSet_other _ _ _ hbk]
      exact heb1

/-- Repeating a `put` of a key that was just put leaves S and Q unchanged
when the key's record was in S: the second call is an LIR hit on the top of
the stack. -/
theorem putOp_put_stable {st : CState K V} (hw : WInv st) (hx : ExtraInv st) {key : K}
    {e : Entry} (he : st.map_ key = some e) (hin : e.in_lirs_stack = true)
    (v1 v2 : V) :
    (putOp key v2 (putOp key v1 st)).lirs_stack_ = (putOp key v1 st).lirs_stack_ ∧
    (putOp key v2 (putOp key v1 st)).hir_stack_ = (putOp key v1 st).hir_stack_ := by
  obtain ⟨hmapA, hheadA⟩ := putOp_inS_top hw hx he hin v1
  have hwA : WInv (putOp key v1 st) := putOp_winv hw key v1
  have hxA : ExtraInv (putOp key v1 st) := (putOp_inv hw hx key v1).1
  rw [putOp_lir_eq v2 hmapA rfl]
  have hid : access_lir key ({ putOp key v1 st with
      cache_ := updateCache (putOp key v1 st).cache_ key v2 } : CState K V) =
      ({ putOp key v1 st with
        cache_ := updateCache (putOp key v1 st).cache_ key v2 } : CState K V) := by
    refine access_lir_id ?_ ?_
    · exact hheadA
    · intro b hb
      exact hxA.bottomLIR b hb
  rw [hid]
  exact ⟨rfl, rfl⟩

/-! ### Counting distinct inserted keys (for the LIR warm-up law) -/

/-- The keys of the `put` operations of a trace, in order. -/
def putKeys : List (Op K V) → List K
  | [] => []
  | Op.get _ :: rest => putKeys rest
  | Op.put k _ :: rest => k :: putKeys rest

theorem runOps_lc_lower (ops : List (Op K V)) :
    ∀ (st : CState K V) (seen : Finset K), WInv st → ExtraInv st →
    (∀ k, (st.map_ k).isSome = true → k ∈ seen) →
    min st.lir_capacity_ seen.card ≤ st.lir_count_ →
    min st.lir_capacity_ (seen ∪ (putKeys ops).toFinset).card ≤
      (runOps st ops).lir_count_ := by
  induction ops with
  | nil =>
    intro st seen _ _ _ hmin
    simpa [putKeys, runOps] using hmin
  | cons op rest ih =>
    intro st seen hw hx hdom hmin
    cases op with
    | get k =>
      have hw' := getOp_winv hw k
      have hgi := getOp_inv hw hx k
      have hcap' := (getOp_caps k st).2.2
      have hdom' : ∀ j, ((getOp k st).2.map_ j).isSome = true → j ∈ seen :=
        fun j hj => hdom j (getOp_no_new hw k j hj)
      have hmin' : min (getOp k st).2.lir_capacity_ seen.card ≤ (getOp k st).2.lir_count_ := by
        rw [hcap', hgi.2]
        exact hmin
      have hres := ih (getOp k st).2 seen hw' hgi.1 hdom' hmin'
      rw [hcap'] at hres
      simpa [putKeys, runOps, step] using hres
    | put k v =>
      have hw' := putOp_winv hw k v
      have hpi := putOp_inv hw hx k v
      have hcap' := (putOp_caps k v st).2.2
      have hdom' : ∀ j, ((putOp k v st).map_ j).isSome = true → j ∈ insert k seen := by
        intro j hj
        rcases putOp_no_new hw k v j hj with h | h
        · exact Finset.mem_insert_of_mem (hdom j h)
        · rw [h]
          exact Finset.mem_insert_self _ _
      have hmin' : min (putOp k v st).lir_capacity_ (insert k seen).card ≤
          (putOp k v st).lir_count_ := by
        rw [hcap']
        rcases he : st.map_ k with _ | e
        · by_cases hlt : st.lir_count_ < st.lir_capacity_
          · have h1 := hpi.2.2.1 he hlt
            have h2 := Finset.card_insert_le k seen
            rw [h1]
            omega
          · have h1 := hpi.2.2.2 he hlt
            have h2 := hx.lcLe
            rw [h1]
            omega
        · have h1 := hpi.2.1 (by rw [he]; rfl)
          have hkseen : k ∈ seen := hdom k (by rw [he]; rfl)
          rw [h1, Finset.insert_eq_self.mpr hkseen]
          exact hmin
      have hres := ih (putOp k v st) (insert k seen) hw' hpi.1 hdom' hmin'
      rw [hcap'] at hres
      have hrw : insert k seen ∪ (putKeys (K := K) (V := V) rest).toFinset =
          seen ∪ (putKeys (Op.put k v :: rest)).toFinset := by
        simp [putKeys, Finset.insert_union, Finset.union_insert]
      rw [hrw] at hres
      simpa [runOps, step] using hres

/-! ### The full-cache insertion of a brand-new key -/

theorem putOp_full_new {st : CState K V} (hw : WInv st) (hx : ExtraInv st) {key : K}
    (hfull : sizeFn st = capacityFn st) (hnew : st.map_ key = none) (value : V) :
    ∃ victim, st.hir_stack_.getLast? = some victim ∧
      isResidentKey st victim = true ∧
      isResidentKey (putOp key value st) victim = false ∧
      isResidentKey (putOp key value st) key = true ∧
      (∀ j, j ≠ victim → j ≠ key →
        isResidentKey (putOp key value st) j = isResidentKey st j) ∧
      sizeFn (putOp key value st) = sizeFn st := by
  have hsz := hx.sizeEq
  have hcapEq := hx.capEq
  have hlcLe := hx.lcLe
  have hqLen := hx.qLen
  have hfull' : st.cache_.length = st.capacity_ := hfull
  have hlc : st.lir_count_ = st.lir_capacity_ := by omega
  have hqlen : st.hir_stack_.length = st.hir_capacity_ := by omega
  have hq1 : 1 ≤ st.hir_stack_.length := by
    have := hx.hpos
    omega
  rcases hq : st.hir_stack_.getLast? with _ | victim
  · exfalso
    rw [eq_nil_of_getLast? hq] at hq1
    simp at hq1
  obtain ⟨ev, hev, hevL, hevR, hevQ, hevC, hevmem⟩ := evict_victim_entry hw hq
  have hkv : victim ≠ key := by
    intro hh
    rw [hh, hnew] at hev
    exact absurd hev (by simp)
  have hge : ¬ st.lir_count_ < st.lir_capacity_ := by omega
  have hpost : putOp key value st = insert_new key value st := putOp_new_eq value hnew
  have hC : (insert_new key value st).cache_ =
      (key, value) :: (evict_hir_resident st).cache_ := by
    rw [insert_steady_eq key value st hge]
  obtain ⟨hC1, _, hlen1, _, _, _, _⟩ := evict_pop_facts hw hq
  have hCpost : (putOp key value st).cache_ = (key, value) :: eraseKey st.cache_ victim := by
    rw [hpost, hC, hC1]
  have hwpost : WInv (putOp key value st) := putOp_winv hw key value
  have hkeyspost : keysOf (putOp key value st).cache_ = key :: keysOf (eraseKey st.cache_ victim) := by
    rw [hCpost]
    rfl
  refine ⟨victim, rfl, ?_, ?_, ?_, ?_, ?_⟩
  · unfold isResidentKey
    rw [hev]
    exact hevR
  · have hnm : victim ∉ keysOf (putOp key value st).cache_ := by
      rw [hkeyspost]
      intro hm
      rcases List.mem_cons.mp hm with h | h
      · exact hkv h
      · exact not_mem_keysOf_eraseKey hw.ndC victim h
    rcases hr : isResidentKey (putOp key value st) victim with _ | _
    · rfl
    · exact absurd ((isResidentKey_iff_mem hwpost victim).mp hr) hnm
  · refine (isResidentKey_iff_mem hwpost key).mpr ?_
    rw [hkeyspost]
    exact List.mem_cons_self _ _
  · intro j hjv hjk
    refine bool_ext ?_
    rw [isResidentKey_iff_mem hwpost j, isResidentKey_iff_mem hw j, hkeyspost]
    constructor
    · intro hm
      rcases List.mem_cons.mp hm with h | h
      · exact absurd h hjk
      · exact keysOf_eraseKey_subset _ _ h
    · intro hm
      exact List.mem_cons_of_mem _ (mem_keysOf_eraseKey_of_ne hm hjv)
  · have h2 := length_eraseKey_of_mem hevC
    unfold sizeFn
    rw [hCpost]
    simp only [List.length_cons]
    omega

/-! ### Concrete engines for witnesses and counterexamples -/

theorem mkLIRS_nat_one_half : mkLIRS Nat Nat 1 (1/2) = some (initState Nat Nat 1 1) := by
  unfold mkLIRS
  rw [if_neg (by norm_num), if_neg (by norm_num)]
  have h : (((1 : Nat) : ℚ) * (1/2)).floor = 0 := by
    rw [show (((1 : Nat) : ℚ) * (1/2)).floor = ⌊((1 : Nat) : ℚ) * (1/2)⌋ from rfl]
    norm_num
  rw [h]
  norm_num

theorem mkLIRS_nat_two_half : mkLIRS Nat Nat 2 (1/2) = some (initState Nat Nat 2 1) := by
  unfold mkLIRS
  rw [if_neg (by norm_num), if_neg (by norm_num)]
  have h : (((2 : Nat) : ℚ) * (1/2)).floor = 1 := by
    rw [show (((2 : Nat) : ℚ) * (1/2)).floor = ⌊((2 : Nat) : ℚ) * (1/2)⌋ from rfl]
    norm_num
  rw [h]
  norm_num

/-! ### The claims -/

/-- C1: for every engine constructed with capacity at least 2 and a valid
hir-ratio, after any sequence of public operations the number of resident
entries (`size()`) is at most the configured `capacity()`.  (Corrected from
the original claim, which asserted this for every valid capacity: the bound
fails for `capacity = 1`, see the counterexample.) -/
theorem C1_size_le_capacity {cap : Nat} {r : ℚ} {st0 : CState K V}
    (hcap : 2 ≤ cap) (hmk : mkLIRS K V cap r = some st0) (ops : List (Op K V)) :
    sizeFn (runOps st0 ops) ≤ capacityFn (runOps st0 ops) := by
  obtain ⟨hw, hx⟩ := runOps_inv (mkLIRS_inv hcap hmk) ops
  have h1 := hx.sizeEq
  have h2 := hx.capEq
  have h3 := hx.lcLe
  have h4 := hx.qLen
  unfold sizeFn capacityFn
  omega

/-- Witness for C1 at a concrete engine and trace. -/
theorem C1_size_le_capacity_witness :
    2 ≤ 2 ∧ mkLIRS Nat Nat 2 (1/2) = some (initState Nat Nat 2 1) ∧
    sizeFn (runOps (initState Nat Nat 2 1) [Op.put 0 0, Op.put 1 1, Op.put 2 2]) ≤
      capacityFn (runOps (initState Nat Nat 2 1) [Op.put 0 0, Op.put 1 1, Op.put 2 2]) :=
  ⟨by decide, mkLIRS_nat_two_half,
    C1_size_le_capacity (by decide) mkLIRS_nat_two_half [Op.put 0 0, Op.put 1 1, Op.put 2 2]⟩

/-- C1 as stated fails for the validly constructed engine of capacity 1:
after the trace below the cache holds 2 entries while the capacity is 1. -/
theorem C1_counterexample :
    mkLIRS Nat Nat 1 (1/2) = some (initState Nat Nat 1 1) ∧
    capacityFn (runOps (initState Nat Nat 1 1)
        [Op.put 0 0, Op.put 1 1, Op.put 0 2, Op.put 2 3]) <
      sizeFn (runOps (initState Nat Nat 1 1)
        [Op.put 0 0, Op.put 1 1, Op.put 0 2, Op.put 2 3]) :=
  ⟨mkLIRS_nat_one_half, by decide⟩

/-- C2: for capacity at least 2, `lir_count ≤ lir_capacity` at every
boundary, and once at least `lir_capacity` distinct keys have been put,
`lir_count = lir_capacity`.  (Corrected from the original claim, which
asserted the bound for every valid capacity: for `capacity = 1` the count
exceeds `lir_capacity = 0`, see the counterexample.) -/
theorem C2_lir_count {cap : Nat} {r : ℚ} {st0 : CState K V}
    (hcap : 2 ≤ cap) (hmk : mkLIRS K V cap r = some st0) (ops : List (Op K V)) :
    (runOps st0 ops).lir_count_ ≤ (runOps st0 ops).lir_capacity_ ∧
    ((runOps st0 ops).lir_capacity_ ≤ (putKeys ops).toFinset.card →
      (runOps st0 ops).lir_count_ = (runOps st0 ops).lir_capacity_) := by
  obtain ⟨hw0, hx0⟩ := mkLIRS_inv hcap hmk
  obtain ⟨hw, hx⟩ := runOps_inv ⟨hw0, hx0⟩ ops
  refine ⟨hx.lcLe, ?_⟩
  intro henough
  obtain ⟨h0, h1, hst⟩ := mkLIRS_elim hmk
  have hdom : ∀ k, (st0.map_ k).isSome = true → k ∈ (∅ : Finset K) := by
    intro k hk
    rw [hst] at hk
    exact absurd hk (by simp [initState])
  have hmin : min st0.lir_capacity_ (∅ : Finset K).card ≤ st0.lir_count_ := by
    simp
  have hres := runOps_lc_lower ops st0 ∅ hw0 hx0 hdom hmin
  rw [Finset.empty_union] at hres
  have hcapeq := (runOps_caps st0 ops).2.2
  rw [← hcapeq] at hres
  have := hx.lcLe
  omega

/-- Witness for C2 at a concrete engine and trace. -/
theorem C2_lir_count_witness :
    2 ≤ 2 ∧ mkLIRS Nat Nat 2 (1/2) = some (initState Nat Nat 2 1) ∧
    ((runOps (initState Nat Nat 2 1) [Op.put 0 0]).lir_count_ ≤
      (runOps (initState Nat Nat 2 1) [Op.put 0 0]).lir_capacity_ ∧
    ((runOps (initState Nat Nat 2 1) [Op.put 0 0]).lir_capacity_ ≤
        (putKeys [Op.put 0 0]).toFinset.card →
      (runOps (initState Nat Nat 2 1) [Op.put 0 0]).lir_count_ =
        (runOps (initState Nat Nat 2 1) [Op.put 0 0]).lir_capacity_)) :=
  ⟨by decide, mkLIRS_nat_two_half,
    C2_lir_count (by decide) mkLIRS_nat_two_half [Op.put 0 0]⟩

/-- C2 as stated fails for the validly constructed engine of capacity 1:
after the trace below `lir_count = 1` exceeds `lir_capacity = 0`. -/
theorem C2_counterexample :
    mkLIRS Nat Nat 1 (1/2) = some (initState Nat Nat 1 1) ∧
    (runOps (initState Nat Nat 1 1) [Op.put 0 0, Op.put 1 1, Op.put 0 2]).lir_capacity_ <
      (runOps (initState Nat Nat 1 1) [Op.put 0 0, Op.put 1 1, Op.put 0 2]).lir_count_ :=
  ⟨mkLIRS_nat_one_half, by decide⟩

/-- C3: for capacity at least 2, whenever stack S is non-empty the entry of
the key at its bottom has `is_LIR = true`.  (Corrected from the original
claim, which asserted this for every valid capacity: for `capacity = 1` the
bottom of S can be an HIR entry, see the counterexample.) -/
theorem C3_bottom_lir {cap : Nat} {r : ℚ} {st0 : CState K V}
    (hcap : 2 ≤ cap) (hmk : mkLIRS K V cap r = some st0) (ops : List (Op K V)) :
    ∀ b, (runOps st0 ops).lirs_stack_.getLast? = some b →
      ∃ e, (runOps st0 ops).map_ b = some e ∧ e.is_LIR = true := by
  obtain ⟨hw, hx⟩ := runOps_inv (mkLIRS_inv hcap hmk) ops
  exact hx.bottomLIR

/-- Witness for C3 at a concrete engine and trace. -/
theorem C3_bottom_lir_witness :
    2 ≤ 2 ∧ mkLIRS Nat Nat 2 (1/2) = some (initState Nat Nat 2 1) ∧
    (runOps (initState Nat Nat 2 1) [Op.put 0 0]).lirs_stack_.getLast? = some 0 ∧
    ∃ e, (runOps (initState Nat Nat 2 1) [Op.put 0 0]).map_ 0 = some e ∧ e.is_LIR = true :=
  ⟨by decide, mkLIRS_nat_two_half, by decide,
    C3_bottom_lir (by decide) mkLIRS_nat_two_half [Op.put 0 0] 0 (by decide)⟩

/-- C3 as stated fails for the validly constructed engine of capacity 1:
after one insertion the bottom of S is a resident HIR entry. -/
theorem C3_counterexample :
    mkLIRS Nat Nat 1 (1/2) = some (initState Nat Nat 1 1) ∧
    (runOps (initState Nat Nat 1 1) [Op.put 0 0]).lirs_stack_.getLast? = some 0 ∧
    (runOps (initState Nat Nat 1 1) [Op.put 0 0]).map_ 0 =
      some { is_LIR := false, is_resident := true, in_lirs_stack := true,
             in_hir_stack := true } :=
  ⟨mkLIRS_nat_one_half, by decide, by decide⟩

/-- C4: after `put(k, v1)` then `put(k, v2)`, a `get(k)` yields `v2`; and
when the key's entry record exists and is in stack S, the two puts leave
the same S and Q as the single `put(k, v2)`.  (Corrected from the original
claim, which asserted the S/Q equivalence for every state and key: it fails
for a completely new key inserted into a cache whose LIR set is full, see
the counterexample.) -/
theorem C4_double_put {cap : Nat} {r : ℚ} {st0 : CState K V}
    (hcap : 2 ≤ cap) (hmk : mkLIRS K V cap r = some st0) (ops : List (Op K V))
    (key : K) (v1 v2 : V) :
    (getOp key (putOp key v2 (putOp key v1 (runOps st0 ops)))).1 = some v2 ∧
    (∀ e, (runOps st0 ops).map_ key = some e → e.in_lirs_stack = true →
      (putOp key v2 (putOp key v1 (runOps st0 ops))).lirs_stack_ =
        (putOp key v2 (runOps st0 ops)).lirs_stack_ ∧
      (putOp key v2 (putOp key v1 (runOps st0 ops))).hir_stack_ =
        (putOp key v2 (runOps st0 ops)).hir_stack_) := by
  obtain ⟨hw, hx⟩ := runOps_inv (mkLIRS_inv hcap hmk) ops
  constructor
  · have hwA : WInv (putOp key v1 (runOps st0 ops)) := putOp_winv hw key v1
    obtain ⟨eA, heA, hresA⟩ := putOp_makes_resident hw key v1
    obtain ⟨eB, heB, hresB⟩ := putOp_makes_resident hwA key v2
    rw [getOp_fst_resident heB hresB]
    exact putOp_value hwA heA hresA v2
  · intro e he hin
    obtain ⟨hS, hQ⟩ := putOp_put_stable hw hx he hin v1 v2
    obtain ⟨iS, iQ, _, _⟩ := putOp_indep key v1 v2 (runOps st0 ops)
    exact ⟨hS.trans iS, hQ.trans iQ⟩

/-- Witness for C4 at a concrete engine and trace. -/
theorem C4_double_put_witness :
    2 ≤ 2 ∧ mkLIRS Nat Nat 2 (1/2) = some (initState Nat Nat 2 1) ∧
    (getOp 0 (putOp 0 7 (putOp 0 5 (runOps (initState Nat Nat 2 1) [Op.put 0 0])))).1 =
      some 7 :=
  ⟨by decide, mkLIRS_nat_two_half,
    (C4_double_put (by decide) mkLIRS_nat_two_half [Op.put 0 0] 0 5 7).1⟩

/-- C4's S/Q equivalence fails for a completely new key put twice into a
full cache: the double put promotes the key to LIR while the single put
leaves it HIR, so the stacks differ. -/
theorem C4_counterexample :
    mkLIRS Nat Nat 2 (1/2) = some (initState Nat Nat 2 1) ∧
    (putOp 2 3 (putOp 2 2 (runOps (initState Nat Nat 2 1)
        [Op.put 0 0, Op.put 1 1]))).lirs_stack_ ≠
      (putOp 2 3 (runOps (initState Nat Nat 2 1) [Op.put 0 0, Op.put 1 1])).lirs_stack_ :=
  ⟨mkLIRS_nat_two_half, by decide⟩

/-- C5: for capacity at least 2, a put of a completely new key into a full
cache evicts exactly the key at the bottom of Q: that key loses residency,
the new key becomes resident, every other key keeps its residency, and the
size is unchanged.  (Corrected from the original claim, which asserted this
for every reachable full state: for `capacity = 1` Q can be empty while the
cache is full, and then nothing is evicted, see the counterexample.) -/
theorem C5_full_insert_evicts {cap : Nat} {r : ℚ} {st0 : CState K V}
    (hcap : 2 ≤ cap) (hmk : mkLIRS K V cap r = some st0) (ops : List (Op K V))
    (key : K) (value : V)
    (hfull : sizeFn (runOps st0 ops) = capacityFn (runOps st0 ops))
    (hnew : (runOps st0 ops).map_ key = none) :
    ∃ victim, (runOps st0 ops).hir_stack_.getLast? = some victim ∧
      isResidentKey (runOps st0 ops) victim = true ∧
      isResidentKey (putOp key value (runOps st0 ops)) victim = false ∧
      isResidentKey (putOp key value (runOps st0 ops)) key = true ∧
      (∀ j, j ≠ victim → j ≠ key →
        isResidentKey (putOp key value (runOps st0 ops)) j =
          isResidentKey (runOps st0 ops) j) ∧
      sizeFn (putOp key value (runOps st0 ops)) = sizeFn (runOps st0 ops) := by
  obtain ⟨hw, hx⟩ := runOps_inv (mkLIRS_inv hcap hmk) ops
  exact putOp_full_new hw hx hfull hnew value

/-- Witness for C5 at a concrete engine and trace. -/
theorem C5_full_insert_evicts_witness :
    2 ≤ 2 ∧ mkLIRS Nat Nat 2 (1/2) = some (initState Nat Nat 2 1) ∧
    sizeFn (runOps (initState Nat Nat 2 1) [Op.put 0 0, Op.put 1 1]) =
      capacityFn (runOps (initState Nat Nat 2 1) [Op.put 0 0, Op.put 1 1]) ∧
    (runOps (initState Nat Nat 2 1) [Op.put 0 0, Op.put 1 1]).map_ 2 = none ∧
    ∃ victim, (runOps (initState Nat Nat 2 1)
        [Op.put 0 0, Op.put 1 1]).hir_stack_.getLast? = some victim ∧
      isResidentKey (runOps (initState Nat Nat 2 1) [Op.put 0 0, Op.put 1 1]) victim = true ∧
      isResidentKey (putOp 2 3 (runOps (initState Nat Nat 2 1)
        [Op.put 0 0, Op.put 1 1])) victim = false ∧
      isResidentKey (putOp 2 3 (runOps (initState Nat Nat 2 1)
        [Op.put 0 0, Op.put 1 1])) 2 = true ∧
      (∀ j, j ≠ victim → j ≠ 2 →
        isResidentKey (putOp 2 3 (runOps (initState Nat Nat 2 1)
          [Op.put 0 0, Op.put 1 1])) j =
          isResidentKey (runOps (initState Nat Nat 2 1) [Op.put 0 0, Op.put 1 1]) j) ∧
      sizeFn (putOp 2 3 (runOps (initState Nat Nat 2 1) [Op.put 0 0, Op.put 1 1])) =
        sizeFn (runOps (initState Nat Nat 2 1) [Op.put 0 0, Op.put 1 1]) :=
  ⟨by decide, mkLIRS_nat_two_half, by decide, by decide,
    C5_full_insert_evicts (by decide) mkLIRS_nat_two_half [Op.put 0 0, Op.put 1 1] 2 3
      (by decide) (by decide)⟩

/-- C5 as stated fails for the validly constructed engine of capacity 1:
the cache is full, the put key is completely new, yet Q is empty and the
put evicts nothing (the size grows instead). -/
theorem C5_counterexample :
    mkLIRS Nat Nat 1 (1/2) = some (initState Nat Nat 1 1) ∧
    sizeFn (runOps (initState Nat Nat 1 1) [Op.put 0 0, Op.put 1 1, Op.put 0 2]) =
      capacityFn (runOps (initState Nat Nat 1 1) [Op.put 0 0, Op.put 1 1, Op.put 0 2]) ∧
    (runOps (initState Nat Nat 1 1) [Op.put 0 0, Op.put 1 1, Op.put 0 2]).map_ 2 = none ∧
    (runOps (initState Nat Nat 1 1)
      [Op.put 0 0, Op.put 1 1, Op.put 0 2]).hir_stack_.getLast? = none ∧
    sizeFn (putOp 2 3 (runOps (initState Nat Nat 1 1)
        [Op.put 0 0, Op.put 1 1, Op.put 0 2])) =
      sizeFn (runOps (initState Nat Nat 1 1) [Op.put 0 0, Op.put 1 1, Op.put 0 2]) + 1 :=
  ⟨mkLIRS_nat_one_half, by decide, by decide, by decide, by decide⟩

/-- C6: for capacity at least 2, a `get` of a resident key returns its
stored value, leaves the value store (hence the size and every key's
residency) unchanged, and leaves `lir_count` unchanged.  (Corrected from
the original claim, which asserted this for every reachable state: for
`capacity = 1` a `get` can change `lir_count`, see the counterexample.) -/
theorem C6_get_resident {cap : Nat} {r : ℚ} {st0 : CState K V}
    (hcap : 2 ≤ cap) (hmk : mkLIRS K V cap r = some st0) (ops : List (Op K V))
    (key : K) (hres : isResidentKey (runOps st0 ops) key = true) :
    (getOp key (runOps st0 ops)).1 = lookupCache (runOps st0 ops).cache_ key ∧
    ((getOp key (runOps st0 ops)).1).isSome = true ∧
    (getOp key (runOps st0 ops)).2.cache_ = (runOps st0 ops).cache_ ∧
    (∀ j, isResidentKey (getOp key (runOps st0 ops)).2 j =
      isResidentKey (runOps st0 ops) j) ∧
    sizeFn (getOp key (runOps st0 ops)).2 = sizeFn (runOps st0 ops) ∧
    (getOp key (runOps st0 ops)).2.lir_count_ = (runOps st0 ops).lir_count_ := by
  obtain ⟨hw, hx⟩ := runOps_inv (mkLIRS_inv hcap hmk) ops
  obtain ⟨e, he, her⟩ := isResidentKey_of_entry hres
  have hC := getOp_state_cache key (runOps st0 ops)
  have hw' := getOp_winv hw key
  refine ⟨getOp_fst_resident he her, ?_, hC, ?_, ?_, (getOp_inv hw hx key).2⟩
  · rw [getOp_fst_resident he her, lookupCache_isSome_iff]
    exact (hw.res_iff key e he).mp her
  · intro j
    refine bool_ext ?_
    rw [isResidentKey_iff_mem hw' j, isResidentKey_iff_mem hw j, hC]
  · unfold sizeFn
    rw [hC]

/-- Witness for C6 at a concrete engine and trace. -/
theorem C6_get_resident_witness :
    2 ≤ 2 ∧ mkLIRS Nat Nat 2 (1/2) = some (initState Nat Nat 2 1) ∧
    isResidentKey (runOps (initState Nat Nat 2 1) [Op.put 0 0]) 0 = true ∧
    (getOp 0 (runOps (initState Nat Nat 2 1) [Op.put 0 0])).1 =
      lookupCache (runOps (initState Nat Nat 2 1) [Op.put 0 0]).cache_ 0 :=
  ⟨by decide, mkLIRS_nat_two_half, by decide,
    (C6_get_resident (by decide) mkLIRS_nat_two_half [Op.put 0 0] 0 (by decide)).1⟩

/-- C6 as stated fails for the validly constructed engine of capacity 1:
a `get` of a resident key changes `lir_count`. -/
theorem C6_counterexample :
    mkLIRS Nat Nat 1 (1/2) = some (initState Nat Nat 1 1) ∧
    isResidentKey (runOps (initState Nat Nat 1 1) [Op.put 0 0, Op.put 1 1]) 1 = true ∧
    (getOp 1 (runOps (initState Nat Nat 1 1) [Op.put 0 0, Op.put 1 1])).2.lir_count_ ≠
      (runOps (initState Nat Nat 1 1) [Op.put 0 0, Op.put 1 1]).lir_count_ :=
  ⟨mkLIRS_nat_one_half, by decide, by decide⟩

/-- C7: a `get` of an unknown key or of a known-but-non-resident (ghost)
key returns absent and leaves the whole state unchanged.  (This holds for
every state of the model, in particular every reachable one.) -/
theorem C7_get_absent (st : CState K V) (key : K)
    (h : st.map_ key = none ∨ ∃ e, st.map_ key = some e ∧ e.is_resident = false) :
    getOp key st = (none, st) := by
  rcases h with h | ⟨e, he, hres⟩
  · exact getOp_miss_unknown h
  · exact getOp_miss_ghost he hres

/-- Witness for C7 at a concrete reachable state with a ghost key. -/
theorem C7_get_absent_witness :
    (∃ e, (runOps (initState Nat Nat 1 1) [Op.put 0 0, Op.put 1 1]).map_ 0 = some e ∧
      e.is_resident = false) ∧
    getOp 0 (runOps (initState Nat Nat 1 1) [Op.put 0 0, Op.put 1 1]) =
      (none, runOps (initState Nat Nat 1 1) [Op.put 0 0, Op.put 1 1]) :=
  ⟨⟨{ is_LIR := false, is_resident := false, in_lirs_stack := true, in_hir_stack := false },
      by decide, by decide⟩,
    C7_get_absent _ 0 (Or.inr ⟨{ is_LIR := false, is_resident := false, in_lirs_stack := true, in_hir_stack := false }, by decide, by decide⟩)⟩

/-- C8: construction succeeds exactly when the capacity is positive and the
hir-ratio lies strictly inside (0, 1); otherwise it throws and produces no
engine instance. -/
theorem C8_constructor_validation (cap : Nat) (r : ℚ) :
    (mkLIRS K V cap r).isSome = true ↔ (0 < cap ∧ 0 < r ∧ r < 1) := by
  unfold mkLIRS
  by_cases h0 : cap = 0
  · rw [if_pos h0]
    simp [h0]
  · rw [if_neg h0]
    by_cases h1 : r ≤ 0 ∨ 1 ≤ r
    · rw [if_pos h1]
      simp only [Option.isSome_none, Bool.false_eq_true, false_iff]
      rintro ⟨hcap, hr0, hr1⟩
      rcases h1 with h | h
      · linarith
      · linarith
    · rw [if_neg h1]
      push_neg at h1
      simp only [Option.isSome_some, true_iff]
      exact ⟨Nat.pos_of_ne_zero h0, h1.1, h1.2⟩

/-- C9: after any sequence of public operations on a validly constructed
engine, neither S nor Q contains a duplicate key. -/
theorem C9_no_duplicates {cap : Nat} {r : ℚ} {st0 : CState K V}
    (hmk : mkLIRS K V cap r = some st0) (ops : List (Op K V)) :
    (runOps st0 ops).lirs_stack_.Nodup ∧ (runOps st0 ops).hir_stack_.Nodup := by
  have hw := runOps_winv (mkLIRS_winv hmk) ops
  exact ⟨hw.ndS, hw.ndQ⟩

/-- Witness for C9 at a concrete engine and trace. -/
theorem C9_no_duplicates_witness :
    mkLIRS Nat Nat 1 (1/2) = some (initState Nat Nat 1 1) ∧
    ((runOps (initState Nat Nat 1 1) [Op.put 0 0, Op.put 1 1]).lirs_stack_.Nodup ∧
     (runOps (initState Nat Nat 1 1) [Op.put 0 0, Op.put 1 1]).hir_stack_.Nodup) :=
  ⟨mkLIRS_nat_one_half, C9_no_duplicates mkLIRS_nat_one_half [Op.put 0 0, Op.put 1 1]⟩

/-- C10: a `put` of a resident key never evicts: the size is unchanged,
every key keeps its residency, every other key keeps its stored value, and
the key's stored value becomes the new value. -/
theorem C10_put_resident_no_evict {cap : Nat} {r : ℚ} {st0 : CState K V}
    (hmk : mkLIRS K V cap r = some st0) (ops : List (Op K V)) (key : K) (value : V)
    (hres : isResidentKey (runOps st0 ops) key = true) :
    sizeFn (putOp key value (runOps st0 ops)) = sizeFn (runOps st0 ops) ∧
    (∀ j, isResidentKey (putOp key value (runOps st0 ops)) j =
      isResidentKey (runOps st0 ops) j) ∧
    (∀ j, j ≠ key →
      lookupCache (putOp key value (runOps st0 ops)).cache_ j =
        lookupCache (runOps st0 ops).cache_ j) ∧
    lookupCache (putOp key value (runOps st0 ops)).cache_ key = some value := by
  have hw := runOps_winv (mkLIRS_winv hmk) ops
  obtain ⟨e, he, her⟩ := isResidentKey_of_entry hres
  have hC := putOp_resident_cache value he her
  have hw' := putOp_winv hw key value
  refine ⟨?_, ?_, ?_, putOp_value hw he her value⟩
  · unfold sizeFn
    rw [hC, length_updateCache]
  · intro j
    refine bool_ext ?_
    rw [isResidentKey_iff_mem hw' j, isResidentKey_iff_mem hw j, hC, keysOf_updateCache]
  · intro j hjk
    rw [hC]
    exact lookupCache_updateCache_other _ _ _ hjk

/-- Witness for C10 at a concrete engine and trace. -/
theorem C10_put_resident_no_evict_witness :
    mkLIRS Nat Nat 1 (1/2) = some (initState Nat Nat 1 1) ∧
    isResidentKey (runOps (initState Nat Nat 1 1) [Op.put 0 0]) 0 = true ∧
    lookupCache (putOp 0 9 (runOps (initState Nat Nat 1 1) [Op.put 0 0])).cache_ 0 =
      some 9 :=
  ⟨mkLIRS_nat_one_half, by decide,
    (C10_put_resident_no_evict mkLIRS_nat_one_half [Op.put 0 0] 0 9 (by decide)).2.2.2⟩

end LIRS
